import Mathlib

set_option allowUnsafeReducibility true
attribute [semireducible] Rat.mul Rat.div Rat.add Rat.sub Rat.inv Rat.neg

/-!
Shallow embedding of the sparse LU factorization kernels `lucopy` (lucopy.go,
package lufact) and `ludfs` (ludfs.go, package gp) from rwlincoln/gp, and
verification of the specification claims about them.

Modelling conventions:
* Go `[]float64` values are modelled as `List ℚ`; the code only compares,
  takes absolute values, multiplies thresholds and divides by the pivot, all
  of which are exact on any linearly ordered field, so ℚ preserves the
  branching behaviour of the source.
* Go `[]int` arrays are modelled as `List Nat` (all stored identities are
  nonnegative); reads are `List.getD _ _ 0`, writes are `List.set`.
* Go `for` loops become structural recursion on the iteration count, with the
  current loop index carried explicitly; the mutated arrays are threaded
  through, so reads during a loop see earlier writes exactly as in Go.
* `int` expressions that can be negative in Go (`pivot`, `nzcount`, `lastlu`
  in lucopy) are `Int`; loop bounds of the form `x <= b-1` over nonnegative
  values are rendered with truncated subtraction on the iteration count,
  which agrees with the Go comparison for all nonnegative bounds.
-/

/-- Error results of `lucopy`, one per `return -1, fmt.Errorf(...)` site:
`zeroLenUL` for "zero length (U-I+L) column", `zeroLenL` for the two
"zero length L column" returns, `noPivot` for "ujjptr not set (1)",
`zeroPivot` for "numerically zero diagonal element at column". -/
inductive LuErr where
  | zeroLenUL : LuErr
  | zeroLenL : LuErr
  | noPivot : LuErr
  | zeroPivot : LuErr
deriving DecidableEq, Repr

deriving instance DecidableEq for Except

/-- State mutated by `lucopy`: the value array `lu`, the row array `lurow`,
the column boundary arrays `lcolst` and `ucolst`, the row permutation
`rperm`, the dense work column `dense`, and the storage high-water mark
`lastlu` (an `Int`, since Go stores `nzcpy - 1` there). -/
structure LuState where
  lu : List ℚ
  lurow : List Nat
  lcolst : List Nat
  ucolst : List Nat
  rperm : List Nat
  dense : List ℚ
  lastlu : Int
deriving DecidableEq, Repr

/-- Rows stored at `n` consecutive positions of `lurow` starting at `start`. -/
def colRows (lurow : List Nat) : Nat → Nat → List Nat
  | 0, _ => []
  | n + 1, start => lurow.getD start 0 :: colRows lurow n (start + 1)

/-- U-part compaction loop of the `pivot <= 0` branch (lucopy.go lines 77-88):
keep an entry iff `pattern[irow] != 0 || irow == cperm[jcol]`, zero its dense
slot either way.  Arguments: remaining iteration count, current `nzptr`, then
the mutated state `(lurow, lu, dense, nzcpy)`. -/
def copyU0Loop (pattern : List Nat) (cj : Nat) :
    Nat → Nat → List Nat → List ℚ → List ℚ → Nat →
    List Nat × List ℚ × List ℚ × Nat
  | 0, _, lurow, lu, dense, nzcpy => (lurow, lu, dense, nzcpy)
  | n + 1, nzptr, lurow, lu, dense, nzcpy =>
    let irow := lurow.getD nzptr 0
    if pattern.getD irow 0 ≠ 0 ∨ irow = cj then
      copyU0Loop pattern cj n (nzptr + 1) (lurow.set nzcpy irow)
        (lu.set nzcpy (dense.getD irow 0)) (dense.set irow 0) (nzcpy + 1)
    else
      copyU0Loop pattern cj n (nzptr + 1) lurow lu (dense.set irow 0) nzcpy

/-- L-part compaction loop of the `pivot <= 0` branch (lucopy.go lines 92-106):
records `ujjptr := nzcpy` whenever `pattern[irow] == 2`, keeps an entry iff
`pattern[irow] != 0 || pattern[irow] == 2`.  State: `(lurow, lu, dense,
nzcpy, ujjptr)`. -/
def copyL0Loop (pattern : List Nat) :
    Nat → Nat → List Nat → List ℚ → List ℚ → Nat → Nat →
    List Nat × List ℚ × List ℚ × Nat × Nat
  | 0, _, lurow, lu, dense, nzcpy, ujjptr => (lurow, lu, dense, nzcpy, ujjptr)
  | n + 1, nzptr, lurow, lu, dense, nzcpy, ujjptr =>
    let irow := lurow.getD nzptr 0
    let ujjptr1 := if pattern.getD irow 0 = 2 then nzcpy else ujjptr
    if pattern.getD irow 0 ≠ 0 ∨ pattern.getD irow 0 = 2 then
      copyL0Loop pattern n (nzptr + 1) (lurow.set nzcpy irow)
        (lu.set nzcpy (dense.getD irow 0)) (dense.set irow 0) (nzcpy + 1) ujjptr1
    else
      copyL0Loop pattern n (nzptr + 1) lurow lu (dense.set irow 0) nzcpy ujjptr1

/-- Maximum-magnitude scan used for the magnitude-based drop thresholds
(lucopy.go lines 129-136 and 139-146); accumulator starts at `-1.0`. -/
def maxAbsLoop (lurow : List Nat) (dense : List ℚ) : Nat → Nat → ℚ → ℚ
  | 0, _, m => m
  | n + 1, nzptr, m =>
    let utemp := |dense.getD (lurow.getD nzptr 0) 0|
    maxAbsLoop lurow dense n (nzptr + 1) (if utemp > m then utemp else m)

/-- Magnitudes written into the scratch buffer `twork` (lucopy.go lines
149-155 and 164-170), as a list in loop order. -/
def absList (lurow : List Nat) (dense : List ℚ) : Nat → Nat → List ℚ
  | 0, _ => []
  | n + 1, nzptr =>
    |dense.getD (lurow.getD nzptr 0) 0| :: absList lurow dense n (nzptr + 1)

/-- Modelled from the spec: `dordstat`, the order-statistics selection
primitive, is external to this repository (only its call sites are in
src/).  The spec describes it as a pure function returning the k-th
smallest magnitude of a vector; `dordstat k l` is the k-th smallest
element of `l` (1-based `k`). -/
def dordstat (k : Nat) (l : List ℚ) : ℚ :=
  (l.insertionSort (· ≤ ·)).getD (k - 1) 0

/-- U-part compaction loop of the `pivot > 0` branch (lucopy.go lines
184-196): keep an entry iff `pattern[irow] != 0 || |dense[irow]| >=
udthreshabs`. -/
def copyUtLoop (pattern : List Nat) (udth : ℚ) :
    Nat → Nat → List Nat → List ℚ → List ℚ → Nat →
    List Nat × List ℚ × List ℚ × Nat
  | 0, _, lurow, lu, dense, nzcpy => (lurow, lu, dense, nzcpy)
  | n + 1, nzptr, lurow, lu, dense, nzcpy =>
    let irow := lurow.getD nzptr 0
    if pattern.getD irow 0 ≠ 0 ∨ |dense.getD irow 0| ≥ udth then
      copyUtLoop pattern udth n (nzptr + 1) (lurow.set nzcpy irow)
        (lu.set nzcpy (dense.getD irow 0)) (dense.set irow 0) (nzcpy + 1)
    else
      copyUtLoop pattern udth n (nzptr + 1) lurow lu (dense.set irow 0) nzcpy

/-- Pivot-candidate scan over the L range (lucopy.go lines 216-243); a pure
fold recording `(diagptr, diagpiv, ujjptr, maxpiv, maxpivglb)`, where
`diagptr` is the last row with `pattern == 2`, `ujjptr` the first row
attaining the running maximum magnitude. -/
def pivScanLoop (pattern lurow : List Nat) (dense : List ℚ) :
    Nat → Nat → Nat → ℚ → Nat → ℚ → ℚ → Nat × ℚ × Nat × ℚ × ℚ
  | 0, _, diagptr, diagpiv, ujjptr, maxpiv, maxpivglb =>
    (diagptr, diagpiv, ujjptr, maxpiv, maxpivglb)
  | n + 1, nzptr, diagptr, diagpiv, ujjptr, maxpiv, maxpivglb =>
    let irow := lurow.getD nzptr 0
    let utemp := |dense.getD irow 0|
    let diagptr1 := if pattern.getD irow 0 = 2 then irow else diagptr
    let diagpiv1 := if pattern.getD irow 0 = 2 then utemp else diagpiv
    let ujjptr1 := if utemp > maxpiv then irow else ujjptr
    let maxpiv1 := if utemp > maxpiv then utemp else maxpiv
    let mg1 := if utemp > maxpivglb then utemp else maxpivglb
    pivScanLoop pattern lurow dense n (nzptr + 1) diagptr1 diagpiv1 ujjptr1 maxpiv1 mg1

/-- L-part drop/compaction loop of the `pivot > 0` branch (lucopy.go lines
261-292): drop an entry iff `pattern[irow] == 0 && irow != diagptr &&
|dense[irow]| < ldthreshabs`; record `ujjptr := nzcpy` when the kept entry
is the selected pivot row `diagptr`. -/
def dropLLoop (pattern : List Nat) (diagptr : Nat) (ldth : ℚ) :
    Nat → Nat → List Nat → List ℚ → List ℚ → Nat → Nat →
    List Nat × List ℚ × List ℚ × Nat × Nat
  | 0, _, lurow, lu, dense, nzcpy, ujjptr => (lurow, lu, dense, nzcpy, ujjptr)
  | n + 1, nzptr, lurow, lu, dense, nzcpy, ujjptr =>
    let irow := lurow.getD nzptr 0
    let utemp := |dense.getD irow 0|
    if pattern.getD irow 0 = 0 ∧ irow ≠ diagptr ∧ utemp < ldth then
      dropLLoop pattern diagptr ldth n (nzptr + 1) lurow lu (dense.set irow 0)
        nzcpy ujjptr
    else
      let ujjptr1 := if irow = diagptr then nzcpy else ujjptr
      dropLLoop pattern diagptr ldth n (nzptr + 1) (lurow.set nzcpy irow)
        (lu.set nzcpy (dense.getD irow 0)) (dense.set irow 0) (nzcpy + 1) ujjptr1

/-- Column scaling loop (lucopy.go lines 334-336): divide the L entries by
the diagonal value `ujj`. -/
def divLoop (ujj : ℚ) : Nat → Nat → List ℚ → List ℚ
  | 0, _, lu => lu
  | n + 1, nzptr, lu => divLoop ujj n (nzptr + 1) (lu.set nzptr (lu.getD nzptr 0 / ujj))

/-- Common epilogue of `lucopy` (lucopy.go lines 300-339): check that a
diagonal index was found, check it is numerically nonzero, swap the diagonal
from the front of L into U, record the pivot in `rperm`, and divide column
`jcol` of L by the diagonal.  Takes the state as mutated by the branch and
the branch's final `ujjptr`. -/
def luTail (jcol ujjptr : Nat) (lu : List ℚ) (lurow lcolst ucolst rperm : List Nat)
    (dense : List ℚ) (lastlu : Int) : LuState × Except LuErr Nat :=
  if ujjptr = 0 then
    (⟨lu, lurow, lcolst, ucolst, rperm, dense, lastlu⟩, Except.error LuErr.noPivot)
  else
    let pivrow := lurow.getD ujjptr 0
    let ujj := lu.getD ujjptr 0
    if ujj = 0 then
      (⟨lu, lurow, lcolst, ucolst, rperm, dense, lastlu⟩, Except.error LuErr.zeroPivot)
    else
      let dptr := lcolst.getD jcol 0
      let lurow1 := (lurow.set ujjptr (lurow.getD dptr 0)).set dptr pivrow
      let lu1 := (lu.set ujjptr (lu.getD dptr 0)).set dptr ujj
      let lcolst1 := lcolst.set jcol (dptr + 1)
      let rperm1 := rperm.set pivrow jcol
      let nzst := dptr + 1
      let lu2 := divLoop ujj (ucolst.getD (jcol + 1) 0 - nzst) nzst lu1
      (⟨lu2, lurow1, lcolst1, ucolst, rperm1, dense, lastlu⟩, Except.ok pivrow)

/-- Embedding of `lucopy` (lucopy.go lines 46-340).  Parameters follow the Go
signature; `twork` is subsumed by `absList`/`dordstat`, `ncol` is unused by
the Go body and omitted, and the returned pair is the mutated state together
with `Except.ok zpivot` or the error. -/
def lucopy (pivot : Int) (pthresh dthresh : ℚ) (nzcount : Int) (jcol : Nat)
    (lastlu : Int) (lu : List ℚ) (lurow lcolst ucolst rperm cperm : List Nat)
    (dense : List ℚ) (pattern : List Nat) : LuState × Except LuErr Nat :=
  if pivot ≤ 0 then
    -- zero length (U-I+L) column test: ucolst[jcol+1]-1 < ucolst[jcol]
    if ucolst.getD (jcol + 1) 0 ≤ ucolst.getD jcol 0 then
      (⟨lu, lurow, lcolst, ucolst, rperm, dense, lastlu⟩, Except.error LuErr.zeroLenUL)
    else
      let nzst := ucolst.getD jcol 0
      let nU := lcolst.getD jcol 0 - nzst
      let r1 := copyU0Loop pattern (cperm.getD jcol 0) nU nzst lurow lu dense nzst
      let lurow1 := r1.1
      let lu1 := r1.2.1
      let dense1 := r1.2.2.1
      let nzcpy1 := r1.2.2.2
      -- lastu := nzcpy - 1, so lastu + 1 = nzcpy1 below
      let lst := lcolst.getD jcol 0
      let nL := ucolst.getD (jcol + 1) 0 - lst
      let r2 := copyL0Loop pattern nL lst lurow1 lu1 dense1 nzcpy1 0
      let lurow2 := r2.1
      let lu2 := r2.2.1
      let dense2 := r2.2.2.1
      let nzcpy2 := r2.2.2.2.1
      let ujjptr := r2.2.2.2.2
      let lcolst2 := lcolst.set jcol nzcpy1
      let ucolst2 := ucolst.set (jcol + 1) nzcpy2
      let lastlu2 : Int := (nzcpy2 : Int) - 1
      if pivot = -1 then
        (⟨lu2, lurow2, lcolst2, ucolst2, rperm, dense2, lastlu2⟩, Except.ok 0)
      else
        luTail jcol ujjptr lu2 lurow2 lcolst2 ucolst2 rperm dense2 lastlu2
  else
    -- zero length L column test: ucolst[jcol+1]-1 < lcolst[jcol]
    if ucolst.getD (jcol + 1) 0 ≤ lcolst.getD jcol 0 then
      (⟨lu, lurow, lcolst, ucolst, rperm, dense, lastlu⟩, Except.error LuErr.zeroLenL)
    else
      let ust := ucolst.getD jcol 0
      let lst := lcolst.getD jcol 0
      let nU := lst - ust
      let nL := ucolst.getD (jcol + 1) 0 - lst
      let udthreshabs :=
        if nzcount ≤ 0 then dthresh * maxAbsLoop lurow dense nU ust (-1)
        else if nzcount < (nU : Int) then
          dordstat ((nU : Int) - nzcount + 1).toNat (absList lurow dense nU ust)
        else 0
      let ldthreshabs :=
        if nzcount ≤ 0 then dthresh * maxAbsLoop lurow dense nL lst (-1)
        else if nzcount < (nL : Int) then
          dordstat ((nL : Int) - nzcount + 1).toNat (absList lurow dense nL lst)
        else 0
      let r1 := copyUtLoop pattern udthreshabs nU ust lurow lu dense ust
      let lurow1 := r1.1
      let lu1 := r1.2.1
      let dense1 := r1.2.2.1
      let nzcpy1 := r1.2.2.2
      -- second zero length L column test (lucopy.go line 203), same condition
      if ucolst.getD (jcol + 1) 0 ≤ lcolst.getD jcol 0 then
        (⟨lu1, lurow1, lcolst, ucolst, rperm, dense1, lastlu⟩, Except.error LuErr.zeroLenL)
      else
        let sc := pivScanLoop pattern lurow1 dense1 nL lst 0 0 0 (-1) (-1)
        let diagptr0 := sc.1
        let diagpiv := sc.2.1
        let ujjrow := sc.2.2.1
        let maxpiv := sc.2.2.2.1
        -- threshold pivoting (lucopy.go lines 246-258); the fmt.Printf at
        -- line 251 has no effect on the state and is not modelled
        let diagptr := if diagptr0 ≠ 0 ∧ diagpiv ≥ pthresh * maxpiv then diagptr0 else ujjrow
        let r2 := dropLLoop pattern diagptr ldthreshabs nL lst lurow1 lu1 dense1 nzcpy1 0
        let lurow2 := r2.1
        let lu2 := r2.2.1
        let dense2 := r2.2.2.1
        let nzcpy2 := r2.2.2.2.1
        let ujjptr := r2.2.2.2.2
        let lcolst2 := lcolst.set jcol nzcpy1
        let ucolst2 := ucolst.set (jcol + 1) nzcpy2
        let lastlu2 : Int := (nzcpy2 : Int) - 1
        luTail jcol ujjptr lu2 lurow2 lcolst2 ucolst2 rperm dense2 lastlu2

/-! ### Embedding of `ludfs` (src/ludfs.go)

`ludfs` subtracts a global offset constant `off` at every array access;
`off` is not defined in `src/`.  Modelled from the spec: arrays are
0-indexed while row/column identities are 1-based, so `off = 1`.  The
depth-first search (`l100`/`l200`/`l400` in the source) is a goto loop
with no structural decrease visible to the embedding, so it takes an
explicit `fuel` argument and returns `none` when the fuel runs out;
every `some` result is a faithful run of the source code. -/

/-- Modelled from the spec: the index offset between 1-based row/column
identities and 0-based Go slices. -/
def off : Nat := 1

/-- The error of `ludfs` (ludfs.go line 77): negative length for the
current column of A. -/
inductive DfsErr where
  | negLen
  deriving DecidableEq, Repr

/-- The state mutated by `ludfs`: `lastlu`, `lurow`, `lcolst` (written
once, at ludfs.go:156), `dense`, `found`, `parent` and `child`.
`ucolst`, `rperm` and `cperm` are never written by `ludfs` and stay
plain arguments. -/
structure DfsState where
  lastlu : Nat
  lurow : List Nat
  lcolst : List Nat
  dense : List ℚ
  found : List Nat
  parent : List Nat
  child : List Nat
  deriving DecidableEq, Repr

/-- The rows stored for the already-pivoted column `rperm[u]` of L:
positions `lcolst[rperm[u]]` through `ucolst[rperm[u]+1]-1` of `lurow`
(1-based positions, as read by the search at ludfs.go:98/108/114). -/
def childList (lurow lcolst ucolst rperm : List Nat) (u : Nat) : List Nat :=
  colRows lurow
    (ucolst.getD (rperm.getD (u - off) 0 + 1 - off) 0 -
      lcolst.getD (rperm.getD (u - off) 0 - off) 0)
    (lcolst.getD (rperm.getD (u - off) 0 - off) 0 - off)

/-- The `l200` scan (ludfs.go lines 110-121): starting at `chdptr` with
`n = chdend - chdptr` positions left, skip children with `rperm = 0` or
`found = jcol`; return the first other child with the already
incremented position (line 115), or `none` when the range is exhausted. -/
def childScan (jcol : Nat) (rperm found lurow : List Nat) :
    Nat → Nat → Option (Nat × Nat)
  | 0, _ => none
  | n + 1, chdptr =>
    let nextk := lurow.getD (chdptr - off) 0
    if rperm.getD (nextk - off) 0 = 0 then
      childScan jcol rperm found lurow n (chdptr + 1)
    else if found.getD (nextk - off) 0 = jcol then
      childScan jcol rperm found lurow n (chdptr + 1)
    else
      some (nextk, chdptr + 1)

/-- The `l100`/`l400` depth-first search loop (ludfs.go lines 106-145).
`krow` is the current vertex and `chdptr` its current child position.
With no unfound child left the vertex is emitted into `lurow` at
position `lastlu+1` and the search steps back to `parent[krow]`,
stopping when that parent is 0. -/
def dfsLoop (jcol : Nat) (ucolst rperm : List Nat) :
    Nat → Nat → Nat → DfsState → Option DfsState
  | 0, _, _, _ => none
  | fuel + 1, krow, chdptr, st =>
    match childScan jcol rperm st.found st.lurow
        (ucolst.getD (rperm.getD (krow - off) 0 + 1 - off) 0 - chdptr) chdptr with
    | some (nextk, chdptr1) =>
      dfsLoop jcol ucolst rperm fuel nextk
        (st.lcolst.getD (rperm.getD (nextk - off) 0 - off) 0)
        { st with
          child := st.child.set (krow - off) chdptr1
          parent := st.parent.set (nextk - off) krow
          found := st.found.set (nextk - off) jcol }
    | none =>
      let st1 := { st with
        lastlu := st.lastlu + 1
        lurow := st.lurow.set (st.lastlu + 1 - off) krow }
      let krow1 := st.parent.getD (krow - off) 0
      if krow1 = 0 then some st1
      else dfsLoop jcol ucolst rperm fuel krow1 (st.child.getD (krow1 - off) 0) st1

/-- The phase-1 loop of `ludfs` (ludfs.go lines 80-150): copy each stored
entry of the current column of A into `dense`; for entries above the
diagonal in PA (`rperm ≠ 0`), not yet found and numerically nonzero,
root a depth-first search at ludfs.go:96-98. -/
def ludfsOuter (jcol : Nat) (a : List ℚ) (arow ucolst rperm : List Nat)
    (fuel : Nat) : Nat → Nat → DfsState → Option DfsState
  | 0, _, st => some st
  | n + 1, nzaptr, st =>
    let krow := arow.getD (nzaptr - off) 0
    let st1 := { st with
      dense := st.dense.set (krow - off) (a.getD (nzaptr - off) 0) }
    if rperm.getD (krow - off) 0 = 0 then
      ludfsOuter jcol a arow ucolst rperm fuel n (nzaptr + 1) st1
    else if st1.found.getD (krow - off) 0 = jcol then
      ludfsOuter jcol a arow ucolst rperm fuel n (nzaptr + 1) st1
    else if st1.dense.getD (krow - off) 0 = 0 then
      ludfsOuter jcol a arow ucolst rperm fuel n (nzaptr + 1) st1
    else
      let st2 := { st1 with
        parent := st1.parent.set (krow - off) 0
        found := st1.found.set (krow - off) jcol }
      match dfsLoop jcol ucolst rperm fuel krow
          (st2.lcolst.getD (rperm.getD (krow - off) 0 - off) 0) st2 with
      | none => none
      | some st3 => ludfsOuter jcol a arow ucolst rperm fuel n (nzaptr + 1) st3

/-- The final L-append loop (ludfs.go lines 157-165): for each stored
entry `krow` of column `cperm[jcol]` of A with `rperm[krow] = 0`, mark
`found[krow] = jcol` and append `krow` to `lurow`, incrementing
`lastlu`.  The mutated state is `(lurow, found, lastlu)`. -/
def lColLoop (jcol : Nat) (arow rperm : List Nat) :
    Nat → Nat → List Nat → List Nat → Nat → List Nat × List Nat × Nat
  | 0, _, lurow, found, lastlu => (lurow, found, lastlu)
  | n + 1, nzaptr, lurow, found, lastlu =>
    let krow := arow.getD (nzaptr - off) 0
    if rperm.getD (krow - off) 0 ≠ 0 then
      lColLoop jcol arow rperm n (nzaptr + 1) lurow found lastlu
    else
      lColLoop jcol arow rperm n (nzaptr + 1)
        (lurow.set (lastlu + 1 - off) krow) (found.set (krow - off) jcol)
        (lastlu + 1)

/-- `ludfs` (src/ludfs.go): depth-first search allocating storage for
column `jcol` of U and the direct (non-fill) part of L.  Returns `none`
when the DFS fuel runs out, otherwise the faithful result of the
source: the error of line 77 or the final state. -/
def ludfs (fuel : Nat) (jcol : Nat) (a : List ℚ) (arow acolst : List Nat)
    (lastlu : Nat) (lurow lcolst ucolst rperm cperm : List Nat) (dense : List ℚ)
    (found parent child : List Nat) : Option (Except DfsErr DfsState) :=
  let nzast := acolst.getD (cperm.getD (jcol - off) 0 - off) 0
  let nzaend := acolst.getD (cperm.getD (jcol - off) 0 + 1 - off) 0
  if nzaend < nzast then some (Except.error DfsErr.negLen)
  else
    match ludfsOuter jcol a arow ucolst rperm fuel (nzaend - nzast) nzast
        ⟨lastlu, lurow, lcolst, dense, found, parent, child⟩ with
    | none => none
    | some st1 =>
      let r := lColLoop jcol arow rperm (nzaend - nzast) nzast st1.lurow st1.found
        st1.lastlu
      some (Except.ok { st1 with
        lcolst := st1.lcolst.set (jcol - off) (st1.lastlu + 1)
        lurow := r.1
        found := r.2.1
        lastlu := r.2.2 })

/-- The stored row identities of column `cperm[jcol]` of A:
`arow[acolst[cperm[jcol]] .. acolst[cperm[jcol]+1]-1]` (the range read at
ludfs.go:73-74,80-81 and again at 157-158). -/
def aColRows (arow acolst cperm : List Nat) (jcol : Nat) : List Nat :=
  colRows arow
    (acolst.getD (cperm.getD (jcol - off) 0 + 1 - off) 0 -
      acolst.getD (cperm.getD (jcol - off) 0 - off) 0)
    (acolst.getD (cperm.getD (jcol - off) 0 - off) 0 - off)

/-- The skip condition of the `l200` scan (ludfs.go:116-121): a child is
skipped when it is below the diagonal (`rperm = 0`) or already found in
this column. -/
def dfsSkip (jcol : Nat) (rperm found : List Nat) (w : Nat) : Prop :=
  rperm.getD (w - off) 0 = 0 ∨ found.getD (w - off) 0 = jcol

/-- Edge of the already-pivoted factor graph walked by the search: `u`
reaches `v` when `v` is stored in column `rperm[u]` of L and is itself
pivoted. -/
def dfsEdge (lurow lcolst ucolst rperm : List Nat) (u v : Nat) : Prop :=
  1 ≤ u ∧ 1 ≤ v ∧ rperm.getD (u - off) 0 ≠ 0 ∧ rperm.getD (v - off) 0 ≠ 0 ∧
  v ∈ childList lurow lcolst ucolst rperm u

/-- A list is in reverse topological order for `r` when everything
`r`-related to an element appears strictly before that element. -/
def emittedBefore (r : Nat → Nat → Prop) (E : List Nat) : Prop :=
  ∀ i, i < E.length → ∀ v, r (E.getD i 0) v → ∃ j, j < i ∧ E.getD j 0 = v

/-- The U-part rows emitted so far by the search: `lurow` positions
`lastlu0 + 1` through the current `lastlu` (1-based). -/
def emitted (lastlu0 : Nat) (st : DfsState) : List Nat :=
  colRows st.lurow (st.lastlu - lastlu0) (lastlu0 + 1 - off)

/-- A member of the implicit DFS stack: pivoted, found in this column,
its child position `cp` inside its child range, every child before `cp`
already skippable. -/
def elemOK (jcol : Nat) (lurow0 lcolst0 ucolst rperm found : List Nat)
    (u cp : Nat) : Prop :=
  1 ≤ u ∧ rperm.getD (u - off) 0 ≠ 0 ∧ found.getD (u - off) 0 = jcol ∧
  lcolst0.getD (rperm.getD (u - off) 0 - off) 0 ≤ cp ∧
  cp ≤ ucolst.getD (rperm.getD (u - off) 0 + 1 - off) 0 ∧
  ∀ p, lcolst0.getD (rperm.getD (u - off) 0 - off) 0 ≤ p → p < cp →
    dfsSkip jcol rperm found (lurow0.getD (p - off) 0)

/-- The ancestor chain of the DFS stack below its top vertex `u`:
parent pointers link consecutive members, each member is a valid stack
element at its saved child position, and the pivot order strictly
decreases towards the root of the search. -/
def chainInv (jcol : Nat) (lurow0 lcolst0 ucolst rperm found parent child : List Nat) :
    Nat → List Nat → Prop
  | u, [] => parent.getD (u - off) 0 = 0
  | u, v :: rest =>
    parent.getD (u - off) 0 = v ∧
    elemOK jcol lurow0 lcolst0 ucolst rperm found v (child.getD (v - off) 0) ∧
    rperm.getD (v - off) 0 < rperm.getD (u - off) 0 ∧
    chainInv jcol lurow0 lcolst0 ucolst rperm found parent child v rest

/-- Every vertex found in this column is on the DFS stack or already
emitted. -/
def foundClass (jcol : Nat) (rperm found : List Nat) (stk E : List Nat) : Prop :=
  ∀ w, 1 ≤ w → rperm.getD (w - off) 0 ≠ 0 → found.getD (w - off) 0 = jcol →
    w ∈ stk ∨ w ∈ E

/-- The running invariant of the depth-first search: the entry `lcolst`
is untouched, `lurow` keeps its length and its prefix below the first
free position, the emitted region is one-step reverse topological, and
every found pivoted vertex is on the stack or emitted. -/
def dfsInv (jcol : Nat) (lurow0 lcolst0 ucolst rperm : List Nat)
    (lastlu0 flen plen clen : Nat) (stk : List Nat) (st : DfsState) : Prop :=
  st.lcolst = lcolst0 ∧ st.lurow.length = lurow0.length ∧
  st.found.length = flen ∧ st.parent.length = plen ∧ st.child.length = clen ∧
  lastlu0 ≤ st.lastlu ∧
  (∀ q, q < lastlu0 → st.lurow.getD q 0 = lurow0.getD q 0) ∧
  foundClass jcol rperm st.found stk (emitted lastlu0 st) ∧
  emittedBefore (dfsEdge lurow0 lcolst0 ucolst rperm) (emitted lastlu0 st)

/-! ### Generic list access lemmas -/

theorem getD_set_ne {α : Type} (l : List α) {i j : Nat} (v d : α) (h : i ≠ j) :
    (l.set i v).getD j d = l.getD j d := by
  simp [List.getD_eq_getElem?_getD, List.getElem?_set_ne h]

theorem getD_set_eq {α : Type} (l : List α) {i : Nat} (v d : α) (h : i < l.length) :
    (l.set i v).getD i d = v := by
  simp [List.getD_eq_getElem?_getD, List.getElem?_set_self h]

theorem getD_oob {α : Type} (l : List α) {i : Nat} (d : α) (h : l.length ≤ i) :
    l.getD i d = d := by
  rw [List.getD_eq_getElem?_getD, List.getElem?_eq_none h]
  rfl

theorem getD_set_zero (l : List ℚ) (i j : Nat) (h : l.getD j 0 = 0) :
    (l.set i 0).getD j 0 = 0 := by
  by_cases hij : i = j
  · subst hij
    by_cases hl : i < l.length
    · exact getD_set_eq l 0 0 hl
    · rw [List.set_eq_of_length_le (Nat.le_of_not_lt hl)]
      exact h
  · rw [getD_set_ne l 0 0 hij]
    exact h

/-! ### Lemmas about `colRows` -/

theorem colRows_set_lt (l : List Nat) (q v : Nat) :
    ∀ n start, q < start → colRows (l.set q v) n start = colRows l n start := by
  intro n
  induction n with
  | zero => intro start _; rfl
  | succ n ih =>
    intro start h
    simp only [colRows]
    rw [getD_set_ne l v 0 (Nat.ne_of_lt h), ih (start + 1) (Nat.lt_succ_of_lt h)]

theorem colRows_append (l : List Nat) :
    ∀ m n start, colRows l (m + n) start = colRows l m start ++ colRows l n (start + m) := by
  intro m
  induction m with
  | zero => intro n start; simp [colRows]
  | succ m ih =>
    intro n start
    have : m + 1 + n = (m + n) + 1 := by omega
    rw [this]
    simp only [colRows, ih, List.cons_append]
    have : start + 1 + m = start + (m + 1) := by omega
    rw [this]

theorem mem_colRows_iff (l : List Nat) :
    ∀ n start r, r ∈ colRows l n start ↔ ∃ p, start ≤ p ∧ p < start + n ∧ l.getD p 0 = r := by
  intro n
  induction n with
  | zero =>
    intro start r
    constructor
    · intro h; cases h
    · intro ⟨p, h1, h2, _⟩; omega
  | succ n ih =>
    intro start r
    simp only [colRows, List.mem_cons, ih]
    constructor
    · rintro (h | ⟨p, h1, h2, h3⟩)
      · exact ⟨start, Nat.le_refl _, by omega, h.symm⟩
      · exact ⟨p, by omega, by omega, h3⟩
    · rintro ⟨p, h1, h2, h3⟩
      rcases Nat.eq_or_lt_of_le h1 with h | h
      · left; rw [← h] at h3; exact h3.symm
      · right; exact ⟨p, h, by omega, h3⟩

/-! ### Lemmas about `copyU0Loop` -/

theorem copyU0Loop_lurow_len (pattern : List Nat) (cj : Nat) :
    ∀ n nzptr lurow lu dense nzcpy,
      (copyU0Loop pattern cj n nzptr lurow lu dense nzcpy).1.length = lurow.length := by
  intro n
  induction n with
  | zero => intro nzptr lurow lu dense nzcpy; rfl
  | succ n ih =>
    intro nzptr lurow lu dense nzcpy
    simp only [copyU0Loop]
    split
    · rw [ih]; exact List.length_set lurow _ _
    · exact ih _ _ _ _ _

theorem copyU0Loop_nzcpy_ge (pattern : List Nat) (cj : Nat) :
    ∀ n nzptr lurow lu dense nzcpy,
      nzcpy ≤ (copyU0Loop pattern cj n nzptr lurow lu dense nzcpy).2.2.2 := by
  intro n
  induction n with
  | zero => intro nzptr lurow lu dense nzcpy; exact Nat.le_refl _
  | succ n ih =>
    intro nzptr lurow lu dense nzcpy
    simp only [copyU0Loop]
    split
    · exact Nat.le_trans (Nat.le_succ _) (ih _ _ _ _ _)
    · exact ih _ _ _ _ _

theorem copyU0Loop_nzcpy_le (pattern : List Nat) (cj : Nat) :
    ∀ n nzptr lurow lu dense nzcpy,
      (copyU0Loop pattern cj n nzptr lurow lu dense nzcpy).2.2.2 ≤ nzcpy + n := by
  intro n
  induction n with
  | zero => intro nzptr lurow lu dense nzcpy; exact Nat.le_refl _
  | succ n ih =>
    intro nzptr lurow lu dense nzcpy
    simp only [copyU0Loop]
    split
    · have := ih (nzptr + 1) (lurow.set nzcpy (lurow.getD nzptr 0))
        (lu.set nzcpy (dense.getD (lurow.getD nzptr 0) 0))
        (dense.set (lurow.getD nzptr 0) 0) (nzcpy + 1)
      omega
    · have := ih (nzptr + 1) lurow lu (dense.set (lurow.getD nzptr 0) 0) nzcpy
      omega

theorem copyU0Loop_lurow_low (pattern : List Nat) (cj : Nat) :
    ∀ n nzptr lurow lu dense nzcpy q, q < nzcpy →
      (copyU0Loop pattern cj n nzptr lurow lu dense nzcpy).1.getD q 0 = lurow.getD q 0 := by
  intro n
  induction n with
  | zero => intro nzptr lurow lu dense nzcpy q _; rfl
  | succ n ih =>
    intro nzptr lurow lu dense nzcpy q hq
    simp only [copyU0Loop]
    split
    · rw [ih _ _ _ _ _ q (by omega)]
      exact getD_set_ne lurow _ 0 (by omega)
    · exact ih _ _ _ _ _ q hq

theorem copyU0Loop_lurow_high (pattern : List Nat) (cj : Nat) :
    ∀ n nzptr lurow lu dense nzcpy q, nzcpy ≤ nzptr → nzptr + n ≤ q →
      (copyU0Loop pattern cj n nzptr lurow lu dense nzcpy).1.getD q 0 = lurow.getD q 0 := by
  intro n
  induction n with
  | zero => intro nzptr lurow lu dense nzcpy q _ _; rfl
  | succ n ih =>
    intro nzptr lurow lu dense nzcpy q h hq
    simp only [copyU0Loop]
    split
    · rw [ih _ _ _ _ _ q (by omega) (by omega)]
      exact getD_set_ne lurow _ 0 (by omega)
    · exact ih _ _ _ _ _ q (by omega) (by omega)

theorem copyU0Loop_dense_zstable (pattern : List Nat) (cj : Nat) :
    ∀ n nzptr lurow lu dense nzcpy r, dense.getD r 0 = 0 →
      (copyU0Loop pattern cj n nzptr lurow lu dense nzcpy).2.2.1.getD r 0 = 0 := by
  intro n
  induction n with
  | zero => intro nzptr lurow lu dense nzcpy r h; exact h
  | succ n ih =>
    intro nzptr lurow lu dense nzcpy r h
    simp only [copyU0Loop]
    split
    · exact ih _ _ _ _ _ r (getD_set_zero dense _ r h)
    · exact ih _ _ _ _ _ r (getD_set_zero dense _ r h)

theorem copyU0Loop_dense_zero (pattern : List Nat) (cj : Nat) :
    ∀ n nzptr lurow lu dense nzcpy, nzcpy ≤ nzptr →
      ∀ r ∈ colRows lurow n nzptr,
        (copyU0Loop pattern cj n nzptr lurow lu dense nzcpy).2.2.1.getD r 0 = 0 := by
  intro n
  induction n with
  | zero => intro nzptr lurow lu dense nzcpy _ r hr; cases hr
  | succ n ih =>
    intro nzptr lurow lu dense nzcpy h r hr
    rw [colRows] at hr
    rcases List.mem_cons.mp hr with h1 | h1
    · subst h1
      simp only [copyU0Loop]
      split
      · apply copyU0Loop_dense_zstable
        by_cases hb : lurow.getD nzptr 0 < dense.length
        · exact getD_set_eq dense _ 0 hb
        · rw [List.set_eq_of_length_le (Nat.le_of_not_lt hb)]
          exact getD_oob dense 0 (Nat.le_of_not_lt hb)
      · apply copyU0Loop_dense_zstable
        by_cases hb : lurow.getD nzptr 0 < dense.length
        · exact getD_set_eq dense _ 0 hb
        · rw [List.set_eq_of_length_le (Nat.le_of_not_lt hb)]
          exact getD_oob dense 0 (Nat.le_of_not_lt hb)
    · simp only [copyU0Loop]
      split
      · apply ih _ _ _ _ _ (by omega) r
        rw [colRows_set_lt lurow nzcpy _ n (nzptr + 1) (by omega)]
        exact h1
      · exact ih _ _ _ _ _ (by omega) r h1

theorem copyU0Loop_dense_pres (pattern : List Nat) (cj : Nat) :
    ∀ n nzptr lurow lu dense nzcpy, nzcpy ≤ nzptr →
      ∀ r, r ∉ colRows lurow n nzptr →
        (copyU0Loop pattern cj n nzptr lurow lu dense nzcpy).2.2.1.getD r 0 =
          dense.getD r 0 := by
  intro n
  induction n with
  | zero => intro nzptr lurow lu dense nzcpy _ r _; rfl
  | succ n ih =>
    intro nzptr lurow lu dense nzcpy h r hr
    rw [colRows] at hr
    have hne : r ≠ lurow.getD nzptr 0 := fun he => hr (he ▸ List.mem_cons_self _ _)
    have htl : r ∉ colRows lurow n (nzptr + 1) := fun he => hr (List.mem_cons_of_mem _ he)
    simp only [copyU0Loop]
    split
    · rw [ih _ _ _ _ _ (by omega) r
        (by rw [colRows_set_lt lurow nzcpy _ n (nzptr + 1) (by omega)]; exact htl)]
      exact getD_set_ne dense _ 0 (Ne.symm hne)
    · rw [ih _ _ _ _ _ (by omega) r htl]
      exact getD_set_ne dense _ 0 (Ne.symm hne)

/-! ### Lemmas about `copyUtLoop` -/

theorem copyUtLoop_lurow_len (pattern : List Nat) (udth : ℚ) :
    ∀ n nzptr lurow lu dense nzcpy,
      (copyUtLoop pattern udth n nzptr lurow lu dense nzcpy).1.length = lurow.length := by
  intro n
  induction n with
  | zero => intro nzptr lurow lu dense nzcpy; rfl
  | succ n ih =>
    intro nzptr lurow lu dense nzcpy
    simp only [copyUtLoop]
    split
    · rw [ih]; exact List.length_set lurow _ _
    · exact ih _ _ _ _ _

theorem copyUtLoop_nzcpy_ge (pattern : List Nat) (udth : ℚ) :
    ∀ n nzptr lurow lu dense nzcpy,
      nzcpy ≤ (copyUtLoop pattern udth n nzptr lurow lu dense nzcpy).2.2.2 := by
  intro n
  induction n with
  | zero => intro nzptr lurow lu dense nzcpy; exact Nat.le_refl _
  | succ n ih =>
    intro nzptr lurow lu dense nzcpy
    simp only [copyUtLoop]
    split
    · exact Nat.le_trans (Nat.le_succ _) (ih _ _ _ _ _)
    · exact ih _ _ _ _ _

theorem copyUtLoop_nzcpy_le (pattern : List Nat) (udth : ℚ) :
    ∀ n nzptr lurow lu dense nzcpy,
      (copyUtLoop pattern udth n nzptr lurow lu dense nzcpy).2.2.2 ≤ nzcpy + n := by
  intro n
  induction n with
  | zero => intro nzptr lurow lu dense nzcpy; exact Nat.le_refl _
  | succ n ih =>
    intro nzptr lurow lu dense nzcpy
    simp only [copyUtLoop]
    split
    · have := ih (nzptr + 1) (lurow.set nzcpy (lurow.getD nzptr 0))
        (lu.set nzcpy (dense.getD (lurow.getD nzptr 0) 0))
        (dense.set (lurow.getD nzptr 0) 0) (nzcpy + 1)
      omega
    · have := ih (nzptr + 1) lurow lu (dense.set (lurow.getD nzptr 0) 0) nzcpy
      omega

theorem copyUtLoop_lurow_low (pattern : List Nat) (udth : ℚ) :
    ∀ n nzptr lurow lu dense nzcpy q, q < nzcpy →
      (copyUtLoop pattern udth n nzptr lurow lu dense nzcpy).1.getD q 0 = lurow.getD q 0 := by
  intro n
  induction n with
  | zero => intro nzptr lurow lu dense nzcpy q _; rfl
  | succ n ih =>
    intro nzptr lurow lu dense nzcpy q hq
    simp only [copyUtLoop]
    split
    · rw [ih _ _ _ _ _ q (by omega)]
      exact getD_set_ne lurow _ 0 (by omega)
    · exact ih _ _ _ _ _ q hq

theorem copyUtLoop_lurow_high (pattern : List Nat) (udth : ℚ) :
    ∀ n nzptr lurow lu dense nzcpy q, nzcpy ≤ nzptr → nzptr + n ≤ q →
      (copyUtLoop pattern udth n nzptr lurow lu dense nzcpy).1.getD q 0 = lurow.getD q 0 := by
  intro n
  induction n with
  | zero => intro nzptr lurow lu dense nzcpy q _ _; rfl
  | succ n ih =>
    intro nzptr lurow lu dense nzcpy q h hq
    simp only [copyUtLoop]
    split
    · rw [ih _ _ _ _ _ q (by omega) (by omega)]
      exact getD_set_ne lurow _ 0 (by omega)
    · exact ih _ _ _ _ _ q (by omega) (by omega)

theorem copyUtLoop_dense_zstable (pattern : List Nat) (udth : ℚ) :
    ∀ n nzptr lurow lu dense nzcpy r, dense.getD r 0 = 0 →
      (copyUtLoop pattern udth n nzptr lurow lu dense nzcpy).2.2.1.getD r 0 = 0 := by
  intro n
  induction n with
  | zero => intro nzptr lurow lu dense nzcpy r h; exact h
  | succ n ih =>
    intro nzptr lurow lu dense nzcpy r h
    simp only [copyUtLoop]
    split
    · exact ih _ _ _ _ _ r (getD_set_zero dense _ r h)
    · exact ih _ _ _ _ _ r (getD_set_zero dense _ r h)

theorem copyUtLoop_dense_zero (pattern : List Nat) (udth : ℚ) :
    ∀ n nzptr lurow lu dense nzcpy, nzcpy ≤ nzptr →
      ∀ r ∈ colRows lurow n nzptr,
        (copyUtLoop pattern udth n nzptr lurow lu dense nzcpy).2.2.1.getD r 0 = 0 := by
  intro n
  induction n with
  | zero => intro nzptr lurow lu dense nzcpy _ r hr; cases hr
  | succ n ih =>
    intro nzptr lurow lu dense nzcpy h r hr
    rw [colRows] at hr
    rcases List.mem_cons.mp hr with h1 | h1
    · subst h1
      simp only [copyUtLoop]
      split
      · apply copyUtLoop_dense_zstable
        by_cases hb : lurow.getD nzptr 0 < dense.length
        · exact getD_set_eq dense _ 0 hb
        · rw [List.set_eq_of_length_le (Nat.le_of_not_lt hb)]
          exact getD_oob dense 0 (Nat.le_of_not_lt hb)
      · apply copyUtLoop_dense_zstable
        by_cases hb : lurow.getD nzptr 0 < dense.length
        · exact getD_set_eq dense _ 0 hb
        · rw [List.set_eq_of_length_le (Nat.le_of_not_lt hb)]
          exact getD_oob dense 0 (Nat.le_of_not_lt hb)
    · simp only [copyUtLoop]
      split
      · apply ih _ _ _ _ _ (by omega) r
        rw [colRows_set_lt lurow nzcpy _ n (nzptr + 1) (by omega)]
        exact h1
      · exact ih _ _ _ _ _ (by omega) r h1

theorem copyUtLoop_dense_pres (pattern : List Nat) (udth : ℚ) :
    ∀ n nzptr lurow lu dense nzcpy, nzcpy ≤ nzptr →
      ∀ r, r ∉ colRows lurow n nzptr →
        (copyUtLoop pattern udth n nzptr lurow lu dense nzcpy).2.2.1.getD r 0 =
          dense.getD r 0 := by
  intro n
  induction n with
  | zero => intro nzptr lurow lu dense nzcpy _ r _; rfl
  | succ n ih =>
    intro nzptr lurow lu dense nzcpy h r hr
    rw [colRows] at hr
    have hne : r ≠ lurow.getD nzptr 0 := fun he => hr (he ▸ List.mem_cons_self _ _)
    have htl : r ∉ colRows lurow n (nzptr + 1) := fun he => hr (List.mem_cons_of_mem _ he)
    simp only [copyUtLoop]
    split
    · rw [ih _ _ _ _ _ (by omega) r
        (by rw [colRows_set_lt lurow nzcpy _ n (nzptr + 1) (by omega)]; exact htl)]
      exact getD_set_ne dense _ 0 (Ne.symm hne)
    · rw [ih _ _ _ _ _ (by omega) r htl]
      exact getD_set_ne dense _ 0 (Ne.symm hne)

/-! ### Lemmas about `copyL0Loop` -/

theorem copyL0Loop_nzcpy_ge (pattern : List Nat) :
    ∀ n nzptr lurow lu dense nzcpy ujjptr,
      nzcpy ≤ (copyL0Loop pattern n nzptr lurow lu dense nzcpy ujjptr).2.2.2.1 := by
  intro n
  induction n with
  | zero => intro nzptr lurow lu dense nzcpy ujjptr; exact Nat.le_refl _
  | succ n ih =>
    intro nzptr lurow lu dense nzcpy ujjptr
    simp only [copyL0Loop]
    split
    · exact Nat.le_trans (Nat.le_succ _) (ih _ _ _ _ _ _)
    · exact ih _ _ _ _ _ _

theorem copyL0Loop_dense_zstable (pattern : List Nat) :
    ∀ n nzptr lurow lu dense nzcpy ujjptr r, dense.getD r 0 = 0 →
      (copyL0Loop pattern n nzptr lurow lu dense nzcpy ujjptr).2.2.1.getD r 0 = 0 := by
  intro n
  induction n with
  | zero => intro nzptr lurow lu dense nzcpy ujjptr r h; exact h
  | succ n ih =>
    intro nzptr lurow lu dense nzcpy ujjptr r h
    simp only [copyL0Loop]
    split
    · exact ih _ _ _ _ _ _ r (getD_set_zero dense _ r h)
    · exact ih _ _ _ _ _ _ r (getD_set_zero dense _ r h)

theorem copyL0Loop_dense_zero (pattern : List Nat) :
    ∀ n nzptr lurow lu dense nzcpy ujjptr, nzcpy ≤ nzptr →
      ∀ r ∈ colRows lurow n nzptr,
        (copyL0Loop pattern n nzptr lurow lu dense nzcpy ujjptr).2.2.1.getD r 0 = 0 := by
  intro n
  induction n with
  | zero => intro nzptr lurow lu dense nzcpy ujjptr _ r hr; cases hr
  | succ n ih =>
    intro nzptr lurow lu dense nzcpy ujjptr h r hr
    rw [colRows] at hr
    rcases List.mem_cons.mp hr with h1 | h1
    · subst h1
      have hz : ∀ dense1 : List ℚ, (dense1.set (lurow.getD nzptr 0) 0).getD (lurow.getD nzptr 0) 0 = 0 := by
        intro dense1
        by_cases hb : lurow.getD nzptr 0 < dense1.length
        · exact getD_set_eq dense1 0 0 hb
        · rw [List.set_eq_of_length_le (Nat.le_of_not_lt hb)]
          exact getD_oob dense1 0 (Nat.le_of_not_lt hb)
      simp only [copyL0Loop]
      split
      · exact copyL0Loop_dense_zstable pattern _ _ _ _ _ _ _ _ (hz dense)
      · exact copyL0Loop_dense_zstable pattern _ _ _ _ _ _ _ _ (hz dense)
    · simp only [copyL0Loop]
      split
      · apply ih _ _ _ _ _ _ (by omega) r
        rw [colRows_set_lt lurow nzcpy _ n (nzptr + 1) (by omega)]
        exact h1
      · exact ih _ _ _ _ _ _ (by omega) r h1

theorem copyL0Loop_marker_none (pattern : List Nat) :
    ∀ n nzptr lurow lu dense nzcpy ujjptr, nzcpy ≤ nzptr →
      (∀ r ∈ colRows lurow n nzptr, pattern.getD r 0 ≠ 2) →
      (copyL0Loop pattern n nzptr lurow lu dense nzcpy ujjptr).2.2.2.2 = ujjptr := by
  intro n
  induction n with
  | zero => intro nzptr lurow lu dense nzcpy ujjptr _ _; rfl
  | succ n ih =>
    intro nzptr lurow lu dense nzcpy ujjptr h hno
    have hhd : pattern.getD (lurow.getD nzptr 0) 0 ≠ 2 :=
      hno _ (by rw [colRows]; exact List.mem_cons_self _ _)
    simp only [copyL0Loop]
    rw [if_neg hhd]
    split
    · apply ih _ _ _ _ _ _ (by omega)
      intro r hr
      apply hno
      rw [colRows_set_lt lurow nzcpy _ n (nzptr + 1) (by omega)] at hr
      rw [colRows]
      exact List.mem_cons_of_mem _ hr
    · apply ih _ _ _ _ _ _ (by omega)
      intro r hr
      apply hno
      rw [colRows]
      exact List.mem_cons_of_mem _ hr

theorem copyL0Loop_marker_set (pattern : List Nat) :
    ∀ n nzptr lurow lu dense nzcpy ujjptr, 1 ≤ nzcpy → nzcpy ≤ nzptr →
      (ujjptr ≠ 0 ∨ ∃ r ∈ colRows lurow n nzptr, pattern.getD r 0 = 2) →
      (copyL0Loop pattern n nzptr lurow lu dense nzcpy ujjptr).2.2.2.2 ≠ 0 := by
  intro n
  induction n with
  | zero =>
    intro nzptr lurow lu dense nzcpy ujjptr _ _ h
    rcases h with h | ⟨r, hr, _⟩
    · exact h
    · cases hr
  | succ n ih =>
    intro nzptr lurow lu dense nzcpy ujjptr h1 h2 h
    simp only [copyL0Loop]
    by_cases hp2 : pattern.getD (lurow.getD nzptr 0) 0 = 2
    · rw [if_pos hp2, if_pos (Or.inr hp2)]
      apply ih _ _ _ _ _ _ (by omega) (by omega)
      left; omega
    · rw [if_neg hp2]
      have h3 : ujjptr ≠ 0 ∨ ∃ r ∈ colRows lurow n (nzptr + 1), pattern.getD r 0 = 2 := by
        rcases h with h | ⟨r, hr, hr2⟩
        · left; exact h
        · rw [colRows] at hr
          rcases List.mem_cons.mp hr with he | he
          · exact absurd (he ▸ hr2) hp2
          · right; exact ⟨r, he, hr2⟩
      split
      · apply ih _ _ _ _ _ _ (by omega) (by omega)
        rcases h3 with h3 | ⟨r, hr, hr2⟩
        · left; exact h3
        · right
          exact ⟨r, by rw [colRows_set_lt lurow nzcpy _ n (nzptr + 1) (by omega)]; exact hr, hr2⟩
      · exact ih _ _ _ _ _ _ (by omega) (by omega) h3

theorem copyL0Loop_marker (pattern : List Nat) (Q : Nat → Prop) :
    ∀ n nzptr lurow lu dense nzcpy ujjptr, 1 ≤ nzcpy → nzcpy ≤ nzptr →
      nzptr + n ≤ lurow.length →
      (∀ r ∈ colRows lurow n nzptr, pattern.getD r 0 = 2 → Q r) →
      (ujjptr ≠ 0 → ujjptr < nzcpy ∧ Q (lurow.getD ujjptr 0)) →
      ((copyL0Loop pattern n nzptr lurow lu dense nzcpy ujjptr).2.2.2.2 ≠ 0 →
        (copyL0Loop pattern n nzptr lurow lu dense nzcpy ujjptr).2.2.2.2 <
          (copyL0Loop pattern n nzptr lurow lu dense nzcpy ujjptr).2.2.2.1 ∧
        Q ((copyL0Loop pattern n nzptr lurow lu dense nzcpy ujjptr).1.getD
            (copyL0Loop pattern n nzptr lurow lu dense nzcpy ujjptr).2.2.2.2 0)) := by
  intro n
  induction n with
  | zero =>
    intro nzptr lurow lu dense nzcpy ujjptr _ _ _ _ hinv
    exact hinv
  | succ n ih =>
    intro nzptr lurow lu dense nzcpy ujjptr h1 h2 hlen hQ hinv
    have hhd := hQ _ (by rw [colRows]; exact List.mem_cons_self _ _)
    have hQtl : ∀ r ∈ colRows lurow n (nzptr + 1), pattern.getD r 0 = 2 → Q r := by
      intro r hr
      exact hQ r (by rw [colRows]; exact List.mem_cons_of_mem _ hr)
    simp only [copyL0Loop]
    by_cases hp2 : pattern.getD (lurow.getD nzptr 0) 0 = 2
    · rw [if_pos hp2, if_pos (Or.inr hp2)]
      apply ih _ _ _ _ _ _ (by omega) (by omega)
      · rw [List.length_set]; omega
      · intro r hr
        rw [colRows_set_lt lurow nzcpy _ n (nzptr + 1) (by omega)] at hr
        exact hQtl r hr
      · intro _
        constructor
        · omega
        · rw [getD_set_eq lurow _ 0 (by omega)]
          exact hhd hp2
    · rw [if_neg hp2]
      split
      · apply ih _ _ _ _ _ _ (by omega) (by omega)
        · rw [List.length_set]; omega
        · intro r hr
          rw [colRows_set_lt lurow nzcpy _ n (nzptr + 1) (by omega)] at hr
          exact hQtl r hr
        · intro hu
          obtain ⟨ha, hb⟩ := hinv hu
          constructor
          · omega
          · rw [getD_set_ne lurow _ 0 (by omega)]
            exact hb
      · apply ih _ _ _ _ _ _ (by omega) (by omega) (by omega) hQtl hinv

/-! ### Lemmas about `dropLLoop` -/

theorem dropLLoop_nzcpy_ge (pattern : List Nat) (diagptr : Nat) (ldth : ℚ) :
    ∀ n nzptr lurow lu dense nzcpy ujjptr,
      nzcpy ≤ (dropLLoop pattern diagptr ldth n nzptr lurow lu dense nzcpy ujjptr).2.2.2.1 := by
  intro n
  induction n with
  | zero => intro nzptr lurow lu dense nzcpy ujjptr; exact Nat.le_refl _
  | succ n ih =>
    intro nzptr lurow lu dense nzcpy ujjptr
    simp only [dropLLoop]
    split
    · exact ih _ _ _ _ _ _
    · exact Nat.le_trans (Nat.le_succ _) (ih _ _ _ _ _ _)

theorem dropLLoop_nzcpy_le (pattern : List Nat) (diagptr : Nat) (ldth : ℚ) :
    ∀ n nzptr lurow lu dense nzcpy ujjptr,
      (dropLLoop pattern diagptr ldth n nzptr lurow lu dense nzcpy ujjptr).2.2.2.1 ≤ nzcpy + n := by
  intro n
  induction n with
  | zero => intro nzptr lurow lu dense nzcpy ujjptr; exact Nat.le_refl _
  | succ n ih =>
    intro nzptr lurow lu dense nzcpy ujjptr
    simp only [dropLLoop]
    split
    · have := ih (nzptr + 1) lurow lu (dense.set (lurow.getD nzptr 0) 0) nzcpy ujjptr
      omega
    · have := ih (nzptr + 1) (lurow.set nzcpy (lurow.getD nzptr 0))
        (lu.set nzcpy (dense.getD (lurow.getD nzptr 0) 0))
        (dense.set (lurow.getD nzptr 0) 0) (nzcpy + 1)
        (if lurow.getD nzptr 0 = diagptr then nzcpy else ujjptr)
      omega

theorem dropLLoop_lurow_len (pattern : List Nat) (diagptr : Nat) (ldth : ℚ) :
    ∀ n nzptr lurow lu dense nzcpy ujjptr,
      (dropLLoop pattern diagptr ldth n nzptr lurow lu dense nzcpy ujjptr).1.length =
        lurow.length := by
  intro n
  induction n with
  | zero => intro nzptr lurow lu dense nzcpy ujjptr; rfl
  | succ n ih =>
    intro nzptr lurow lu dense nzcpy ujjptr
    simp only [dropLLoop]
    split
    · exact ih _ _ _ _ _ _
    · rw [ih]; exact List.length_set lurow _ _

theorem dropLLoop_lurow_low (pattern : List Nat) (diagptr : Nat) (ldth : ℚ) :
    ∀ n nzptr lurow lu dense nzcpy ujjptr q, q < nzcpy →
      (dropLLoop pattern diagptr ldth n nzptr lurow lu dense nzcpy ujjptr).1.getD q 0 =
        lurow.getD q 0 := by
  intro n
  induction n with
  | zero => intro nzptr lurow lu dense nzcpy ujjptr q _; rfl
  | succ n ih =>
    intro nzptr lurow lu dense nzcpy ujjptr q hq
    simp only [dropLLoop]
    split
    · exact ih _ _ _ _ _ _ q hq
    · rw [ih _ _ _ _ _ _ q (by omega)]
      exact getD_set_ne lurow _ 0 (by omega)

theorem dropLLoop_lu_low (pattern : List Nat) (diagptr : Nat) (ldth : ℚ) :
    ∀ n nzptr lurow lu dense nzcpy ujjptr q, q < nzcpy →
      (dropLLoop pattern diagptr ldth n nzptr lurow lu dense nzcpy ujjptr).2.1.getD q 0 =
        lu.getD q 0 := by
  intro n
  induction n with
  | zero => intro nzptr lurow lu dense nzcpy ujjptr q _; rfl
  | succ n ih =>
    intro nzptr lurow lu dense nzcpy ujjptr q hq
    simp only [dropLLoop]
    split
    · exact ih _ _ _ _ _ _ q hq
    · rw [ih _ _ _ _ _ _ q (by omega)]
      exact getD_set_ne lu _ 0 (by omega)

theorem dropLLoop_dense_zstable (pattern : List Nat) (diagptr : Nat) (ldth : ℚ) :
    ∀ n nzptr lurow lu dense nzcpy ujjptr r, dense.getD r 0 = 0 →
      (dropLLoop pattern diagptr ldth n nzptr lurow lu dense nzcpy ujjptr).2.2.1.getD r 0 = 0 := by
  intro n
  induction n with
  | zero => intro nzptr lurow lu dense nzcpy ujjptr r h; exact h
  | succ n ih =>
    intro nzptr lurow lu dense nzcpy ujjptr r h
    simp only [dropLLoop]
    split
    · exact ih _ _ _ _ _ _ r (getD_set_zero dense _ r h)
    · exact ih _ _ _ _ _ _ r (getD_set_zero dense _ r h)

theorem dropLLoop_dense_zero (pattern : List Nat) (diagptr : Nat) (ldth : ℚ) :
    ∀ n nzptr lurow lu dense nzcpy ujjptr, nzcpy ≤ nzptr →
      ∀ r ∈ colRows lurow n nzptr,
        (dropLLoop pattern diagptr ldth n nzptr lurow lu dense nzcpy ujjptr).2.2.1.getD r 0 = 0 := by
  intro n
  induction n with
  | zero => intro nzptr lurow lu dense nzcpy ujjptr _ r hr; cases hr
  | succ n ih =>
    intro nzptr lurow lu dense nzcpy ujjptr h r hr
    rw [colRows] at hr
    rcases List.mem_cons.mp hr with h1 | h1
    · subst h1
      have hz : (dense.set (lurow.getD nzptr 0) 0).getD (lurow.getD nzptr 0) 0 = 0 := by
        by_cases hb : lurow.getD nzptr 0 < dense.length
        · exact getD_set_eq dense 0 0 hb
        · rw [List.set_eq_of_length_le (Nat.le_of_not_lt hb)]
          exact getD_oob dense 0 (Nat.le_of_not_lt hb)
      simp only [dropLLoop]
      split
      · exact dropLLoop_dense_zstable pattern diagptr ldth _ _ _ _ _ _ _ _ hz
      · exact dropLLoop_dense_zstable pattern diagptr ldth _ _ _ _ _ _ _ _ hz
    · simp only [dropLLoop]
      split
      · exact ih _ _ _ _ _ _ (by omega) r h1
      · apply ih _ _ _ _ _ _ (by omega) r
        rw [colRows_set_lt lurow nzcpy _ n (nzptr + 1) (by omega)]
        exact h1

theorem dropLLoop_marker_set (pattern : List Nat) (diagptr : Nat) (ldth : ℚ) :
    ∀ n nzptr lurow lu dense nzcpy ujjptr, 1 ≤ nzcpy → nzcpy ≤ nzptr →
      (ujjptr ≠ 0 ∨ diagptr ∈ colRows lurow n nzptr) →
      (dropLLoop pattern diagptr ldth n nzptr lurow lu dense nzcpy ujjptr).2.2.2.2 ≠ 0 := by
  intro n
  induction n with
  | zero =>
    intro nzptr lurow lu dense nzcpy ujjptr _ _ h
    rcases h with h | h
    · exact h
    · cases h
  | succ n ih =>
    intro nzptr lurow lu dense nzcpy ujjptr h1 h2 h
    simp only [dropLLoop]
    by_cases hd : lurow.getD nzptr 0 = diagptr
    · have hnd : ¬(pattern.getD (lurow.getD nzptr 0) 0 = 0 ∧ lurow.getD nzptr 0 ≠ diagptr ∧
          |dense.getD (lurow.getD nzptr 0) 0| < ldth) := fun hcon => hcon.2.1 hd
      rw [if_neg hnd, if_pos hd]
      apply ih _ _ _ _ _ _ (by omega) (by omega)
      left; omega
    · have h3 : ujjptr ≠ 0 ∨ diagptr ∈ colRows lurow n (nzptr + 1) := by
        rcases h with h | h
        · left; exact h
        · rw [colRows] at h
          rcases List.mem_cons.mp h with he | he
          · exact absurd he.symm hd
          · right; exact he
      split
      · exact ih _ _ _ _ _ _ (by omega) (by omega) h3
      · apply ih _ _ _ _ _ _ (by omega) (by omega)
        rcases h3 with h3 | h3
        · left; exact h3
        · right
          rw [colRows_set_lt lurow nzcpy _ n (nzptr + 1) (by omega)]
          exact h3

theorem dropLLoop_marker (pattern : List Nat) (diagptr : Nat) (ldth : ℚ) (c : Nat) :
    ∀ n nzptr lurow lu dense nzcpy ujjptr, c ≤ nzcpy → 1 ≤ nzcpy → nzcpy ≤ nzptr →
      nzptr + n ≤ lurow.length →
      (ujjptr ≠ 0 → c ≤ ujjptr ∧ ujjptr < nzcpy ∧ lurow.getD ujjptr 0 = diagptr) →
      ((dropLLoop pattern diagptr ldth n nzptr lurow lu dense nzcpy ujjptr).2.2.2.2 ≠ 0 →
        c ≤ (dropLLoop pattern diagptr ldth n nzptr lurow lu dense nzcpy ujjptr).2.2.2.2 ∧
        (dropLLoop pattern diagptr ldth n nzptr lurow lu dense nzcpy ujjptr).2.2.2.2 <
          (dropLLoop pattern diagptr ldth n nzptr lurow lu dense nzcpy ujjptr).2.2.2.1 ∧
        (dropLLoop pattern diagptr ldth n nzptr lurow lu dense nzcpy ujjptr).1.getD
          (dropLLoop pattern diagptr ldth n nzptr lurow lu dense nzcpy ujjptr).2.2.2.2 0 =
          diagptr) := by
  intro n
  induction n with
  | zero =>
    intro nzptr lurow lu dense nzcpy ujjptr _ _ _ _ hinv
    exact hinv
  | succ n ih =>
    intro nzptr lurow lu dense nzcpy ujjptr hc h1 h2 hlen hinv
    simp only [dropLLoop]
    split
    · exact ih _ _ _ _ _ _ hc (by omega) (by omega) (by omega) hinv
    · by_cases hd : lurow.getD nzptr 0 = diagptr
      · rw [if_pos hd]
        apply ih _ _ _ _ _ _ (by omega) (by omega) (by omega)
        · rw [List.length_set]; omega
        · intro _
          refine ⟨hc, by omega, ?_⟩
          rw [getD_set_eq lurow _ 0 (by omega)]
          exact hd
      · rw [if_neg hd]
        apply ih _ _ _ _ _ _ (by omega) (by omega) (by omega)
        · rw [List.length_set]; omega
        · intro hu
          obtain ⟨ha, hb, hc2⟩ := hinv hu
          refine ⟨ha, by omega, ?_⟩
          rw [getD_set_ne lurow _ 0 (by omega)]
          exact hc2

/-! ### Lemmas about `pivScanLoop` -/

theorem pivScanLoop_max (pattern lurow : List Nat) (dense : List ℚ) :
    ∀ n nzptr dp dpv uj mp mg,
      (∀ r ∈ colRows lurow n nzptr,
        |dense.getD r 0| ≤ (pivScanLoop pattern lurow dense n nzptr dp dpv uj mp mg).2.2.2.1) ∧
      mp ≤ (pivScanLoop pattern lurow dense n nzptr dp dpv uj mp mg).2.2.2.1 ∧
      (((pivScanLoop pattern lurow dense n nzptr dp dpv uj mp mg).2.2.1 = uj ∧
          (pivScanLoop pattern lurow dense n nzptr dp dpv uj mp mg).2.2.2.1 = mp) ∨
        ((pivScanLoop pattern lurow dense n nzptr dp dpv uj mp mg).2.2.1 ∈ colRows lurow n nzptr ∧
          (pivScanLoop pattern lurow dense n nzptr dp dpv uj mp mg).2.2.2.1 =
            |dense.getD ((pivScanLoop pattern lurow dense n nzptr dp dpv uj mp mg).2.2.1) 0|)) := by
  intro n
  induction n with
  | zero =>
    intro nzptr dp dpv uj mp mg
    exact ⟨fun r hr => absurd hr (List.not_mem_nil r), le_refl mp, Or.inl ⟨rfl, rfl⟩⟩
  | succ n ih =>
    intro nzptr dp dpv uj mp mg
    simp only [pivScanLoop, colRows]
    by_cases hgt : |dense.getD (lurow.getD nzptr 0) 0| > mp
    · rw [if_pos hgt, if_pos hgt]
      obtain ⟨ha, hb, hc⟩ := ih (nzptr + 1)
        (if pattern.getD (lurow.getD nzptr 0) 0 = 2 then lurow.getD nzptr 0 else dp)
        (if pattern.getD (lurow.getD nzptr 0) 0 = 2 then |dense.getD (lurow.getD nzptr 0) 0| else dpv)
        (lurow.getD nzptr 0) (|dense.getD (lurow.getD nzptr 0) 0|)
        (if |dense.getD (lurow.getD nzptr 0) 0| > mg then |dense.getD (lurow.getD nzptr 0) 0| else mg)
      refine ⟨?_, by linarith, ?_⟩
      · intro r hr
        rcases List.mem_cons.mp hr with h1 | h1
        · subst h1; exact hb
        · exact ha r h1
      · rcases hc with ⟨hc1, hc2⟩ | ⟨hc1, hc2⟩
        · right
          exact ⟨by rw [hc1]; exact List.mem_cons_self _ _, by rw [hc1, hc2]⟩
        · right
          exact ⟨List.mem_cons_of_mem _ hc1, hc2⟩
    · rw [if_neg hgt, if_neg hgt]
      obtain ⟨ha, hb, hc⟩ := ih (nzptr + 1)
        (if pattern.getD (lurow.getD nzptr 0) 0 = 2 then lurow.getD nzptr 0 else dp)
        (if pattern.getD (lurow.getD nzptr 0) 0 = 2 then |dense.getD (lurow.getD nzptr 0) 0| else dpv)
        uj mp
        (if |dense.getD (lurow.getD nzptr 0) 0| > mg then |dense.getD (lurow.getD nzptr 0) 0| else mg)
      refine ⟨?_, hb, ?_⟩
      · intro r hr
        rcases List.mem_cons.mp hr with h1 | h1
        · subst h1
          push_neg at hgt
          linarith
        · exact ha r h1
      · rcases hc with ⟨hc1, hc2⟩ | ⟨hc1, hc2⟩
        · left; exact ⟨hc1, hc2⟩
        · right; exact ⟨List.mem_cons_of_mem _ hc1, hc2⟩

theorem pivScanLoop_diag_none (pattern lurow : List Nat) (dense : List ℚ) :
    ∀ n nzptr dp dpv uj mp mg,
      (∀ r ∈ colRows lurow n nzptr, pattern.getD r 0 ≠ 2) →
      (pivScanLoop pattern lurow dense n nzptr dp dpv uj mp mg).1 = dp ∧
      (pivScanLoop pattern lurow dense n nzptr dp dpv uj mp mg).2.1 = dpv := by
  intro n
  induction n with
  | zero => intro nzptr dp dpv uj mp mg _; exact ⟨rfl, rfl⟩
  | succ n ih =>
    intro nzptr dp dpv uj mp mg hno
    have hhd : pattern.getD (lurow.getD nzptr 0) 0 ≠ 2 :=
      hno _ (by rw [colRows]; exact List.mem_cons_self _ _)
    have htl : ∀ r ∈ colRows lurow n (nzptr + 1), pattern.getD r 0 ≠ 2 := by
      intro r hr
      exact hno r (by rw [colRows]; exact List.mem_cons_of_mem _ hr)
    simp only [pivScanLoop]
    rw [if_neg hhd, if_neg hhd]
    exact ih (nzptr + 1) dp dpv _ _ _ htl

theorem pivScanLoop_diag_unique (pattern lurow : List Nat) (dense : List ℚ) (d : Nat)
    (hd2 : pattern.getD d 0 = 2) :
    ∀ n nzptr dp dpv uj mp mg,
      (∀ r ∈ colRows lurow n nzptr, pattern.getD r 0 = 2 → r = d) →
      (d ∈ colRows lurow n nzptr ∨ (dp = d ∧ dpv = |dense.getD d 0|)) →
      (pivScanLoop pattern lurow dense n nzptr dp dpv uj mp mg).1 = d ∧
      (pivScanLoop pattern lurow dense n nzptr dp dpv uj mp mg).2.1 = |dense.getD d 0| := by
  intro n
  induction n with
  | zero =>
    intro nzptr dp dpv uj mp mg _ h
    rcases h with h | ⟨h1, h2⟩
    · cases h
    · exact ⟨h1, h2⟩
  | succ n ih =>
    intro nzptr dp dpv uj mp mg huniq h
    have htl : ∀ r ∈ colRows lurow n (nzptr + 1), pattern.getD r 0 = 2 → r = d := by
      intro r hr
      exact huniq r (by rw [colRows]; exact List.mem_cons_of_mem _ hr)
    simp only [pivScanLoop]
    by_cases hp2 : pattern.getD (lurow.getD nzptr 0) 0 = 2
    · have heq : lurow.getD nzptr 0 = d :=
        huniq _ (by rw [colRows]; exact List.mem_cons_self _ _) hp2
      rw [if_pos hp2, if_pos hp2]
      apply ih (nzptr + 1) _ _ _ _ _ htl
      right
      exact ⟨heq, by rw [heq]⟩
    · rw [if_neg hp2, if_neg hp2]
      apply ih (nzptr + 1) _ _ _ _ _ htl
      rcases h with h | h
      · rw [colRows] at h
        rcases List.mem_cons.mp h with he | he
        · exact absurd (he ▸ hd2) hp2
        · left; exact he
      · right; exact h

/-! ### Further `colRows` machinery and `luTail` characterization -/

theorem colRows_congr (l1 l2 : List Nat) :
    ∀ n start, (∀ q, start ≤ q → q < start + n → l1.getD q 0 = l2.getD q 0) →
      colRows l1 n start = colRows l2 n start := by
  intro n
  induction n with
  | zero => intro start _; rfl
  | succ n ih =>
    intro start h
    simp only [colRows]
    rw [h start (Nat.le_refl _) (by omega), ih (start + 1) (fun q h1 h2 => h q (by omega) (by omega))]

theorem luTail_state_ok (jcol u : Nat) (lu : List ℚ) (lurow lcolst ucolst rperm : List Nat)
    (dense : List ℚ) (lastlu : Int) (h1 : u ≠ 0) (h2 : lu.getD u 0 ≠ 0) :
    luTail jcol u lu lurow lcolst ucolst rperm dense lastlu =
      (⟨divLoop (lu.getD u 0) (ucolst.getD (jcol + 1) 0 - (lcolst.getD jcol 0 + 1))
          (lcolst.getD jcol 0 + 1)
          ((lu.set u (lu.getD (lcolst.getD jcol 0) 0)).set (lcolst.getD jcol 0) (lu.getD u 0)),
        (lurow.set u (lurow.getD (lcolst.getD jcol 0) 0)).set (lcolst.getD jcol 0) (lurow.getD u 0),
        lcolst.set jcol (lcolst.getD jcol 0 + 1), ucolst,
        rperm.set (lurow.getD u 0) jcol, dense, lastlu⟩,
        Except.ok (lurow.getD u 0)) := by
  simp only [luTail]
  rw [if_neg h1, if_neg h2]

theorem luTail_ok (jcol u : Nat) (lu : List ℚ) (lurow lcolst ucolst rperm : List Nat)
    (dense : List ℚ) (lastlu : Int) (r : Nat)
    (h : (luTail jcol u lu lurow lcolst ucolst rperm dense lastlu).2 = Except.ok r) :
    u ≠ 0 ∧ lu.getD u 0 ≠ 0 ∧ lurow.getD u 0 = r := by
  by_cases h1 : u = 0
  · simp only [luTail] at h
    rw [if_pos h1] at h
    cases h
  · by_cases h2 : lu.getD u 0 = 0
    · simp only [luTail] at h
      rw [if_neg h1, if_pos h2] at h
      cases h
    · refine ⟨h1, h2, ?_⟩
      rw [luTail_state_ok jcol u lu lurow lcolst ucolst rperm dense lastlu h1 h2] at h
      exact Except.ok.inj h

theorem luTail_err (jcol u : Nat) (lu : List ℚ) (lurow lcolst ucolst rperm : List Nat)
    (dense : List ℚ) (lastlu : Int) (e : LuErr)
    (h : (luTail jcol u lu lurow lcolst ucolst rperm dense lastlu).2 = Except.error e) :
    (luTail jcol u lu lurow lcolst ucolst rperm dense lastlu).1 =
      ⟨lu, lurow, lcolst, ucolst, rperm, dense, lastlu⟩ := by
  by_cases h1 : u = 0
  · simp only [luTail]
    rw [if_pos h1]
  · by_cases h2 : lu.getD u 0 = 0
    · simp only [luTail]
      rw [if_neg h1, if_pos h2]
    · rw [luTail_state_ok jcol u lu lurow lcolst ucolst rperm dense lastlu h1 h2] at h
      cases h

theorem luTail_dense (jcol u : Nat) (lu : List ℚ) (lurow lcolst ucolst rperm : List Nat)
    (dense : List ℚ) (lastlu : Int) :
    (luTail jcol u lu lurow lcolst ucolst rperm dense lastlu).1.dense = dense := by
  by_cases h1 : u = 0
  · simp only [luTail]
    rw [if_pos h1]
  · by_cases h2 : lu.getD u 0 = 0
    · simp only [luTail]
      rw [if_neg h1, if_pos h2]
    · rw [luTail_state_ok jcol u lu lurow lcolst ucolst rperm dense lastlu h1 h2]

/-! ### Claim C9 -/

/-- C9: for every `lucopy` call in which a pivot candidate has been
identified (the common epilogue, lucopy.go lines 300-339, entered with
`ujjptr != 0`), the call fails exactly when the chosen pivot value is
exactly zero: the result is the numerically-singular error iff the value at
the candidate index is `0`, and a nonzero candidate value always yields
success with the candidate row as the returned pivot row. -/
theorem C9_zero_pivot_error (jcol u : Nat) (lu : List ℚ)
    (lurow lcolst ucolst rperm : List Nat) (dense : List ℚ) (lastlu : Int)
    (hu : u ≠ 0) :
    ((luTail jcol u lu lurow lcolst ucolst rperm dense lastlu).2 =
        Except.error LuErr.zeroPivot ↔ lu.getD u 0 = 0) ∧
    (lu.getD u 0 ≠ 0 →
      (luTail jcol u lu lurow lcolst ucolst rperm dense lastlu).2 =
        Except.ok (lurow.getD u 0)) := by
  constructor
  · constructor
    · intro h
      by_contra h2
      rw [luTail_state_ok jcol u lu lurow lcolst ucolst rperm dense lastlu hu h2] at h
      cases h
    · intro h2
      simp only [luTail]
      rw [if_neg hu, if_pos h2]
  · intro h2
    rw [luTail_state_ok jcol u lu lurow lcolst ucolst rperm dense lastlu hu h2]

theorem C9_zero_pivot_error_witness :
    ((luTail 1 1 [0, 5] [0, 3] [0, 1] [0, 0, 2] [0, 0, 0, 0] [] 1).2 =
        Except.error LuErr.zeroPivot ↔ ([0, 5] : List ℚ).getD 1 0 = 0) ∧
    (([0, 5] : List ℚ).getD 1 0 ≠ 0 →
      (luTail 1 1 [0, 5] [0, 3] [0, 1] [0, 0, 2] [0, 0, 0, 0] [] 1).2 =
        Except.ok (([0, 3] : List Nat).getD 1 0)) :=
  C9_zero_pivot_error 1 1 [0, 5] [0, 3] [0, 1] [0, 0, 2] [0, 0, 0, 0] [] 1 (by decide)

/-! ### Claim C10 -/

/-- C10: every `lucopy` call that returns an error (zero-length column
range, no pivot index identified, or exactly-zero pivot value) leaves the
row permutation `rperm` completely unchanged; `rperm` is written only on
the success path after all error checks. -/
theorem C10_error_rperm_unchanged (pivot : Int) (pthresh dthresh : ℚ) (nzcount : Int)
    (jcol : Nat) (lastlu : Int) (lu : List ℚ) (lurow lcolst ucolst rperm cperm : List Nat)
    (dense : List ℚ) (pattern : List Nat) (e : LuErr)
    (h : (lucopy pivot pthresh dthresh nzcount jcol lastlu lu lurow lcolst ucolst rperm
        cperm dense pattern).2 = Except.error e) :
    (lucopy pivot pthresh dthresh nzcount jcol lastlu lu lurow lcolst ucolst rperm
        cperm dense pattern).1.rperm = rperm := by
  by_cases h1 : pivot ≤ 0
  · by_cases h2 : ucolst.getD (jcol + 1) 0 ≤ ucolst.getD jcol 0
    · simp only [lucopy] at h ⊢
      rw [if_pos h1, if_pos h2] at h ⊢
    · simp only [lucopy] at h ⊢
      rw [if_pos h1, if_neg h2] at h ⊢
      by_cases h3 : pivot = -1
      · rw [if_pos h3] at h
        cases h
      · rw [if_neg h3] at h ⊢
        have := luTail_err _ _ _ _ _ _ _ _ _ _ h
        rw [this]
  · by_cases h2 : ucolst.getD (jcol + 1) 0 ≤ lcolst.getD jcol 0
    · simp only [lucopy] at h ⊢
      rw [if_neg h1, if_pos h2] at h ⊢
    · simp only [lucopy] at h ⊢
      rw [if_neg h1, if_neg h2, if_neg h2] at h ⊢
      have := luTail_err _ _ _ _ _ _ _ _ _ _ h
      rw [this]

theorem C10_error_rperm_unchanged_witness :
    (lucopy 0 0 0 0 1 0 [] [] [] [0, 1, 1] [0, 7] [] [] []).2 =
        Except.error LuErr.zeroLenUL ∧
    (lucopy 0 0 0 0 1 0 [] [] [] [0, 1, 1] [0, 7] [] [] []).1.rperm = [0, 7] :=
  ⟨by decide,
    C10_error_rperm_unchanged 0 0 0 0 1 0 [] [] [] [0, 1, 1] [0, 7] [] [] []
      LuErr.zeroLenUL (by decide)⟩

/-! ### Claim C6 -/

theorem luTail_noPivot (jcol : Nat) (lu : List ℚ) (lurow lcolst ucolst rperm : List Nat)
    (dense : List ℚ) (lastlu : Int) :
    (luTail jcol 0 lu lurow lcolst ucolst rperm dense lastlu).2 =
      Except.error LuErr.noPivot := by
  simp only [luTail]
  rw [if_pos trivial]

theorem luTail_ne_noPivot (jcol u : Nat) (lu : List ℚ) (lurow lcolst ucolst rperm : List Nat)
    (dense : List ℚ) (lastlu : Int) (hu : u ≠ 0) :
    (luTail jcol u lu lurow lcolst ucolst rperm dense lastlu).2 ≠
      Except.error LuErr.noPivot := by
  by_cases h2 : lu.getD u 0 = 0
  · simp only [luTail]
    rw [if_neg hu, if_pos h2]
    intro h
    cases h
  · rw [luTail_state_ok jcol u lu lurow lcolst ucolst rperm dense lastlu hu h2]
    intro h
    cases h

/-- C6: every successful `lucopy` call with `pivot >= 0` records the returned
pivot row `r` in the row permutation and changes nothing else: the final
`rperm` is exactly `rperm.set r jcol`, so `rperm[r] = jcol` on exit, every
other index is unchanged, and (when no row mapped to `jcol` on entry) no
other row maps to `jcol` on exit. -/
theorem C6_rperm_pivot_write (pivot : Int) (pthresh dthresh : ℚ) (nzcount : Int)
    (jcol : Nat) (lastlu : Int) (lu : List ℚ) (lurow lcolst ucolst rperm cperm : List Nat)
    (dense : List ℚ) (pattern : List Nat) (r : Nat)
    (hpiv : 0 ≤ pivot)
    (hok : (lucopy pivot pthresh dthresh nzcount jcol lastlu lu lurow lcolst ucolst rperm
        cperm dense pattern).2 = Except.ok r) :
    (lucopy pivot pthresh dthresh nzcount jcol lastlu lu lurow lcolst ucolst rperm
        cperm dense pattern).1.rperm = rperm.set r jcol ∧
    (r < rperm.length →
      (lucopy pivot pthresh dthresh nzcount jcol lastlu lu lurow lcolst ucolst rperm
          cperm dense pattern).1.rperm.getD r 0 = jcol) ∧
    (∀ s, s ≠ r →
      (lucopy pivot pthresh dthresh nzcount jcol lastlu lu lurow lcolst ucolst rperm
          cperm dense pattern).1.rperm.getD s 0 = rperm.getD s 0) ∧
    ((∀ s, rperm.getD s 0 ≠ jcol) → ∀ s, s ≠ r →
      (lucopy pivot pthresh dthresh nzcount jcol lastlu lu lurow lcolst ucolst rperm
          cperm dense pattern).1.rperm.getD s 0 ≠ jcol) := by
  have hmain : (lucopy pivot pthresh dthresh nzcount jcol lastlu lu lurow lcolst ucolst rperm
      cperm dense pattern).1.rperm = rperm.set r jcol := by
    by_cases h1 : pivot ≤ 0
    · have hp0 : ¬ pivot = -1 := by omega
      by_cases h2 : ucolst.getD (jcol + 1) 0 ≤ ucolst.getD jcol 0
      · simp only [lucopy] at hok
        rw [if_pos h1, if_pos h2] at hok
        cases hok
      · simp only [lucopy] at hok ⊢
        rw [if_pos h1, if_neg h2] at hok ⊢
        rw [if_neg hp0] at hok ⊢
        obtain ⟨hu, hlz, hr⟩ := luTail_ok _ _ _ _ _ _ _ _ _ _ hok
        rw [luTail_state_ok _ _ _ _ _ _ _ _ _ hu hlz, hr]
    · by_cases h2 : ucolst.getD (jcol + 1) 0 ≤ lcolst.getD jcol 0
      · simp only [lucopy] at hok
        rw [if_neg h1, if_pos h2] at hok
        cases hok
      · simp only [lucopy] at hok ⊢
        rw [if_neg h1, if_neg h2, if_neg h2] at hok ⊢
        obtain ⟨hu, hlz, hr⟩ := luTail_ok _ _ _ _ _ _ _ _ _ _ hok
        rw [luTail_state_ok _ _ _ _ _ _ _ _ _ hu hlz, hr]
  refine ⟨hmain, ?_, ?_, ?_⟩
  · intro hlt
    rw [hmain]
    exact getD_set_eq rperm jcol 0 hlt
  · intro s hs
    rw [hmain]
    exact getD_set_ne rperm jcol 0 (fun he => hs he.symm)
  · intro hpre s hs
    rw [hmain, getD_set_ne rperm jcol 0 (fun he => hs he.symm)]
    exact hpre s

theorem C6_rperm_pivot_write_witness :
    (lucopy 1 (2/5) 0 0 1 2 [0, 0, 0] [0, 1, 2] [0, 1] [0, 1, 3] [0, 0, 0] [0, 1]
        [0, 2, 1] [0, 0, 2]).1.rperm = [0, 0, 0].set 2 1 ∧
    (2 < ([0, 0, 0] : List Nat).length →
      (lucopy 1 (2/5) 0 0 1 2 [0, 0, 0] [0, 1, 2] [0, 1] [0, 1, 3] [0, 0, 0] [0, 1]
          [0, 2, 1] [0, 0, 2]).1.rperm.getD 2 0 = 1) ∧
    (∀ s, s ≠ 2 →
      (lucopy 1 (2/5) 0 0 1 2 [0, 0, 0] [0, 1, 2] [0, 1] [0, 1, 3] [0, 0, 0] [0, 1]
          [0, 2, 1] [0, 0, 2]).1.rperm.getD s 0 = ([0, 0, 0] : List Nat).getD s 0) ∧
    ((∀ s, ([0, 0, 0] : List Nat).getD s 0 ≠ 1) → ∀ s, s ≠ 2 →
      (lucopy 1 (2/5) 0 0 1 2 [0, 0, 0] [0, 1, 2] [0, 1] [0, 1, 3] [0, 0, 0] [0, 1]
          [0, 2, 1] [0, 0, 2]).1.rperm.getD s 0 ≠ 1) :=
  C6_rperm_pivot_write 1 (2/5) 0 0 1 2 [0, 0, 0] [0, 1, 2] [0, 1] [0, 1, 3] [0, 0, 0]
    [0, 1] [0, 2, 1] [0, 0, 2] 2 (by decide) (by decide)

/-! ### Claim C7 -/

/-- C7: for every successful `lucopy` call whose dense vector is nonzero only
at rows listed in the column's `lurow` range (the postcondition `ludfs`
establishes), the dense vector is entirely zero on exit: every candidate
entry is either copied into `lu` or discarded, and both paths zero its dense
slot. -/
theorem C7_dense_drained (pivot : Int) (pthresh dthresh : ℚ) (nzcount : Int)
    (jcol : Nat) (lastlu : Int) (lu : List ℚ) (lurow lcolst ucolst rperm cperm : List Nat)
    (dense : List ℚ) (pattern : List Nat) (r : Nat)
    (hU : ucolst.getD jcol 0 ≤ lcolst.getD jcol 0)
    (hL : lcolst.getD jcol 0 ≤ ucolst.getD (jcol + 1) 0)
    (hcov : ∀ i < dense.length, dense.getD i 0 ≠ 0 →
      i ∈ colRows lurow (ucolst.getD (jcol + 1) 0 - ucolst.getD jcol 0) (ucolst.getD jcol 0))
    (hok : (lucopy pivot pthresh dthresh nzcount jcol lastlu lu lurow lcolst ucolst rperm
        cperm dense pattern).2 = Except.ok r) :
    ∀ i, (lucopy pivot pthresh dthresh nzcount jcol lastlu lu lurow lcolst ucolst rperm
        cperm dense pattern).1.dense.getD i 0 = 0 := by
  intro i
  have hcov2 : ∀ i, dense.getD i 0 ≠ 0 →
      i ∈ colRows lurow (ucolst.getD (jcol + 1) 0 - ucolst.getD jcol 0)
        (ucolst.getD jcol 0) := by
    intro j hj
    by_cases hjl : j < dense.length
    · exact hcov j hjl hj
    · exact absurd (getD_oob dense 0 (Nat.le_of_not_lt hjl)) hj
  have hsplit : colRows lurow (ucolst.getD (jcol + 1) 0 - ucolst.getD jcol 0)
      (ucolst.getD jcol 0) =
      colRows lurow (lcolst.getD jcol 0 - ucolst.getD jcol 0) (ucolst.getD jcol 0) ++
      colRows lurow (ucolst.getD (jcol + 1) 0 - lcolst.getD jcol 0) (lcolst.getD jcol 0) := by
    have h1 : ucolst.getD (jcol + 1) 0 - ucolst.getD jcol 0 =
        (lcolst.getD jcol 0 - ucolst.getD jcol 0) +
        (ucolst.getD (jcol + 1) 0 - lcolst.getD jcol 0) := by omega
    have h2 : ucolst.getD jcol 0 + (lcolst.getD jcol 0 - ucolst.getD jcol 0) =
        lcolst.getD jcol 0 := by omega
    rw [h1, colRows_append, h2]
  have hle : ucolst.getD jcol 0 + (lcolst.getD jcol 0 - ucolst.getD jcol 0) =
      lcolst.getD jcol 0 := by omega
  by_cases h1 : pivot ≤ 0
  · by_cases h2 : ucolst.getD (jcol + 1) 0 ≤ ucolst.getD jcol 0
    · simp only [lucopy] at hok
      rw [if_pos h1, if_pos h2] at hok
      cases hok
    · have core : ∀ i, (copyL0Loop pattern
          (ucolst.getD (jcol + 1) 0 - lcolst.getD jcol 0) (lcolst.getD jcol 0)
          (copyU0Loop pattern (cperm.getD jcol 0)
            (lcolst.getD jcol 0 - ucolst.getD jcol 0) (ucolst.getD jcol 0)
            lurow lu dense (ucolst.getD jcol 0)).1
          (copyU0Loop pattern (cperm.getD jcol 0)
            (lcolst.getD jcol 0 - ucolst.getD jcol 0) (ucolst.getD jcol 0)
            lurow lu dense (ucolst.getD jcol 0)).2.1
          (copyU0Loop pattern (cperm.getD jcol 0)
            (lcolst.getD jcol 0 - ucolst.getD jcol 0) (ucolst.getD jcol 0)
            lurow lu dense (ucolst.getD jcol 0)).2.2.1
          (copyU0Loop pattern (cperm.getD jcol 0)
            (lcolst.getD jcol 0 - ucolst.getD jcol 0) (ucolst.getD jcol 0)
            lurow lu dense (ucolst.getD jcol 0)).2.2.2 0).2.2.1.getD i 0 = 0 := by
        intro j
        by_cases hj : j ∈ colRows lurow (ucolst.getD (jcol + 1) 0 - ucolst.getD jcol 0)
            (ucolst.getD jcol 0)
        · rw [hsplit] at hj
          rcases List.mem_append.mp hj with hjU | hjL
          · apply copyL0Loop_dense_zstable
            exact copyU0Loop_dense_zero pattern (cperm.getD jcol 0) _ _ lurow lu dense _
              (Nat.le_refl _) j hjU
          · have hrows : colRows (copyU0Loop pattern (cperm.getD jcol 0)
                (lcolst.getD jcol 0 - ucolst.getD jcol 0) (ucolst.getD jcol 0)
                lurow lu dense (ucolst.getD jcol 0)).1
                (ucolst.getD (jcol + 1) 0 - lcolst.getD jcol 0) (lcolst.getD jcol 0) =
                colRows lurow (ucolst.getD (jcol + 1) 0 - lcolst.getD jcol 0)
                  (lcolst.getD jcol 0) := by
              apply colRows_congr
              intro q hq1 _
              apply copyU0Loop_lurow_high pattern (cperm.getD jcol 0) _ _ lurow lu dense _
                q (Nat.le_refl _)
              omega
            apply copyL0Loop_dense_zero pattern _ _ _ _ _ _ _ ?hle j ?hmem
            case hle =>
              have := copyU0Loop_nzcpy_le pattern (cperm.getD jcol 0)
                (lcolst.getD jcol 0 - ucolst.getD jcol 0) (ucolst.getD jcol 0)
                lurow lu dense (ucolst.getD jcol 0)
              omega
            case hmem => rw [hrows]; exact hjL
        · have hz : dense.getD j 0 = 0 := by
            by_contra hnz
            exact hj (hcov2 j hnz)
          apply copyL0Loop_dense_zstable
          exact copyU0Loop_dense_zstable pattern (cperm.getD jcol 0) _ _ lurow lu dense _
            j hz
      simp only [lucopy] at hok ⊢
      rw [if_pos h1, if_neg h2] at hok ⊢
      by_cases h3 : pivot = -1
      · rw [if_pos h3]
        exact core i
      · rw [if_neg h3] at hok ⊢
        rw [luTail_dense]
        exact core i
  · by_cases h2 : ucolst.getD (jcol + 1) 0 ≤ lcolst.getD jcol 0
    · simp only [lucopy] at hok
      rw [if_neg h1, if_pos h2] at hok
      cases hok
    · simp only [lucopy] at hok ⊢
      rw [if_neg h1, if_neg h2, if_neg h2] at hok ⊢
      rw [luTail_dense]
      by_cases hj : i ∈ colRows lurow (ucolst.getD (jcol + 1) 0 - ucolst.getD jcol 0)
          (ucolst.getD jcol 0)
      · rw [hsplit] at hj
        rcases List.mem_append.mp hj with hjU | hjL
        · apply dropLLoop_dense_zstable
          apply copyUtLoop_dense_zero pattern _ _ _ lurow lu dense _ (Nat.le_refl _) i hjU
        · have hrows : ∀ udth : ℚ, colRows (copyUtLoop pattern udth
              (lcolst.getD jcol 0 - ucolst.getD jcol 0) (ucolst.getD jcol 0)
              lurow lu dense (ucolst.getD jcol 0)).1
              (ucolst.getD (jcol + 1) 0 - lcolst.getD jcol 0) (lcolst.getD jcol 0) =
              colRows lurow (ucolst.getD (jcol + 1) 0 - lcolst.getD jcol 0)
                (lcolst.getD jcol 0) := by
            intro udth
            apply colRows_congr
            intro q hq1 _
            apply copyUtLoop_lurow_high pattern udth _ _ lurow lu dense _ q (Nat.le_refl _)
            omega
          apply dropLLoop_dense_zero _ _ _ _ _ _ _ _ _ _ ?hle2 i ?hmem2
          case hle2 =>
            have := copyUtLoop_nzcpy_le pattern
              (if nzcount ≤ 0 then
                dthresh * maxAbsLoop lurow dense
                  (lcolst.getD jcol 0 - ucolst.getD jcol 0) (ucolst.getD jcol 0) (-1)
              else if nzcount < ((lcolst.getD jcol 0 - ucolst.getD jcol 0 : Nat) : Int) then
                dordstat (((lcolst.getD jcol 0 - ucolst.getD jcol 0 : Nat) : Int) -
                    nzcount + 1).toNat
                  (absList lurow dense (lcolst.getD jcol 0 - ucolst.getD jcol 0)
                    (ucolst.getD jcol 0))
              else 0)
              (lcolst.getD jcol 0 - ucolst.getD jcol 0) (ucolst.getD jcol 0)
              lurow lu dense (ucolst.getD jcol 0)
            omega
          case hmem2 => rw [hrows]; exact hjL
      · have hz : dense.getD i 0 = 0 := by
          by_contra hnz
          exact hj (hcov2 i hnz)
        apply dropLLoop_dense_zstable
        exact copyUtLoop_dense_zstable pattern _ _ _ lurow lu dense _ i hz

theorem C7_dense_drained_witness :
    (lucopy 1 (2/5) 0 0 1 2 [0, 0, 0] [0, 1, 2] [0, 1] [0, 1, 3] [0, 0, 0] [0, 1]
        [0, 2, 1] [0, 0, 2]).1.dense.getD 1 0 = 0 :=
  C7_dense_drained 1 (2/5) 0 0 1 2 [0, 0, 0] [0, 1, 2] [0, 1] [0, 1, 3] [0, 0, 0] [0, 1]
    [0, 2, 1] [0, 0, 2] 2 (by decide) (by decide) (by decide) (by decide) 1

/-! ### Claim C2 -/

theorem luTail_err_of_u_eq_zero (jcol u : Nat) (lu : List ℚ)
    (lurow lcolst ucolst rperm : List Nat) (dense : List ℚ) (lastlu : Int) (h : u = 0) :
    (luTail jcol u lu lurow lcolst ucolst rperm dense lastlu).2 =
      Except.error LuErr.noPivot := by
  subst h
  exact luTail_noPivot jcol lu lurow lcolst ucolst rperm dense lastlu

/-- C2 counterexample: a `pivot = 0` call in which the row `cperm[jcol] = 1`
is present in the L range (and kept by compaction, since `pattern[1] = 1`),
yet the returned pivot row is `2`, the row with `pattern[2] = 2`: mode 0
selects the pattern-designated diagonal, not row `cperm[jcol]`. -/
theorem C2_counterexample :
    (lucopy 0 0 0 0 1 2 [0, 0, 0] [0, 1, 2] [0, 1] [0, 1, 3] [0, 0, 0] [0, 1]
        [0, 5, 7] [0, 1, 2]).2 = Except.ok 2 ∧
    ([0, 1] : List Nat).getD 1 0 = 1 ∧
    (2 : Nat) ≠ 1 ∧
    (1 : Nat) ∈ colRows [0, 1, 2] 2 1 := by decide

/-- C2 (amended): for every `pivot = 0` call on a sane column structure, the
chosen diagonal is an L-range entry whose `pattern` value is `2` (the
original `irow == cperm[jcol]` test is commented out in favour of
`pattern[irow] == 2`), and the call fails with the no-pivot error exactly
when no L-range entry has `pattern[row] = 2`. -/
theorem C2_mode0_diag_pattern2 (pthresh dthresh : ℚ) (nzcount : Int) (jcol : Nat)
    (lastlu : Int) (lu : List ℚ) (lurow lcolst ucolst rperm cperm : List Nat)
    (dense : List ℚ) (pattern : List Nat)
    (hpos : 1 ≤ ucolst.getD jcol 0)
    (hU : ucolst.getD jcol 0 ≤ lcolst.getD jcol 0)
    (hLU : lcolst.getD jcol 0 ≤ ucolst.getD (jcol + 1) 0)
    (hlen : ucolst.getD (jcol + 1) 0 ≤ lurow.length) :
    (∀ r, (lucopy 0 pthresh dthresh nzcount jcol lastlu lu lurow lcolst ucolst rperm
        cperm dense pattern).2 = Except.ok r →
      r ∈ colRows lurow (ucolst.getD (jcol + 1) 0 - lcolst.getD jcol 0)
          (lcolst.getD jcol 0) ∧ pattern.getD r 0 = 2) ∧
    (ucolst.getD jcol 0 < ucolst.getD (jcol + 1) 0 →
      (∀ s ∈ colRows lurow (ucolst.getD (jcol + 1) 0 - lcolst.getD jcol 0)
          (lcolst.getD jcol 0), pattern.getD s 0 ≠ 2) →
      (lucopy 0 pthresh dthresh nzcount jcol lastlu lu lurow lcolst ucolst rperm
          cperm dense pattern).2 = Except.error LuErr.noPivot) ∧
    ((∃ s ∈ colRows lurow (ucolst.getD (jcol + 1) 0 - lcolst.getD jcol 0)
          (lcolst.getD jcol 0), pattern.getD s 0 = 2) →
      (lucopy 0 pthresh dthresh nzcount jcol lastlu lu lurow lcolst ucolst rperm
          cperm dense pattern).2 ≠ Except.error LuErr.noPivot) := by
  have h1 : (0 : Int) ≤ 0 := by decide
  have h3 : ¬ (0 : Int) = -1 := by decide
  have hnzle : (copyU0Loop pattern (cperm.getD jcol 0)
      (lcolst.getD jcol 0 - ucolst.getD jcol 0) (ucolst.getD jcol 0)
      lurow lu dense (ucolst.getD jcol 0)).2.2.2 ≤ lcolst.getD jcol 0 := by
    have := copyU0Loop_nzcpy_le pattern (cperm.getD jcol 0)
      (lcolst.getD jcol 0 - ucolst.getD jcol 0) (ucolst.getD jcol 0)
      lurow lu dense (ucolst.getD jcol 0)
    omega
  have hnzge : 1 ≤ (copyU0Loop pattern (cperm.getD jcol 0)
      (lcolst.getD jcol 0 - ucolst.getD jcol 0) (ucolst.getD jcol 0)
      lurow lu dense (ucolst.getD jcol 0)).2.2.2 :=
    Nat.le_trans hpos (copyU0Loop_nzcpy_ge pattern (cperm.getD jcol 0)
      (lcolst.getD jcol 0 - ucolst.getD jcol 0) (ucolst.getD jcol 0)
      lurow lu dense (ucolst.getD jcol 0))
  have hrows : colRows (copyU0Loop pattern (cperm.getD jcol 0)
      (lcolst.getD jcol 0 - ucolst.getD jcol 0) (ucolst.getD jcol 0)
      lurow lu dense (ucolst.getD jcol 0)).1
      (ucolst.getD (jcol + 1) 0 - lcolst.getD jcol 0) (lcolst.getD jcol 0) =
      colRows lurow (ucolst.getD (jcol + 1) 0 - lcolst.getD jcol 0)
        (lcolst.getD jcol 0) := by
    apply colRows_congr
    intro q hq1 _
    apply copyU0Loop_lurow_high pattern (cperm.getD jcol 0) _ _ lurow lu dense _ q
      (Nat.le_refl _)
    omega
  have hulen : (copyU0Loop pattern (cperm.getD jcol 0)
      (lcolst.getD jcol 0 - ucolst.getD jcol 0) (ucolst.getD jcol 0)
      lurow lu dense (ucolst.getD jcol 0)).1.length = lurow.length :=
    copyU0Loop_lurow_len pattern (cperm.getD jcol 0) _ _ lurow lu dense _
  refine ⟨?_, ?_, ?_⟩
  · intro r hok
    by_cases h2 : ucolst.getD (jcol + 1) 0 ≤ ucolst.getD jcol 0
    · simp only [lucopy] at hok
      rw [if_pos h1, if_pos h2] at hok
      cases hok
    · simp only [lucopy] at hok
      rw [if_pos h1, if_neg h2, if_neg h3] at hok
      obtain ⟨hu, _, hr⟩ := luTail_ok _ _ _ _ _ _ _ _ _ _ hok
      rw [← hr]
      refine (copyL0Loop_marker pattern
        (fun s => s ∈ colRows lurow (ucolst.getD (jcol + 1) 0 - lcolst.getD jcol 0)
          (lcolst.getD jcol 0) ∧ pattern.getD s 0 = 2)
        _ _ _ _ _ _ 0 hnzge hnzle ?hl ?hq ?hinv hu).2
      case hl => rw [hulen]; omega
      case hq =>
        intro s hs h2s
        rw [hrows] at hs
        exact ⟨hs, h2s⟩
      case hinv => intro hcon; exact absurd rfl hcon
  · intro hne hno
    by_cases h2 : ucolst.getD (jcol + 1) 0 ≤ ucolst.getD jcol 0
    · omega
    · simp only [lucopy]
      rw [if_pos h1, if_neg h2, if_neg h3]
      apply luTail_err_of_u_eq_zero
      refine copyL0Loop_marker_none pattern _ _ _ _ _ _ 0 hnzle ?hno2
      intro s hs
      rw [hrows] at hs
      exact hno s hs
  · intro hex
    by_cases h2 : ucolst.getD (jcol + 1) 0 ≤ ucolst.getD jcol 0
    · obtain ⟨s, hs, _⟩ := hex
      rw [mem_colRows_iff] at hs
      obtain ⟨p, hp1, hp2, _⟩ := hs
      omega
    · simp only [lucopy]
      rw [if_pos h1, if_neg h2, if_neg h3]
      refine luTail_ne_noPivot _ _ _ _ _ _ _ _ _ ?hu
      refine copyL0Loop_marker_set pattern _ _ _ _ _ _ 0 hnzge hnzle ?hex2
      right
      obtain ⟨s, hs, h2s⟩ := hex
      exact ⟨s, by rw [hrows]; exact hs, h2s⟩

theorem C2_mode0_diag_pattern2_witness :
    ((lucopy 0 0 0 0 1 2 [0, 0, 0] [0, 1, 2] [0, 1] [0, 1, 3] [0, 0, 0] [0, 1]
        [0, 5, 7] [0, 1, 2]).2 = Except.ok 2 →
      (2 : Nat) ∈ colRows [0, 1, 2] 2 1 ∧ ([0, 1, 2] : List Nat).getD 2 0 = 2) ∧
    ((∃ s ∈ colRows ([0, 1, 2] : List Nat) 2 1, ([0, 1, 2] : List Nat).getD s 0 = 2) →
      (lucopy 0 0 0 0 1 2 [0, 0, 0] [0, 1, 2] [0, 1] [0, 1, 3] [0, 0, 0] [0, 1]
          [0, 5, 7] [0, 1, 2]).2 ≠ Except.error LuErr.noPivot) :=
  ⟨fun h => (C2_mode0_diag_pattern2 0 0 0 1 2 [0, 0, 0] [0, 1, 2] [0, 1] [0, 1, 3]
      [0, 0, 0] [0, 1] [0, 5, 7] [0, 1, 2] (by decide) (by decide) (by decide)
      (by decide)).1 2 h,
    fun h => (C2_mode0_diag_pattern2 0 0 0 1 2 [0, 0, 0] [0, 1, 2] [0, 1] [0, 1, 3]
      [0, 0, 0] [0, 1] [0, 5, 7] [0, 1, 2] (by decide) (by decide) (by decide)
      (by decide)).2.2 h⟩

/-! ### The scan maximum as `maxAbsLoop` -/

theorem pivScanLoop_maxpiv_eq (pattern lurow : List Nat) (dense : List ℚ) :
    ∀ n nzptr dp dpv uj mp mg,
      (pivScanLoop pattern lurow dense n nzptr dp dpv uj mp mg).2.2.2.1 =
        maxAbsLoop lurow dense n nzptr mp := by
  intro n
  induction n with
  | zero => intro nzptr dp dpv uj mp mg; rfl
  | succ n ih =>
    intro nzptr dp dpv uj mp mg
    simp only [pivScanLoop, maxAbsLoop]
    by_cases hgt : |dense.getD (lurow.getD nzptr 0) 0| > mp
    · rw [if_pos hgt, if_pos hgt, ih]
    · rw [if_neg hgt, if_neg hgt, ih]

theorem maxAbsLoop_congr (l1 l2 : List Nat) (d1 d2 : List ℚ) :
    ∀ n nzptr m,
      (∀ p, nzptr ≤ p → p < nzptr + n → l1.getD p 0 = l2.getD p 0) →
      (∀ s ∈ colRows l2 n nzptr, d1.getD s 0 = d2.getD s 0) →
      maxAbsLoop l1 d1 n nzptr m = maxAbsLoop l2 d2 n nzptr m := by
  intro n
  induction n with
  | zero => intro nzptr m _ _; rfl
  | succ n ih =>
    intro nzptr m hl hd
    simp only [maxAbsLoop]
    have he : l1.getD nzptr 0 = l2.getD nzptr 0 := hl nzptr (Nat.le_refl _) (by omega)
    have hv : d1.getD (l2.getD nzptr 0) 0 = d2.getD (l2.getD nzptr 0) 0 :=
      hd _ (by rw [colRows]; exact List.mem_cons_self _ _)
    rw [he, hv]
    exact ih (nzptr + 1) _ (fun p h1 h2 => hl p (by omega) (by omega))
      (fun s hs => hd s (by rw [colRows]; exact List.mem_cons_of_mem _ hs))

/-! ### Claim C1 -/

/-- C1 counterexample: a `pivot = 1` (partial pivoting) call where the L
range holds row 1 with magnitude 2 and row 2 with magnitude 1 and
`pattern[2] = 2`, `pthresh = 2/5`.  The returned pivot row is 2, not the
maximum-magnitude row 1: mode 1 is not independent of `pattern`/`pthresh`,
because the threshold-pivoting test at lucopy.go line 246 runs for every
`pivot > 0`. -/
theorem C1_counterexample :
    (lucopy 1 (2/5) 0 0 1 2 [0, 0, 0] [0, 1, 2] [0, 1] [0, 1, 3] [0, 0, 0] [0, 1]
        [0, 2, 1] [0, 0, 2]).2 = Except.ok 2 ∧
    (1 : Nat) ∈ colRows [0, 1, 2] 2 1 ∧
    |([0, 2, 1] : List ℚ).getD 1 0| > |([0, 2, 1] : List ℚ).getD 2 0| := by decide

/-- C1 (amended): for every `pivot = 1` call on a sane column whose L range
contains no `pattern[row] = 2` entry, the returned pivot row is an L-range
row of maximum absolute magnitude in the dense column (when a
pattern-designated row is present, threshold pivoting applies exactly as in
mode 2, so the claim's independence from `pattern` and `pthresh` holds only
in its absence). -/
theorem C1_partial_pivot_max (pthresh dthresh : ℚ) (nzcount : Int) (jcol : Nat)
    (lastlu : Int) (lu : List ℚ) (lurow lcolst ucolst rperm cperm : List Nat)
    (dense : List ℚ) (pattern : List Nat) (r : Nat)
    (hpos : 1 ≤ ucolst.getD jcol 0)
    (hU : ucolst.getD jcol 0 ≤ lcolst.getD jcol 0)
    (hlen : ucolst.getD (jcol + 1) 0 ≤ lurow.length)
    (hdisj : ∀ s ∈ colRows lurow (ucolst.getD (jcol + 1) 0 - lcolst.getD jcol 0)
        (lcolst.getD jcol 0),
      s ∉ colRows lurow (lcolst.getD jcol 0 - ucolst.getD jcol 0) (ucolst.getD jcol 0))
    (hnopat : ∀ s ∈ colRows lurow (ucolst.getD (jcol + 1) 0 - lcolst.getD jcol 0)
        (lcolst.getD jcol 0), pattern.getD s 0 ≠ 2)
    (hok : (lucopy 1 pthresh dthresh nzcount jcol lastlu lu lurow lcolst ucolst rperm
        cperm dense pattern).2 = Except.ok r) :
    r ∈ colRows lurow (ucolst.getD (jcol + 1) 0 - lcolst.getD jcol 0)
        (lcolst.getD jcol 0) ∧
    ∀ s ∈ colRows lurow (ucolst.getD (jcol + 1) 0 - lcolst.getD jcol 0)
        (lcolst.getD jcol 0), |dense.getD s 0| ≤ |dense.getD r 0| := by
  by_cases h2 : ucolst.getD (jcol + 1) 0 ≤ lcolst.getD jcol 0
  · simp only [lucopy] at hok
    rw [if_neg (by decide : ¬ ((1 : Int) ≤ 0)), if_pos h2] at hok
    cases hok
  · simp only [lucopy] at hok
    rw [if_neg (by decide : ¬ ((1 : Int) ≤ 0)), if_neg h2, if_neg h2] at hok
    revert hok
    generalize (if nzcount ≤ 0 then
        dthresh * maxAbsLoop lurow dense (lcolst.getD jcol 0 - ucolst.getD jcol 0)
          (ucolst.getD jcol 0) (-1)
      else if nzcount < ((lcolst.getD jcol 0 - ucolst.getD jcol 0 : Nat) : Int) then
        dordstat (((lcolst.getD jcol 0 - ucolst.getD jcol 0 : Nat) : Int) - nzcount + 1).toNat
          (absList lurow dense (lcolst.getD jcol 0 - ucolst.getD jcol 0) (ucolst.getD jcol 0))
      else 0) = udth
    generalize (if nzcount ≤ 0 then
        dthresh * maxAbsLoop lurow dense (ucolst.getD (jcol + 1) 0 - lcolst.getD jcol 0)
          (lcolst.getD jcol 0) (-1)
      else if nzcount < ((ucolst.getD (jcol + 1) 0 - lcolst.getD jcol 0 : Nat) : Int) then
        dordstat (((ucolst.getD (jcol + 1) 0 - lcolst.getD jcol 0 : Nat) : Int) -
            nzcount + 1).toNat
          (absList lurow dense (ucolst.getD (jcol + 1) 0 - lcolst.getD jcol 0)
            (lcolst.getD jcol 0))
      else 0) = ldth
    intro hok
    set CU := copyUtLoop pattern udth (lcolst.getD jcol 0 - ucolst.getD jcol 0)
      (ucolst.getD jcol 0) lurow lu dense (ucolst.getD jcol 0) with hCU
    set SC := pivScanLoop pattern CU.1 CU.2.2.1
      (ucolst.getD (jcol + 1) 0 - lcolst.getD jcol 0) (lcolst.getD jcol 0)
      0 0 0 (-1) (-1) with hSC
    set DG := if SC.1 ≠ 0 ∧ SC.2.1 ≥ pthresh * SC.2.2.2.1 then SC.1 else SC.2.2.1 with hDG
    set DL := dropLLoop pattern DG ldth (ucolst.getD (jcol + 1) 0 - lcolst.getD jcol 0)
      (lcolst.getD jcol 0) CU.1 CU.2.1 CU.2.2.1 CU.2.2.2 0 with hDL
    have hulen : CU.1.length = lurow.length := by
      rw [hCU]
      exact copyUtLoop_lurow_len pattern udth _ _ lurow lu dense _
    have hrows : colRows CU.1 (ucolst.getD (jcol + 1) 0 - lcolst.getD jcol 0)
        (lcolst.getD jcol 0) =
        colRows lurow (ucolst.getD (jcol + 1) 0 - lcolst.getD jcol 0)
          (lcolst.getD jcol 0) := by
      apply colRows_congr
      intro q hq1 _
      rw [hCU]
      apply copyUtLoop_lurow_high pattern udth _ _ lurow lu dense _ q (Nat.le_refl _)
      omega
    have hnzge : 1 ≤ CU.2.2.2 := by
      rw [hCU]
      exact Nat.le_trans hpos (copyUtLoop_nzcpy_ge pattern udth _ _ lurow lu dense _)
    have hnzle : CU.2.2.2 ≤ lcolst.getD jcol 0 := by
      rw [hCU]
      have := copyUtLoop_nzcpy_le pattern udth (lcolst.getD jcol 0 - ucolst.getD jcol 0)
        (ucolst.getD jcol 0) lurow lu dense (ucolst.getD jcol 0)
      omega
    have hdpres : ∀ s ∈ colRows lurow (ucolst.getD (jcol + 1) 0 - lcolst.getD jcol 0)
        (lcolst.getD jcol 0), CU.2.2.1.getD s 0 = dense.getD s 0 := by
      intro s hs
      rw [hCU]
      exact copyUtLoop_dense_pres pattern udth _ _ lurow lu dense _ (Nat.le_refl _) s
        (hdisj s hs)
    obtain ⟨hmaxall, _, htri⟩ := pivScanLoop_max pattern CU.1 CU.2.2.1
      (ucolst.getD (jcol + 1) 0 - lcolst.getD jcol 0) (lcolst.getD jcol 0) 0 0 0 (-1) (-1)
    rw [← hSC] at hmaxall htri
    have hdiag := pivScanLoop_diag_none pattern CU.1 CU.2.2.1
      (ucolst.getD (jcol + 1) 0 - lcolst.getD jcol 0) (lcolst.getD jcol 0) 0 0 0 (-1) (-1)
      (fun s hs => by rw [hrows] at hs; exact hnopat s hs)
    rw [← hSC] at hdiag
    obtain ⟨hu, _, hr⟩ := luTail_ok _ _ _ _ _ _ _ _ _ _ hok
    have hm := dropLLoop_marker pattern DG ldth 1
      (ucolst.getD (jcol + 1) 0 - lcolst.getD jcol 0) (lcolst.getD jcol 0)
      CU.1 CU.2.1 CU.2.2.1 CU.2.2.2 0 hnzge hnzge hnzle
      (by rw [hulen]; omega) (fun hc => absurd rfl hc)
    rw [← hDL] at hm
    have hrd : r = DG := by
      rw [← hr]
      exact (hm hu).2.2
    have hdg2 : DG = SC.2.2.1 := by
      rw [hDG]
      exact if_neg (fun hc => absurd hdiag.1 hc.1)
    have hne : (lurow.getD (lcolst.getD jcol 0) 0) ∈
        colRows lurow (ucolst.getD (jcol + 1) 0 - lcolst.getD jcol 0)
          (lcolst.getD jcol 0) := by
      rw [mem_colRows_iff]
      exact ⟨lcolst.getD jcol 0, Nat.le_refl _, by omega, rfl⟩
    rcases htri with ⟨hta, htb⟩ | ⟨hta, htb⟩
    · exfalso
      have h0 := hmaxall _ (by rw [hrows]; exact hne)
      rw [htb] at h0
      have : (0 : ℚ) ≤ |CU.2.2.1.getD (lurow.getD (lcolst.getD jcol 0) 0) 0| := abs_nonneg _
      linarith
    · rw [hrows] at hta
      have hrmem : r ∈ colRows lurow (ucolst.getD (jcol + 1) 0 - lcolst.getD jcol 0)
          (lcolst.getD jcol 0) := by
        rw [hrd, hdg2]
        exact hta
      refine ⟨hrmem, ?_⟩
      intro s hs
      have h1 := hmaxall s (by rw [hrows]; exact hs)
      rw [htb] at h1
      rw [← hdpres s hs, ← hdpres r hrmem]
      rw [hrd, hdg2]
      exact h1

theorem C1_partial_pivot_max_witness :
    (1 : Nat) ∈ colRows [0, 1, 2] 2 1 ∧
    ∀ s ∈ colRows ([0, 1, 2] : List Nat) 2 1,
      |([0, 2, 1] : List ℚ).getD s 0| ≤ |([0, 2, 1] : List ℚ).getD 1 0| :=
  C1_partial_pivot_max (2/5) 0 0 1 2 [0, 0, 0] [0, 1, 2] [0, 1] [0, 1, 3] [0, 0, 0]
    [0, 1] [0, 2, 1] [0, 0, 0] 1 (by decide) (by decide) (by decide) (by decide)
    (by decide) (by decide)

/-! ### Claim C4 -/

/-- C4: for every `pivot = 2` (threshold pivoting) call on a sane column in
which exactly one L-range row `d` is pattern-designated (`pattern[d] = 2`):
if `|dense[d]|` is at least `pthresh` times the maximum magnitude of the L
range, then `d` is returned as the pivot row; otherwise the returned pivot
row is a maximum-magnitude L-range row, exactly as in mode 1. -/
theorem C4_threshold_pivot (pthresh dthresh : ℚ) (nzcount : Int) (jcol : Nat)
    (lastlu : Int) (lu : List ℚ) (lurow lcolst ucolst rperm cperm : List Nat)
    (dense : List ℚ) (pattern : List Nat) (d r : Nat)
    (hpos : 1 ≤ ucolst.getD jcol 0)
    (hU : ucolst.getD jcol 0 ≤ lcolst.getD jcol 0)
    (hlen : ucolst.getD (jcol + 1) 0 ≤ lurow.length)
    (hdisj : ∀ s ∈ colRows lurow (ucolst.getD (jcol + 1) 0 - lcolst.getD jcol 0)
        (lcolst.getD jcol 0),
      s ∉ colRows lurow (lcolst.getD jcol 0 - ucolst.getD jcol 0) (ucolst.getD jcol 0))
    (hd1 : 1 ≤ d)
    (hdmem : d ∈ colRows lurow (ucolst.getD (jcol + 1) 0 - lcolst.getD jcol 0)
        (lcolst.getD jcol 0))
    (hd2 : pattern.getD d 0 = 2)
    (huniq : ∀ s ∈ colRows lurow (ucolst.getD (jcol + 1) 0 - lcolst.getD jcol 0)
        (lcolst.getD jcol 0), pattern.getD s 0 = 2 → s = d)
    (hok : (lucopy 2 pthresh dthresh nzcount jcol lastlu lu lurow lcolst ucolst rperm
        cperm dense pattern).2 = Except.ok r) :
    (|dense.getD d 0| ≥ pthresh * maxAbsLoop lurow dense
        (ucolst.getD (jcol + 1) 0 - lcolst.getD jcol 0) (lcolst.getD jcol 0) (-1) →
      r = d) ∧
    (|dense.getD d 0| < pthresh * maxAbsLoop lurow dense
        (ucolst.getD (jcol + 1) 0 - lcolst.getD jcol 0) (lcolst.getD jcol 0) (-1) →
      r ∈ colRows lurow (ucolst.getD (jcol + 1) 0 - lcolst.getD jcol 0)
          (lcolst.getD jcol 0) ∧
      ∀ s ∈ colRows lurow (ucolst.getD (jcol + 1) 0 - lcolst.getD jcol 0)
          (lcolst.getD jcol 0), |dense.getD s 0| ≤ |dense.getD r 0|) := by
  by_cases h2 : ucolst.getD (jcol + 1) 0 ≤ lcolst.getD jcol 0
  · simp only [lucopy] at hok
    rw [if_neg (by decide : ¬ ((2 : Int) ≤ 0)), if_pos h2] at hok
    cases hok
  · simp only [lucopy] at hok
    rw [if_neg (by decide : ¬ ((2 : Int) ≤ 0)), if_neg h2, if_neg h2] at hok
    revert hok
    generalize (if nzcount ≤ 0 then
        dthresh * maxAbsLoop lurow dense (lcolst.getD jcol 0 - ucolst.getD jcol 0)
          (ucolst.getD jcol 0) (-1)
      else if nzcount < ((lcolst.getD jcol 0 - ucolst.getD jcol 0 : Nat) : Int) then
        dordstat (((lcolst.getD jcol 0 - ucolst.getD jcol 0 : Nat) : Int) - nzcount + 1).toNat
          (absList lurow dense (lcolst.getD jcol 0 - ucolst.getD jcol 0) (ucolst.getD jcol 0))
      else 0) = udth
    generalize (if nzcount ≤ 0 then
        dthresh * maxAbsLoop lurow dense (ucolst.getD (jcol + 1) 0 - lcolst.getD jcol 0)
          (lcolst.getD jcol 0) (-1)
      else if nzcount < ((ucolst.getD (jcol + 1) 0 - lcolst.getD jcol 0 : Nat) : Int) then
        dordstat (((ucolst.getD (jcol + 1) 0 - lcolst.getD jcol 0 : Nat) : Int) -
            nzcount + 1).toNat
          (absList lurow dense (ucolst.getD (jcol + 1) 0 - lcolst.getD jcol 0)
            (lcolst.getD jcol 0))
      else 0) = ldth
    intro hok
    set CU := copyUtLoop pattern udth (lcolst.getD jcol 0 - ucolst.getD jcol 0)
      (ucolst.getD jcol 0) lurow lu dense (ucolst.getD jcol 0) with hCU
    set SC := pivScanLoop pattern CU.1 CU.2.2.1
      (ucolst.getD (jcol + 1) 0 - lcolst.getD jcol 0) (lcolst.getD jcol 0)
      0 0 0 (-1) (-1) with hSC
    set DG := if SC.1 ≠ 0 ∧ SC.2.1 ≥ pthresh * SC.2.2.2.1 then SC.1 else SC.2.2.1 with hDG
    set DL := dropLLoop pattern DG ldth (ucolst.getD (jcol + 1) 0 - lcolst.getD jcol 0)
      (lcolst.getD jcol 0) CU.1 CU.2.1 CU.2.2.1 CU.2.2.2 0 with hDL
    have hulen : CU.1.length = lurow.length := by
      rw [hCU]
      exact copyUtLoop_lurow_len pattern udth _ _ lurow lu dense _
    have hrowp : ∀ q, lcolst.getD jcol 0 ≤ q →
        q < lcolst.getD jcol 0 + (ucolst.getD (jcol + 1) 0 - lcolst.getD jcol 0) →
        CU.1.getD q 0 = lurow.getD q 0 := by
      intro q hq1 _
      rw [hCU]
      apply copyUtLoop_lurow_high pattern udth _ _ lurow lu dense _ q (Nat.le_refl _)
      omega
    have hrows : colRows CU.1 (ucolst.getD (jcol + 1) 0 - lcolst.getD jcol 0)
        (lcolst.getD jcol 0) =
        colRows lurow (ucolst.getD (jcol + 1) 0 - lcolst.getD jcol 0)
          (lcolst.getD jcol 0) :=
      colRows_congr _ _ _ _ hrowp
    have hnzge : 1 ≤ CU.2.2.2 := by
      rw [hCU]
      exact Nat.le_trans hpos (copyUtLoop_nzcpy_ge pattern udth _ _ lurow lu dense _)
    have hnzle : CU.2.2.2 ≤ lcolst.getD jcol 0 := by
      rw [hCU]
      have := copyUtLoop_nzcpy_le pattern udth (lcolst.getD jcol 0 - ucolst.getD jcol 0)
        (ucolst.getD jcol 0) lurow lu dense (ucolst.getD jcol 0)
      omega
    have hdpres : ∀ s ∈ colRows lurow (ucolst.getD (jcol + 1) 0 - lcolst.getD jcol 0)
        (lcolst.getD jcol 0), CU.2.2.1.getD s 0 = dense.getD s 0 := by
      intro s hs
      rw [hCU]
      exact copyUtLoop_dense_pres pattern udth _ _ lurow lu dense _ (Nat.le_refl _) s
        (hdisj s hs)
    obtain ⟨hmaxall, _, htri⟩ := pivScanLoop_max pattern CU.1 CU.2.2.1
      (ucolst.getD (jcol + 1) 0 - lcolst.getD jcol 0) (lcolst.getD jcol 0) 0 0 0 (-1) (-1)
    rw [← hSC] at hmaxall htri
    have hsc1 := pivScanLoop_diag_unique pattern CU.1 CU.2.2.1 d hd2
      (ucolst.getD (jcol + 1) 0 - lcolst.getD jcol 0) (lcolst.getD jcol 0) 0 0 0 (-1) (-1)
      (fun s hs h2s => huniq s (by rw [← hrows]; exact hs) h2s)
      (Or.inl (by rw [hrows]; exact hdmem))
    rw [← hSC] at hsc1
    have hdv : CU.2.2.1.getD d 0 = dense.getD d 0 := hdpres d hdmem
    have hmx : SC.2.2.2.1 = maxAbsLoop lurow dense
        (ucolst.getD (jcol + 1) 0 - lcolst.getD jcol 0) (lcolst.getD jcol 0) (-1) := by
      rw [hSC]
      rw [pivScanLoop_maxpiv_eq pattern CU.1 CU.2.2.1 _ _ 0 0 0 (-1) (-1)]
      exact maxAbsLoop_congr CU.1 lurow CU.2.2.1 dense _ _ (-1) hrowp
        (fun s hs => hdpres s hs)
    obtain ⟨hu, _, hr⟩ := luTail_ok _ _ _ _ _ _ _ _ _ _ hok
    have hm := dropLLoop_marker pattern DG ldth 1
      (ucolst.getD (jcol + 1) 0 - lcolst.getD jcol 0) (lcolst.getD jcol 0)
      CU.1 CU.2.1 CU.2.2.1 CU.2.2.2 0 hnzge hnzge hnzle
      (by rw [hulen]; omega) (fun hc => absurd rfl hc)
    rw [← hDL] at hm
    have hrd : r = DG := by
      rw [← hr]
      exact (hm hu).2.2
    constructor
    · intro hge
      have hcond : SC.1 ≠ 0 ∧ SC.2.1 ≥ pthresh * SC.2.2.2.1 := by
        constructor
        · rw [hsc1.1]; omega
        · rw [hsc1.2, hdv, hmx]; exact hge
      rw [hrd, hDG, if_pos hcond, hsc1.1]
    · intro hlt
      have hcond : ¬ (SC.1 ≠ 0 ∧ SC.2.1 ≥ pthresh * SC.2.2.2.1) := by
        intro hc
        have := hc.2
        rw [hsc1.2, hdv, hmx] at this
        linarith
      have hdg2 : DG = SC.2.2.1 := by rw [hDG]; exact if_neg hcond
      have hne : (lurow.getD (lcolst.getD jcol 0) 0) ∈
          colRows lurow (ucolst.getD (jcol + 1) 0 - lcolst.getD jcol 0)
            (lcolst.getD jcol 0) := by
        rw [mem_colRows_iff]
        exact ⟨lcolst.getD jcol 0, Nat.le_refl _, by omega, rfl⟩
      rcases htri with ⟨hta, htb⟩ | ⟨hta, htb⟩
      · exfalso
        have h0 := hmaxall _ (by rw [hrows]; exact hne)
        rw [htb] at h0
        have : (0 : ℚ) ≤ |CU.2.2.1.getD (lurow.getD (lcolst.getD jcol 0) 0) 0| :=
          abs_nonneg _
        linarith
      · rw [hrows] at hta
        have hrmem : r ∈ colRows lurow (ucolst.getD (jcol + 1) 0 - lcolst.getD jcol 0)
            (lcolst.getD jcol 0) := by
          rw [hrd, hdg2]
          exact hta
        refine ⟨hrmem, ?_⟩
        intro s hs
        have h1 := hmaxall s (by rw [hrows]; exact hs)
        rw [htb] at h1
        rw [← hdpres s hs, ← hdpres r hrmem]
        rw [hrd, hdg2]
        exact h1

theorem C4_threshold_pivot_witness :
    (|([0, 2, 1] : List ℚ).getD 2 0| ≥ (2/5) * maxAbsLoop [0, 1, 2] [0, 2, 1] 2 1 (-1) →
      (2 : Nat) = 2) ∧
    (|([0, 2, 1] : List ℚ).getD 2 0| < (2/5) * maxAbsLoop [0, 1, 2] [0, 2, 1] 2 1 (-1) →
      (2 : Nat) ∈ colRows [0, 1, 2] 2 1 ∧
      ∀ s ∈ colRows ([0, 1, 2] : List Nat) 2 1,
        |([0, 2, 1] : List ℚ).getD s 0| ≤ |([0, 2, 1] : List ℚ).getD 2 0|) :=
  C4_threshold_pivot (2/5) 0 0 1 2 [0, 0, 0] [0, 1, 2] [0, 1] [0, 1, 3] [0, 0, 0]
    [0, 1] [0, 2, 1] [0, 0, 2] 2 2 (by decide) (by decide) (by decide) (by decide)
    (by decide) (by decide) (by decide) (by decide) (by decide)

/-! ### Region characterization of the compaction loops -/

theorem copyUtLoop_region (pattern : List Nat) (udth : ℚ) :
    ∀ n nzptr lurow lu dense nzcpy, nzcpy ≤ nzptr → nzptr + n ≤ lurow.length →
      (colRows lurow n nzptr).Nodup →
      (copyUtLoop pattern udth n nzptr lurow lu dense nzcpy).2.2.2 =
        nzcpy + ((colRows lurow n nzptr).filter
          (fun s => decide (pattern.getD s 0 ≠ 0 ∨ |dense.getD s 0| ≥ udth))).length ∧
      colRows (copyUtLoop pattern udth n nzptr lurow lu dense nzcpy).1
          ((colRows lurow n nzptr).filter
            (fun s => decide (pattern.getD s 0 ≠ 0 ∨ |dense.getD s 0| ≥ udth))).length nzcpy =
        (colRows lurow n nzptr).filter
          (fun s => decide (pattern.getD s 0 ≠ 0 ∨ |dense.getD s 0| ≥ udth)) := by
  intro n
  induction n with
  | zero =>
    intro nzptr lurow lu dense nzcpy _ _ _
    exact ⟨rfl, rfl⟩
  | succ n ih =>
    intro nzptr lurow lu dense nzcpy hle hlen hnd
    rw [colRows] at hnd ⊢
    rw [List.filter_cons]
    obtain ⟨hhd, htl⟩ := List.pairwise_cons.mp hnd
    have hcongr : ∀ tl2 : List Nat, (∀ x ∈ tl2, x ∈ colRows lurow n (nzptr + 1)) →
        tl2.filter (fun s =>
          decide (pattern.getD s 0 ≠ 0 ∨ |(dense.set (lurow.getD nzptr 0) 0).getD s 0| ≥ udth)) =
        tl2.filter (fun s => decide (pattern.getD s 0 ≠ 0 ∨ |dense.getD s 0| ≥ udth)) := by
      intro tl2 hsub
      apply List.filter_congr
      intro x hx
      have hne : lurow.getD nzptr 0 ≠ x := fun he => hhd x (hsub x hx) he
      rw [getD_set_ne dense 0 0 hne]
    simp only [copyUtLoop]
    split
    case isTrue hc =>
      rw [if_pos (decide_eq_true hc)]
      have hrows2 : colRows (lurow.set nzcpy (lurow.getD nzptr 0)) n (nzptr + 1) =
          colRows lurow n (nzptr + 1) :=
        colRows_set_lt lurow nzcpy _ n (nzptr + 1) (by omega)
      obtain ⟨iha, ihb⟩ := ih (nzptr + 1) (lurow.set nzcpy (lurow.getD nzptr 0))
        (lu.set nzcpy (dense.getD (lurow.getD nzptr 0) 0))
        (dense.set (lurow.getD nzptr 0) 0) (nzcpy + 1) (by omega)
        (by rw [List.length_set]; omega) (by rw [hrows2]; exact htl)
      rw [hrows2] at iha ihb
      rw [hcongr _ (fun x hx => hx)] at iha ihb
      constructor
      · rw [iha, List.length_cons]
        omega
      · rw [List.length_cons, colRows, List.cons.injEq]
        constructor
        · rw [copyUtLoop_lurow_low pattern udth n (nzptr + 1) _ _ _ _ nzcpy (Nat.lt_succ_self _)]
          exact getD_set_eq lurow _ 0 (by omega)
        · exact ihb
    case isFalse hc =>
      rw [if_neg (by simp only [decide_eq_true_eq]; exact hc)]
      obtain ⟨iha, ihb⟩ := ih (nzptr + 1) lurow lu
        (dense.set (lurow.getD nzptr 0) 0) nzcpy (by omega) (by omega) htl
      rw [hcongr _ (fun x hx => hx)] at iha ihb
      exact ⟨iha, ihb⟩

theorem dropLLoop_region (pattern : List Nat) (diagptr : Nat) (ldth : ℚ) :
    ∀ n nzptr lurow lu dense nzcpy ujjptr, nzcpy ≤ nzptr → nzptr + n ≤ lurow.length →
      (colRows lurow n nzptr).Nodup →
      (dropLLoop pattern diagptr ldth n nzptr lurow lu dense nzcpy ujjptr).2.2.2.1 =
        nzcpy + ((colRows lurow n nzptr).filter
          (fun s => decide (¬ (pattern.getD s 0 = 0 ∧ s ≠ diagptr ∧
            |dense.getD s 0| < ldth)))).length ∧
      colRows (dropLLoop pattern diagptr ldth n nzptr lurow lu dense nzcpy ujjptr).1
          ((colRows lurow n nzptr).filter
            (fun s => decide (¬ (pattern.getD s 0 = 0 ∧ s ≠ diagptr ∧
              |dense.getD s 0| < ldth)))).length nzcpy =
        (colRows lurow n nzptr).filter
          (fun s => decide (¬ (pattern.getD s 0 = 0 ∧ s ≠ diagptr ∧
            |dense.getD s 0| < ldth))) := by
  intro n
  induction n with
  | zero =>
    intro nzptr lurow lu dense nzcpy ujjptr _ _ _
    exact ⟨rfl, rfl⟩
  | succ n ih =>
    intro nzptr lurow lu dense nzcpy ujjptr hle hlen hnd
    rw [colRows] at hnd ⊢
    rw [List.filter_cons]
    obtain ⟨hhd, htl⟩ := List.pairwise_cons.mp hnd
    have hcongr : ∀ tl2 : List Nat, (∀ x ∈ tl2, x ∈ colRows lurow n (nzptr + 1)) →
        tl2.filter (fun s => decide (¬ (pattern.getD s 0 = 0 ∧ s ≠ diagptr ∧
          |(dense.set (lurow.getD nzptr 0) 0).getD s 0| < ldth))) =
        tl2.filter (fun s => decide (¬ (pattern.getD s 0 = 0 ∧ s ≠ diagptr ∧
          |dense.getD s 0| < ldth))) := by
      intro tl2 hsub
      apply List.filter_congr
      intro x hx
      have hne : lurow.getD nzptr 0 ≠ x := fun he => hhd x (hsub x hx) he
      rw [getD_set_ne dense 0 0 hne]
    simp only [dropLLoop]
    split
    case isTrue hc =>
      rw [if_neg (by simp only [decide_eq_true_eq]; exact fun hn => hn hc)]
      obtain ⟨iha, ihb⟩ := ih (nzptr + 1) lurow lu
        (dense.set (lurow.getD nzptr 0) 0) nzcpy ujjptr (by omega) (by omega) htl
      rw [hcongr _ (fun x hx => hx)] at iha ihb
      exact ⟨iha, ihb⟩
    case isFalse hc =>
      rw [if_pos (decide_eq_true hc)]
      have hrows2 : colRows (lurow.set nzcpy (lurow.getD nzptr 0)) n (nzptr + 1) =
          colRows lurow n (nzptr + 1) :=
        colRows_set_lt lurow nzcpy _ n (nzptr + 1) (by omega)
      obtain ⟨iha, ihb⟩ := ih (nzptr + 1) (lurow.set nzcpy (lurow.getD nzptr 0))
        (lu.set nzcpy (dense.getD (lurow.getD nzptr 0) 0))
        (dense.set (lurow.getD nzptr 0) 0) (nzcpy + 1)
        (if lurow.getD nzptr 0 = diagptr then nzcpy else ujjptr) (by omega)
        (by rw [List.length_set]; omega) (by rw [hrows2]; exact htl)
      rw [hrows2] at iha ihb
      rw [hcongr _ (fun x hx => hx)] at iha ihb
      constructor
      · rw [iha, List.length_cons]
        omega
      · rw [List.length_cons, colRows, List.cons.injEq]
        constructor
        · rw [dropLLoop_lurow_low pattern diagptr ldth n (nzptr + 1) _ _ _ _ _ nzcpy
            (Nat.lt_succ_self _)]
          exact getD_set_eq lurow _ 0 (by omega)
        · exact ihb

/-! ### Order statistics: the rank threshold is the k-th largest magnitude -/

theorem absList_eq_map (lurow : List Nat) (dense : List ℚ) :
    ∀ n nzptr, absList lurow dense n nzptr =
      (colRows lurow n nzptr).map (fun s => |dense.getD s 0|) := by
  intro n
  induction n with
  | zero => intro nzptr; rfl
  | succ n ih =>
    intro nzptr
    simp only [absList, colRows, List.map_cons]
    rw [ih]

theorem dordstat_kth_largest (l : List ℚ) (k : Nat) (h1 : 1 ≤ k) (h2 : k ≤ l.length) :
    dordstat (l.length - k + 1) l = (l.insertionSort (· ≥ ·)).getD (k - 1) 0 := by
  have hperm : (l.insertionSort (· ≥ ·)) = (l.insertionSort (· ≤ ·)).reverse := by
    apply List.eq_of_perm_of_sorted (r := (· ≥ ·))
    · exact (List.perm_insertionSort _ l).trans
        ((List.reverse_perm _).trans (List.perm_insertionSort _ l)).symm
    · exact List.sorted_insertionSort _ _
    · rw [List.Sorted, List.pairwise_reverse]
      exact List.sorted_insertionSort (· ≤ ·) l
  rw [dordstat, hperm]
  have hlen1 : (l.insertionSort (· ≤ ·)).length = l.length := List.length_insertionSort _ l
  have hi1 : l.length - k + 1 - 1 < (l.insertionSort (· ≤ ·)).length := by omega
  have hi2 : k - 1 < (l.insertionSort (· ≤ ·)).reverse.length := by
    rw [List.length_reverse]
    omega
  rw [List.getD_eq_getElem?_getD, List.getElem?_eq_getElem hi1,
    List.getD_eq_getElem?_getD, List.getElem?_eq_getElem hi2]
  simp only [Option.getD_some]
  rw [List.getElem_reverse]
  congr 1
  omega

theorem sorted_countP_ge (s : List ℚ) (hs : s.Sorted (· ≤ ·)) (hd : s.Pairwise (· ≠ ·)) :
    ∀ i, i < s.length →
      s.countP (fun x => decide (x ≥ s.getD i 0)) = s.length - i := by
  induction s with
  | nil => intro i hi; cases hi
  | cons a tl ih =>
    intro i hi
    obtain ⟨hale, htls⟩ := List.sorted_cons.mp hs
    obtain ⟨hane, htld⟩ := List.pairwise_cons.mp hd
    cases i with
    | zero =>
      have hgd : (a :: tl).getD 0 0 = a := rfl
      rw [hgd, List.countP_cons]
      have hall : tl.countP (fun x => decide (x ≥ a)) = tl.length :=
        List.countP_eq_length.mpr (fun b hb => decide_eq_true (hale b hb))
      rw [hall, if_pos (decide_eq_true (le_refl a))]
      simp
    | succ j =>
      have hgd : (a :: tl).getD (j + 1) 0 = tl.getD j 0 := rfl
      have hjlt : j < tl.length := by
        simp only [List.length_cons] at hi
        omega
      have hmem : tl.getD j 0 ∈ tl := by
        rw [List.getD_eq_getElem?_getD, List.getElem?_eq_getElem hjlt]
        exact List.getElem_mem hjlt
      have hlt : a < tl.getD j 0 :=
        lt_of_le_of_ne (hale _ hmem) (hane _ hmem)
      rw [hgd, List.countP_cons, if_neg (by simp only [decide_eq_true_eq]; exact not_le.mpr hlt)]
      rw [ih htls htld j hjlt]
      simp only [List.length_cons]
      omega

theorem countP_ge_dordstat (l : List ℚ) (k : Nat) (h1 : 1 ≤ k) (h2 : k < l.length)
    (hd : l.Pairwise (· ≠ ·)) :
    l.countP (fun x => decide (x ≥ dordstat (l.length - k + 1) l)) = k := by
  have hp := List.perm_insertionSort (· ≤ ·) l
  have hdd : dordstat (l.length - k + 1) l =
      (l.insertionSort (· ≤ ·)).getD (l.length - k) 0 := by
    rw [dordstat, Nat.add_sub_cancel]
  rw [hdd, ← List.Perm.countP_eq _ hp]
  have hnd : (l.insertionSort (· ≤ ·)).Pairwise (· ≠ ·) :=
    (List.Perm.pairwise_iff (fun h => h.symm) hp).mpr hd
  have hlen : (l.insertionSort (· ≤ ·)).length = l.length := List.length_insertionSort _ l
  rw [sorted_countP_ge _ (List.sorted_insertionSort _ _) hnd (l.length - k) (by omega)]
  omega

theorem colRows_length (l : List Nat) : ∀ n s, (colRows l n s).length = n := by
  intro n
  induction n with
  | zero => intro s; rfl
  | succ n ih =>
    intro s
    simp only [colRows, List.length_cons, ih]

theorem absList_length (lurow : List Nat) (dense : List ℚ) (n p : Nat) :
    (absList lurow dense n p).length = n := by
  rw [absList_eq_map, List.length_map, colRows_length]

theorem countP_colRows_set (l : List Nat) (q v : Nat) (p : Nat → Bool) :
    ∀ n s, s ≤ q → q < s + n → q < l.length →
      (colRows (l.set q v) n s).countP p + (if p (l.getD q 0) then 1 else 0) =
      (colRows l n s).countP p + (if p v then 1 else 0) := by
  intro n
  induction n with
  | zero => intro s h1 h2 _; omega
  | succ n ih =>
    intro s h1 h2 hq
    rcases Nat.eq_or_lt_of_le h1 with he | hlt
    · subst he
      simp only [colRows, List.countP_cons]
      rw [getD_set_eq l v 0 hq]
      rw [colRows_congr (l.set s v) l n (s + 1)
        (fun q2 hq1 _ => getD_set_ne l v 0 (by omega))]
      omega
    · simp only [colRows, List.countP_cons]
      rw [getD_set_ne l v 0 (by omega)]
      have := ih (s + 1) hlt (by omega) hq
      omega

theorem countP_colRows_swap (l : List Nat) (i j : Nat) (p : Nat → Bool) :
    ∀ n s, s ≤ i → i < s + n → s ≤ j → j < s + n → i < l.length → j < l.length →
      (colRows ((l.set i (l.getD j 0)).set j (l.getD i 0)) n s).countP p =
        (colRows l n s).countP p := by
  intro n s hi1 hi2 hj1 hj2 hil hjl
  have hset1 := countP_colRows_set l i (l.getD j 0) p n s hi1 hi2 hil
  have hset2 := countP_colRows_set (l.set i (l.getD j 0)) j (l.getD i 0) p n s hj1 hj2
    (by rw [List.length_set]; exact hjl)
  have hgj : (l.set i (l.getD j 0)).getD j 0 = l.getD j 0 := by
    by_cases hij : i = j
    · subst hij
      exact getD_set_eq l _ 0 hil
    · exact getD_set_ne l _ 0 hij
  rw [hgj] at hset2
  omega

theorem colRows_swap_perm (l : List Nat) (i j : Nat) :
    ∀ n s, s ≤ i → i < s + n → s ≤ j → j < s + n → i < l.length → j < l.length →
      List.Perm (colRows ((l.set i (l.getD j 0)).set j (l.getD i 0)) n s)
        (colRows l n s) := by
  intro n s hi1 hi2 hj1 hj2 hil hjl
  rw [List.perm_iff_count]
  intro x
  rw [List.count_eq_countP, List.count_eq_countP]
  exact countP_colRows_swap l i j _ n s hi1 hi2 hj1 hj2 hil hjl

/-! ### Claim C8 -/

/-- C8 counterexample: with `keepCount = 2` and three out-of-pattern U-half
candidates all of magnitude 1, the rank threshold (the 2nd largest
magnitude) is 1 and all three candidates pass `>=`, so three out-of-pattern
entries survive compaction: ties make "at most k survive" fail. -/
theorem C8_counterexample :
    lucopy 1 0 0 2 1 4 [0, 0, 0, 0, 0] [0, 1, 2, 3, 4] [0, 4] [0, 1, 5] [0, 0, 0, 0, 0]
        [0, 1] [0, 1, -1, 1, 5] [0, 0, 0, 0, 0] =
      (⟨[0, 1, -1, 1, 5], [0, 1, 2, 3, 4], [0, 5], [0, 1, 5], [0, 0, 0, 0, 1],
        [0, 0, 0, 0, 0], 4⟩, Except.ok 4) ∧
    colRows [0, 1, 2, 3, 4] 3 1 = [1, 2, 3] ∧
    (∀ s ∈ colRows ([0, 1, 2, 3, 4] : List Nat) 3 1,
      ([0, 0, 0, 0, 0] : List Nat).getD s 0 = 0 ∧ s ≠ 4) ∧
    (2 : Nat) < 3 := by decide

/-- C8 (amended): for every `pivot > 0` call with `nzcount = k > 0`,
independently for each half-column that has more than `k` candidates:
the drop threshold of that half equals its k-th largest candidate
magnitude (via the spec-modelled order statistic `dordstat`); the
surviving U-half entries are exactly the candidates that are in pattern
or reach the threshold, and the surviving L-half entries (together with
the pivot, which the epilogue swaps into the last U slot) are, as a
multiset, exactly the candidates that are in pattern, are the pivot row,
or reach the threshold.  Hence when the candidate magnitudes of a half
are pairwise distinct, at most `k` out-of-pattern entries survive there;
with ties more than `k` can survive (see the counterexample), so "at
most k" holds only under distinctness. -/
theorem C8_rank_drop (pivot : Int) (pthresh dthresh : ℚ) (k : Nat) (jcol : Nat)
    (lastlu : Int) (lu : List ℚ) (lurow lcolst ucolst rperm cperm : List Nat)
    (dense : List ℚ) (pattern : List Nat) (r : Nat)
    (hpiv : 0 < pivot)
    (hk : 1 ≤ k)
    (hpos : 1 ≤ ucolst.getD jcol 0)
    (hU : ucolst.getD jcol 0 ≤ lcolst.getD jcol 0)
    (hlen : ucolst.getD (jcol + 1) 0 ≤ lurow.length)
    (hlc : jcol < lcolst.length)
    (huc : jcol + 1 < ucolst.length)
    (hndU : (colRows lurow (lcolst.getD jcol 0 - ucolst.getD jcol 0)
        (ucolst.getD jcol 0)).Nodup)
    (hndL : (colRows lurow (ucolst.getD (jcol + 1) 0 - lcolst.getD jcol 0)
        (lcolst.getD jcol 0)).Nodup)
    (hdisj : ∀ s ∈ colRows lurow (ucolst.getD (jcol + 1) 0 - lcolst.getD jcol 0)
        (lcolst.getD jcol 0),
      s ∉ colRows lurow (lcolst.getD jcol 0 - ucolst.getD jcol 0) (ucolst.getD jcol 0))
    (hok : (lucopy pivot pthresh dthresh (k : Int) jcol lastlu lu lurow lcolst ucolst
        rperm cperm dense pattern).2 = Except.ok r) :
    (k < lcolst.getD jcol 0 - ucolst.getD jcol 0 →
      dordstat (lcolst.getD jcol 0 - ucolst.getD jcol 0 - k + 1)
          (absList lurow dense (lcolst.getD jcol 0 - ucolst.getD jcol 0)
            (ucolst.getD jcol 0)) =
        ((absList lurow dense (lcolst.getD jcol 0 - ucolst.getD jcol 0)
            (ucolst.getD jcol 0)).insertionSort (· ≥ ·)).getD (k - 1) 0 ∧
      colRows (lucopy pivot pthresh dthresh (k : Int) jcol lastlu lu lurow lcolst ucolst
            rperm cperm dense pattern).1.lurow
          ((lucopy pivot pthresh dthresh (k : Int) jcol lastlu lu lurow lcolst ucolst
            rperm cperm dense pattern).1.lcolst.getD jcol 0 - 1 - ucolst.getD jcol 0)
          (ucolst.getD jcol 0) =
        (colRows lurow (lcolst.getD jcol 0 - ucolst.getD jcol 0)
            (ucolst.getD jcol 0)).filter
          (fun s => decide (pattern.getD s 0 ≠ 0 ∨ |dense.getD s 0| ≥
            dordstat (lcolst.getD jcol 0 - ucolst.getD jcol 0 - k + 1)
              (absList lurow dense (lcolst.getD jcol 0 - ucolst.getD jcol 0)
                (ucolst.getD jcol 0)))) ∧
      ((absList lurow dense (lcolst.getD jcol 0 - ucolst.getD jcol 0)
          (ucolst.getD jcol 0)).Pairwise (· ≠ ·) →
        (colRows (lucopy pivot pthresh dthresh (k : Int) jcol lastlu lu lurow lcolst
              ucolst rperm cperm dense pattern).1.lurow
            ((lucopy pivot pthresh dthresh (k : Int) jcol lastlu lu lurow lcolst ucolst
              rperm cperm dense pattern).1.lcolst.getD jcol 0 - 1 - ucolst.getD jcol 0)
            (ucolst.getD jcol 0)).countP
          (fun s => decide (pattern.getD s 0 = 0)) ≤ k)) ∧
    (k < ucolst.getD (jcol + 1) 0 - lcolst.getD jcol 0 →
      dordstat (ucolst.getD (jcol + 1) 0 - lcolst.getD jcol 0 - k + 1)
          (absList lurow dense (ucolst.getD (jcol + 1) 0 - lcolst.getD jcol 0)
            (lcolst.getD jcol 0)) =
        ((absList lurow dense (ucolst.getD (jcol + 1) 0 - lcolst.getD jcol 0)
            (lcolst.getD jcol 0)).insertionSort (· ≥ ·)).getD (k - 1) 0 ∧
      List.Perm
        (colRows (lucopy pivot pthresh dthresh (k : Int) jcol lastlu lu lurow lcolst
              ucolst rperm cperm dense pattern).1.lurow
          ((lucopy pivot pthresh dthresh (k : Int) jcol lastlu lu lurow lcolst ucolst
              rperm cperm dense pattern).1.ucolst.getD (jcol + 1) 0 -
            ((lucopy pivot pthresh dthresh (k : Int) jcol lastlu lu lurow lcolst ucolst
              rperm cperm dense pattern).1.lcolst.getD jcol 0 - 1))
          ((lucopy pivot pthresh dthresh (k : Int) jcol lastlu lu lurow lcolst ucolst
            rperm cperm dense pattern).1.lcolst.getD jcol 0 - 1))
        ((colRows lurow (ucolst.getD (jcol + 1) 0 - lcolst.getD jcol 0)
            (lcolst.getD jcol 0)).filter
          (fun s => decide (pattern.getD s 0 ≠ 0 ∨ s = r ∨ |dense.getD s 0| ≥
            dordstat (ucolst.getD (jcol + 1) 0 - lcolst.getD jcol 0 - k + 1)
              (absList lurow dense (ucolst.getD (jcol + 1) 0 - lcolst.getD jcol 0)
                (lcolst.getD jcol 0))))) ∧
      ((absList lurow dense (ucolst.getD (jcol + 1) 0 - lcolst.getD jcol 0)
          (lcolst.getD jcol 0)).Pairwise (· ≠ ·) →
        (colRows (lucopy pivot pthresh dthresh (k : Int) jcol lastlu lu lurow lcolst
              ucolst rperm cperm dense pattern).1.lurow
            ((lucopy pivot pthresh dthresh (k : Int) jcol lastlu lu lurow lcolst ucolst
                rperm cperm dense pattern).1.ucolst.getD (jcol + 1) 0 -
              (lucopy pivot pthresh dthresh (k : Int) jcol lastlu lu lurow lcolst ucolst
                rperm cperm dense pattern).1.lcolst.getD jcol 0)
            ((lucopy pivot pthresh dthresh (k : Int) jcol lastlu lu lurow lcolst ucolst
              rperm cperm dense pattern).1.lcolst.getD jcol 0)).countP
          (fun s => decide (pattern.getD s 0 = 0 ∧ s ≠ r)) ≤ k)) := by
  have hpiv2 : ¬ (pivot ≤ 0) := by omega
  by_cases h2 : ucolst.getD (jcol + 1) 0 ≤ lcolst.getD jcol 0
  · exfalso
    simp only [lucopy] at hok
    rw [if_neg hpiv2, if_pos h2] at hok
    simp at hok
  have hc1 : ¬ ((k : Int) ≤ 0) := by omega
  constructor
  · -- U half-column
    intro hkU
    have hta : dordstat (lcolst.getD jcol 0 - ucolst.getD jcol 0 - k + 1)
        (absList lurow dense (lcolst.getD jcol 0 - ucolst.getD jcol 0)
          (ucolst.getD jcol 0)) =
        ((absList lurow dense (lcolst.getD jcol 0 - ucolst.getD jcol 0)
            (ucolst.getD jcol 0)).insertionSort (· ≥ ·)).getD (k - 1) 0 := by
      have hl := absList_length lurow dense (lcolst.getD jcol 0 - ucolst.getD jcol 0)
        (ucolst.getD jcol 0)
      have := dordstat_kth_largest
        (absList lurow dense (lcolst.getD jcol 0 - ucolst.getD jcol 0)
          (ucolst.getD jcol 0)) k hk (by omega)
      rw [hl] at this
      exact this
    refine ⟨hta, ?_⟩
    have hc2U : (k : Int) < ((lcolst.getD jcol 0 - ucolst.getD jcol 0 : Nat) : Int) := by
      omega
    have htonU : (((lcolst.getD jcol 0 - ucolst.getD jcol 0 : Nat) : Int) -
        (k : Int) + 1).toNat = lcolst.getD jcol 0 - ucolst.getD jcol 0 - k + 1 := by
      omega
    simp only [lucopy] at hok ⊢
    rw [if_neg hpiv2, if_neg h2, if_neg h2] at hok ⊢
    simp only [if_neg hc1, if_pos hc2U] at hok ⊢
    rw [htonU] at hok ⊢
    revert hok
    generalize (if (k : Int) <
        ((ucolst.getD (jcol + 1) 0 - lcolst.getD jcol 0 : Nat) : Int) then
        dordstat ((((ucolst.getD (jcol + 1) 0 - lcolst.getD jcol 0 : Nat) : Int) -
          (k : Int) + 1).toNat)
          (absList lurow dense (ucolst.getD (jcol + 1) 0 - lcolst.getD jcol 0)
            (lcolst.getD jcol 0))
      else (0 : ℚ)) = tL
    intro hok
    set CU := copyUtLoop pattern
      (dordstat (lcolst.getD jcol 0 - ucolst.getD jcol 0 - k + 1)
        (absList lurow dense (lcolst.getD jcol 0 - ucolst.getD jcol 0)
          (ucolst.getD jcol 0)))
      (lcolst.getD jcol 0 - ucolst.getD jcol 0) (ucolst.getD jcol 0) lurow lu dense
      (ucolst.getD jcol 0) with hCU
    set SC := pivScanLoop pattern CU.1 CU.2.2.1
      (ucolst.getD (jcol + 1) 0 - lcolst.getD jcol 0) (lcolst.getD jcol 0)
      0 0 0 (-1) (-1) with hSC
    set DG := if SC.1 ≠ 0 ∧ SC.2.1 ≥ pthresh * SC.2.2.2.1 then SC.1 else SC.2.2.1
      with hDG
    set DL := dropLLoop pattern DG tL
      (ucolst.getD (jcol + 1) 0 - lcolst.getD jcol 0) (lcolst.getD jcol 0)
      CU.1 CU.2.1 CU.2.2.1 CU.2.2.2 0 with hDL
    have hulen : CU.1.length = lurow.length := by
      rw [hCU]
      exact copyUtLoop_lurow_len pattern _ _ _ lurow lu dense _
    have hnzge : 1 ≤ CU.2.2.2 := by
      rw [hCU]
      exact Nat.le_trans hpos (copyUtLoop_nzcpy_ge pattern _ _ _ lurow lu dense _)
    have hnzle : CU.2.2.2 ≤ lcolst.getD jcol 0 := by
      rw [hCU]
      have := copyUtLoop_nzcpy_le pattern
        (dordstat (lcolst.getD jcol 0 - ucolst.getD jcol 0 - k + 1)
          (absList lurow dense (lcolst.getD jcol 0 - ucolst.getD jcol 0)
            (ucolst.getD jcol 0)))
        (lcolst.getD jcol 0 - ucolst.getD jcol 0) (ucolst.getD jcol 0) lurow lu dense
        (ucolst.getD jcol 0)
      omega
    obtain ⟨ihaU, ihbU⟩ := copyUtLoop_region pattern
      (dordstat (lcolst.getD jcol 0 - ucolst.getD jcol 0 - k + 1)
        (absList lurow dense (lcolst.getD jcol 0 - ucolst.getD jcol 0)
          (ucolst.getD jcol 0)))
      (lcolst.getD jcol 0 - ucolst.getD jcol 0) (ucolst.getD jcol 0) lurow lu dense
      (ucolst.getD jcol 0) (Nat.le_refl _) (by omega) hndU
    rw [← hCU] at ihaU ihbU
    have hm := dropLLoop_marker pattern DG tL
      CU.2.2.2 (ucolst.getD (jcol + 1) 0 - lcolst.getD jcol 0) (lcolst.getD jcol 0)
      CU.1 CU.2.1 CU.2.2.1 CU.2.2.2 0 (Nat.le_refl _) hnzge hnzle
      (by rw [hulen]; omega) (fun hc => absurd rfl hc)
    rw [← hDL] at hm
    obtain ⟨hu, hlz, hr⟩ := luTail_ok _ _ _ _ _ _ _ _ _ _ hok
    obtain ⟨hujjge, hujjlt, hujjval⟩ := hm hu
    rw [luTail_state_ok _ _ _ _ _ _ _ _ _ hu hlz]
    dsimp only
    have hdptr : (lcolst.set jcol CU.2.2.2).getD jcol 0 = CU.2.2.2 :=
      getD_set_eq lcolst _ 0 hlc
    rw [hdptr]
    have hfl : ((lcolst.set jcol CU.2.2.2).set jcol (CU.2.2.2 + 1)).getD jcol 0 =
        CU.2.2.2 + 1 := getD_set_eq _ _ 0 (by rw [List.length_set]; exact hlc)
    rw [hfl]
    have hcntU : ∀ t : ℚ,
        (absList lurow dense (lcolst.getD jcol 0 - ucolst.getD jcol 0)
          (ucolst.getD jcol 0)).countP (fun x => decide (x ≥ t)) =
        (colRows lurow (lcolst.getD jcol 0 - ucolst.getD jcol 0)
          (ucolst.getD jcol 0)).countP (fun s => decide (|dense.getD s 0| ≥ t)) := by
      intro t
      rw [absList_eq_map, List.countP_map]
      rfl
    have hlen1 : CU.2.2.2 + 1 - 1 - ucolst.getD jcol 0 =
        ((colRows lurow (lcolst.getD jcol 0 - ucolst.getD jcol 0)
          (ucolst.getD jcol 0)).filter
            (fun s => decide (pattern.getD s 0 ≠ 0 ∨ |dense.getD s 0| ≥
              dordstat (lcolst.getD jcol 0 - ucolst.getD jcol 0 - k + 1)
                (absList lurow dense (lcolst.getD jcol 0 - ucolst.getD jcol 0)
                  (ucolst.getD jcol 0))))).length := by
      omega
    have hbreg : colRows
        ((DL.1.set DL.2.2.2.2 (DL.1.getD CU.2.2.2 0)).set CU.2.2.2
          (DL.1.getD DL.2.2.2.2 0))
        (CU.2.2.2 + 1 - 1 - ucolst.getD jcol 0) (ucolst.getD jcol 0) =
        (colRows lurow (lcolst.getD jcol 0 - ucolst.getD jcol 0)
          (ucolst.getD jcol 0)).filter
          (fun s => decide (pattern.getD s 0 ≠ 0 ∨ |dense.getD s 0| ≥
            dordstat (lcolst.getD jcol 0 - ucolst.getD jcol 0 - k + 1)
              (absList lurow dense (lcolst.getD jcol 0 - ucolst.getD jcol 0)
                (ucolst.getD jcol 0)))) := by
      rw [hlen1]
      have hstep1 : colRows
          ((DL.1.set DL.2.2.2.2 (DL.1.getD CU.2.2.2 0)).set CU.2.2.2
            (DL.1.getD DL.2.2.2.2 0))
          ((colRows lurow (lcolst.getD jcol 0 - ucolst.getD jcol 0)
            (ucolst.getD jcol 0)).filter
              (fun s => decide (pattern.getD s 0 ≠ 0 ∨ |dense.getD s 0| ≥
                dordstat (lcolst.getD jcol 0 - ucolst.getD jcol 0 - k + 1)
                  (absList lurow dense (lcolst.getD jcol 0 - ucolst.getD jcol 0)
                    (ucolst.getD jcol 0))))).length (ucolst.getD jcol 0) =
          colRows DL.1
            ((colRows lurow (lcolst.getD jcol 0 - ucolst.getD jcol 0)
              (ucolst.getD jcol 0)).filter
                (fun s => decide (pattern.getD s 0 ≠ 0 ∨ |dense.getD s 0| ≥
                  dordstat (lcolst.getD jcol 0 - ucolst.getD jcol 0 - k + 1)
                    (absList lurow dense (lcolst.getD jcol 0 - ucolst.getD jcol 0)
                      (ucolst.getD jcol 0))))).length (ucolst.getD jcol 0) := by
        apply colRows_congr
        intro q hq1 hq2
        rw [getD_set_ne _ _ 0 (by omega), getD_set_ne _ _ 0 (by omega)]
      rw [hstep1]
      have hstep2 : colRows DL.1
          ((colRows lurow (lcolst.getD jcol 0 - ucolst.getD jcol 0)
            (ucolst.getD jcol 0)).filter
              (fun s => decide (pattern.getD s 0 ≠ 0 ∨ |dense.getD s 0| ≥
                dordstat (lcolst.getD jcol 0 - ucolst.getD jcol 0 - k + 1)
                  (absList lurow dense (lcolst.getD jcol 0 - ucolst.getD jcol 0)
                    (ucolst.getD jcol 0))))).length (ucolst.getD jcol 0) =
          colRows CU.1
            ((colRows lurow (lcolst.getD jcol 0 - ucolst.getD jcol 0)
              (ucolst.getD jcol 0)).filter
                (fun s => decide (pattern.getD s 0 ≠ 0 ∨ |dense.getD s 0| ≥
                  dordstat (lcolst.getD jcol 0 - ucolst.getD jcol 0 - k + 1)
                    (absList lurow dense (lcolst.getD jcol 0 - ucolst.getD jcol 0)
                      (ucolst.getD jcol 0))))).length (ucolst.getD jcol 0) := by
        apply colRows_congr
        intro q hq1 hq2
        rw [hDL]
        apply dropLLoop_lurow_low
        omega
      rw [hstep2]
      exact ihbU
    refine ⟨hbreg, ?_⟩
    intro hdistU
    rw [hbreg, List.countP_filter]
    have hfin := countP_ge_dordstat
      (absList lurow dense (lcolst.getD jcol 0 - ucolst.getD jcol 0)
        (ucolst.getD jcol 0)) k hk (by rw [absList_length]; omega) hdistU
    rw [absList_length] at hfin
    rw [hcntU] at hfin
    have hmono : (colRows lurow (lcolst.getD jcol 0 - ucolst.getD jcol 0)
        (ucolst.getD jcol 0)).countP
        (fun s => decide (pattern.getD s 0 = 0) &&
          decide (pattern.getD s 0 ≠ 0 ∨ |dense.getD s 0| ≥
            dordstat (lcolst.getD jcol 0 - ucolst.getD jcol 0 - k + 1)
              (absList lurow dense (lcolst.getD jcol 0 - ucolst.getD jcol 0)
                (ucolst.getD jcol 0)))) ≤
        (colRows lurow (lcolst.getD jcol 0 - ucolst.getD jcol 0)
          (ucolst.getD jcol 0)).countP
          (fun s => decide (|dense.getD s 0| ≥
            dordstat (lcolst.getD jcol 0 - ucolst.getD jcol 0 - k + 1)
              (absList lurow dense (lcolst.getD jcol 0 - ucolst.getD jcol 0)
                (ucolst.getD jcol 0)))) := by
      apply List.countP_mono_left
      intro s _ hps
      rw [Bool.and_eq_true] at hps
      obtain ⟨hp1, hp2⟩ := hps
      have hz := of_decide_eq_true hp1
      rcases of_decide_eq_true hp2 with hc | hc
      · exact absurd hz hc
      · exact decide_eq_true hc
    omega
  · -- L half-column
    intro hkL
    have htb : dordstat (ucolst.getD (jcol + 1) 0 - lcolst.getD jcol 0 - k + 1)
        (absList lurow dense (ucolst.getD (jcol + 1) 0 - lcolst.getD jcol 0)
          (lcolst.getD jcol 0)) =
        ((absList lurow dense (ucolst.getD (jcol + 1) 0 - lcolst.getD jcol 0)
            (lcolst.getD jcol 0)).insertionSort (· ≥ ·)).getD (k - 1) 0 := by
      have hl := absList_length lurow dense
        (ucolst.getD (jcol + 1) 0 - lcolst.getD jcol 0) (lcolst.getD jcol 0)
      have := dordstat_kth_largest
        (absList lurow dense (ucolst.getD (jcol + 1) 0 - lcolst.getD jcol 0)
          (lcolst.getD jcol 0)) k hk (by omega)
      rw [hl] at this
      exact this
    refine ⟨htb, ?_⟩
    have hc2L : (k : Int) <
        ((ucolst.getD (jcol + 1) 0 - lcolst.getD jcol 0 : Nat) : Int) := by omega
    have htonL : (((ucolst.getD (jcol + 1) 0 - lcolst.getD jcol 0 : Nat) : Int) -
        (k : Int) + 1).toNat =
        ucolst.getD (jcol + 1) 0 - lcolst.getD jcol 0 - k + 1 := by
      omega
    simp only [lucopy] at hok ⊢
    rw [if_neg hpiv2, if_neg h2, if_neg h2] at hok ⊢
    simp only [if_neg hc1, if_pos hc2L] at hok ⊢
    rw [htonL] at hok ⊢
    revert hok
    generalize (if (k : Int) <
        ((lcolst.getD jcol 0 - ucolst.getD jcol 0 : Nat) : Int) then
        dordstat ((((lcolst.getD jcol 0 - ucolst.getD jcol 0 : Nat) : Int) -
          (k : Int) + 1).toNat)
          (absList lurow dense (lcolst.getD jcol 0 - ucolst.getD jcol 0)
            (ucolst.getD jcol 0))
      else (0 : ℚ)) = tU
    intro hok
    set CU := copyUtLoop pattern tU
      (lcolst.getD jcol 0 - ucolst.getD jcol 0) (ucolst.getD jcol 0) lurow lu dense
      (ucolst.getD jcol 0) with hCU
    set SC := pivScanLoop pattern CU.1 CU.2.2.1
      (ucolst.getD (jcol + 1) 0 - lcolst.getD jcol 0) (lcolst.getD jcol 0)
      0 0 0 (-1) (-1) with hSC
    set DG := if SC.1 ≠ 0 ∧ SC.2.1 ≥ pthresh * SC.2.2.2.1 then SC.1 else SC.2.2.1
      with hDG
    set DL := dropLLoop pattern DG
      (dordstat (ucolst.getD (jcol + 1) 0 - lcolst.getD jcol 0 - k + 1)
        (absList lurow dense (ucolst.getD (jcol + 1) 0 - lcolst.getD jcol 0)
          (lcolst.getD jcol 0)))
      (ucolst.getD (jcol + 1) 0 - lcolst.getD jcol 0) (lcolst.getD jcol 0)
      CU.1 CU.2.1 CU.2.2.1 CU.2.2.2 0 with hDL
    have hulen : CU.1.length = lurow.length := by
      rw [hCU]
      exact copyUtLoop_lurow_len pattern _ _ _ lurow lu dense _
    have hrowsL : colRows CU.1 (ucolst.getD (jcol + 1) 0 - lcolst.getD jcol 0)
        (lcolst.getD jcol 0) =
        colRows lurow (ucolst.getD (jcol + 1) 0 - lcolst.getD jcol 0)
          (lcolst.getD jcol 0) := by
      apply colRows_congr
      intro q hq1 _
      rw [hCU]
      apply copyUtLoop_lurow_high pattern _ _ _ lurow lu dense _ q (Nat.le_refl _)
      omega
    have hnzge : 1 ≤ CU.2.2.2 := by
      rw [hCU]
      exact Nat.le_trans hpos (copyUtLoop_nzcpy_ge pattern _ _ _ lurow lu dense _)
    have hnzle : CU.2.2.2 ≤ lcolst.getD jcol 0 := by
      rw [hCU]
      have := copyUtLoop_nzcpy_le pattern tU
        (lcolst.getD jcol 0 - ucolst.getD jcol 0) (ucolst.getD jcol 0) lurow lu dense
        (ucolst.getD jcol 0)
      omega
    have hdpres : ∀ s ∈ colRows lurow (ucolst.getD (jcol + 1) 0 - lcolst.getD jcol 0)
        (lcolst.getD jcol 0), CU.2.2.1.getD s 0 = dense.getD s 0 := by
      intro s hs
      rw [hCU]
      exact copyUtLoop_dense_pres pattern _ _ _ lurow lu dense _ (Nat.le_refl _) s
        (hdisj s hs)
    obtain ⟨ihaL, ihbL⟩ := dropLLoop_region pattern DG
      (dordstat (ucolst.getD (jcol + 1) 0 - lcolst.getD jcol 0 - k + 1)
        (absList lurow dense (ucolst.getD (jcol + 1) 0 - lcolst.getD jcol 0)
          (lcolst.getD jcol 0)))
      (ucolst.getD (jcol + 1) 0 - lcolst.getD jcol 0) (lcolst.getD jcol 0)
      CU.1 CU.2.1 CU.2.2.1 CU.2.2.2 0 hnzle (by rw [hulen]; omega)
      (by rw [hrowsL]; exact hndL)
    rw [← hDL] at ihaL ihbL
    have hm := dropLLoop_marker pattern DG
      (dordstat (ucolst.getD (jcol + 1) 0 - lcolst.getD jcol 0 - k + 1)
        (absList lurow dense (ucolst.getD (jcol + 1) 0 - lcolst.getD jcol 0)
          (lcolst.getD jcol 0)))
      CU.2.2.2 (ucolst.getD (jcol + 1) 0 - lcolst.getD jcol 0) (lcolst.getD jcol 0)
      CU.1 CU.2.1 CU.2.2.1 CU.2.2.2 0 (Nat.le_refl _) hnzge hnzle
      (by rw [hulen]; omega) (fun hc => absurd rfl hc)
    rw [← hDL] at hm
    obtain ⟨hu, hlz, hr⟩ := luTail_ok _ _ _ _ _ _ _ _ _ _ hok
    obtain ⟨hujjge, hujjlt, hujjval⟩ := hm hu
    have hrDG : r = DG := by rw [← hr]; exact hujjval
    rw [luTail_state_ok _ _ _ _ _ _ _ _ _ hu hlz]
    dsimp only
    have hdptr : (lcolst.set jcol CU.2.2.2).getD jcol 0 = CU.2.2.2 :=
      getD_set_eq lcolst _ 0 hlc
    rw [hdptr]
    have hfl : ((lcolst.set jcol CU.2.2.2).set jcol (CU.2.2.2 + 1)).getD jcol 0 =
        CU.2.2.2 + 1 := getD_set_eq _ _ 0 (by rw [List.length_set]; exact hlc)
    rw [hfl]
    have hfu : (ucolst.set (jcol + 1) DL.2.2.2.1).getD (jcol + 1) 0 = DL.2.2.2.1 :=
      getD_set_eq _ _ 0 huc
    rw [hfu]
    have hcntL : ∀ t : ℚ,
        (absList lurow dense (ucolst.getD (jcol + 1) 0 - lcolst.getD jcol 0)
          (lcolst.getD jcol 0)).countP (fun x => decide (x ≥ t)) =
        (colRows lurow (ucolst.getD (jcol + 1) 0 - lcolst.getD jcol 0)
          (lcolst.getD jcol 0)).countP (fun s => decide (|dense.getD s 0| ≥ t)) := by
      intro t
      rw [absList_eq_map, List.countP_map]
      rfl
    have hdllen : DL.1.length = lurow.length := by
      rw [hDL, dropLLoop_lurow_len]
      exact hulen
    have hkeptlen : ((colRows CU.1 (ucolst.getD (jcol + 1) 0 - lcolst.getD jcol 0)
        (lcolst.getD jcol 0)).filter
          (fun s => decide (¬ (pattern.getD s 0 = 0 ∧ s ≠ DG ∧
            |CU.2.2.1.getD s 0| < dordstat
              (ucolst.getD (jcol + 1) 0 - lcolst.getD jcol 0 - k + 1)
              (absList lurow dense (ucolst.getD (jcol + 1) 0 - lcolst.getD jcol 0)
                (lcolst.getD jcol 0)))))).length ≤
        ucolst.getD (jcol + 1) 0 - lcolst.getD jcol 0 := by
      calc _ ≤ (colRows CU.1 (ucolst.getD (jcol + 1) 0 - lcolst.getD jcol 0)
            (lcolst.getD jcol 0)).length := List.length_filter_le _ _
        _ = _ := colRows_length _ _ _
    constructor
    · -- survive-iff for the L half, as a multiset: the compacted range
      -- with the pivot slot is a transposition of the kept candidates
      simp only [Nat.add_sub_cancel]
      have hswap := colRows_swap_perm DL.1 DL.2.2.2.2 CU.2.2.2
        (DL.2.2.2.1 - CU.2.2.2) CU.2.2.2 hujjge (by omega) (Nat.le_refl _)
        (by omega) (by rw [hdllen]; omega) (by rw [hdllen]; omega)
      have hlenL3 : DL.2.2.2.1 - CU.2.2.2 = ((colRows CU.1
          (ucolst.getD (jcol + 1) 0 - lcolst.getD jcol 0) (lcolst.getD jcol 0)).filter
            (fun s => decide (¬ (pattern.getD s 0 = 0 ∧ s ≠ DG ∧
              |CU.2.2.1.getD s 0| < dordstat
                (ucolst.getD (jcol + 1) 0 - lcolst.getD jcol 0 - k + 1)
                (absList lurow dense (ucolst.getD (jcol + 1) 0 - lcolst.getD jcol 0)
                  (lcolst.getD jcol 0)))))).length := by
        omega
      have hkeq : colRows DL.1 (DL.2.2.2.1 - CU.2.2.2) CU.2.2.2 =
          (colRows CU.1 (ucolst.getD (jcol + 1) 0 - lcolst.getD jcol 0)
            (lcolst.getD jcol 0)).filter
            (fun s => decide (¬ (pattern.getD s 0 = 0 ∧ s ≠ DG ∧
              |CU.2.2.1.getD s 0| < dordstat
                (ucolst.getD (jcol + 1) 0 - lcolst.getD jcol 0 - k + 1)
                (absList lurow dense (ucolst.getD (jcol + 1) 0 - lcolst.getD jcol 0)
                  (lcolst.getD jcol 0))))) := by
        rw [hlenL3]
        exact ihbL
      have hkpos : (colRows CU.1 (ucolst.getD (jcol + 1) 0 - lcolst.getD jcol 0)
          (lcolst.getD jcol 0)).filter
          (fun s => decide (¬ (pattern.getD s 0 = 0 ∧ s ≠ DG ∧
            |CU.2.2.1.getD s 0| < dordstat
              (ucolst.getD (jcol + 1) 0 - lcolst.getD jcol 0 - k + 1)
              (absList lurow dense (ucolst.getD (jcol + 1) 0 - lcolst.getD jcol 0)
                (lcolst.getD jcol 0))))) =
          (colRows lurow (ucolst.getD (jcol + 1) 0 - lcolst.getD jcol 0)
            (lcolst.getD jcol 0)).filter
            (fun s => decide (pattern.getD s 0 ≠ 0 ∨ s = r ∨ |dense.getD s 0| ≥
              dordstat (ucolst.getD (jcol + 1) 0 - lcolst.getD jcol 0 - k + 1)
                (absList lurow dense (ucolst.getD (jcol + 1) 0 - lcolst.getD jcol 0)
                  (lcolst.getD jcol 0)))) := by
        rw [hrowsL]
        apply List.filter_congr
        intro s hs
        simp only [decide_eq_decide]
        rw [hdpres s hs, hrDG]
        constructor
        · intro h
          by_cases ha : pattern.getD s 0 = 0
          · by_cases hb : s = DG
            · exact Or.inr (Or.inl hb)
            · refine Or.inr (Or.inr ?_)
              by_contra hc
              exact h ⟨ha, hb, not_le.mp hc⟩
          · exact Or.inl ha
        · rintro (h | h | h) <;> intro hcon
          · exact h hcon.1
          · exact hcon.2.1 h
          · exact absurd hcon.2.2 (not_lt.mpr h)
      rw [← hkpos, ← hkeq]
      exact hswap
    · -- at most k out-of-pattern non-pivot entries in the L half
      intro hdistL
      have hfinL := countP_ge_dordstat
        (absList lurow dense (ucolst.getD (jcol + 1) 0 - lcolst.getD jcol 0)
          (lcolst.getD jcol 0)) k hk (by rw [absList_length]; omega) hdistL
      rw [absList_length] at hfinL
      rw [hcntL] at hfinL
      have hkcount : (List.filter
          (fun s => decide (¬ (pattern.getD s 0 = 0 ∧ s ≠ DG ∧
            |CU.2.2.1.getD s 0| < dordstat
              (ucolst.getD (jcol + 1) 0 - lcolst.getD jcol 0 - k + 1)
              (absList lurow dense (ucolst.getD (jcol + 1) 0 - lcolst.getD jcol 0)
                (lcolst.getD jcol 0)))))
          (colRows CU.1 (ucolst.getD (jcol + 1) 0 - lcolst.getD jcol 0)
            (lcolst.getD jcol 0))).countP
          (fun s => decide (pattern.getD s 0 = 0 ∧ s ≠ r)) ≤ k := by
        rw [hrowsL]
        rw [List.filter_congr (fun s hs => by rw [hdpres s hs])]
        rw [List.countP_filter]
        have hmonoL : (colRows lurow (ucolst.getD (jcol + 1) 0 - lcolst.getD jcol 0)
            (lcolst.getD jcol 0)).countP
            (fun s => decide (pattern.getD s 0 = 0 ∧ s ≠ r) &&
              decide (¬ (pattern.getD s 0 = 0 ∧ s ≠ DG ∧ |dense.getD s 0| <
                dordstat (ucolst.getD (jcol + 1) 0 - lcolst.getD jcol 0 - k + 1)
                  (absList lurow dense (ucolst.getD (jcol + 1) 0 - lcolst.getD jcol 0)
                    (lcolst.getD jcol 0))))) ≤
            (colRows lurow (ucolst.getD (jcol + 1) 0 - lcolst.getD jcol 0)
              (lcolst.getD jcol 0)).countP
              (fun s => decide (|dense.getD s 0| ≥
                dordstat (ucolst.getD (jcol + 1) 0 - lcolst.getD jcol 0 - k + 1)
                  (absList lurow dense (ucolst.getD (jcol + 1) 0 - lcolst.getD jcol 0)
                    (lcolst.getD jcol 0)))) := by
          apply List.countP_mono_left
          intro s _ hps
          rw [Bool.and_eq_true] at hps
          obtain ⟨hp1, hp2⟩ := hps
          obtain ⟨hz, hnr⟩ := of_decide_eq_true hp1
          have hnk := of_decide_eq_true hp2
          apply decide_eq_true
          by_contra hlt2
          exact hnk ⟨hz, by rw [← hrDG]; exact hnr, not_le.mp hlt2⟩
        omega
      have hdference : (colRows
          ((DL.1.set DL.2.2.2.2 (DL.1.getD CU.2.2.2 0)).set CU.2.2.2
            (DL.1.getD DL.2.2.2.2 0))
          (DL.2.2.2.1 - (CU.2.2.2 + 1)) (CU.2.2.2 + 1)).countP
          (fun s => decide (pattern.getD s 0 = 0 ∧ s ≠ r)) =
          (colRows DL.1 (DL.2.2.2.1 - CU.2.2.2) CU.2.2.2).countP
          (fun s => decide (pattern.getD s 0 = 0 ∧ s ≠ r)) := by
        rw [colRows_set_lt _ CU.2.2.2 _ _ _ (by omega)]
        have hconsA : DL.2.2.2.1 - CU.2.2.2 = (DL.2.2.2.1 - (CU.2.2.2 + 1)) + 1 := by
          omega
        rw [hconsA, colRows, List.countP_cons]
        have hprfalse : ∀ q : Nat, DL.1.getD q 0 = r →
            (decide (pattern.getD (DL.1.getD q 0) 0 = 0 ∧ DL.1.getD q 0 ≠ r) : Bool) =
              false := by
          intro q hq
          apply decide_eq_false
          intro hcon
          exact hcon.2 (by rw [hq])
        by_cases hcase : DL.2.2.2.2 = CU.2.2.2
        · rw [colRows_set_lt _ _ _ _ _ (by omega)]
          rw [if_neg (by rw [hprfalse CU.2.2.2 (by rw [← hcase]; exact hr)]; simp)]
          omega
        · have hset := countP_colRows_set DL.1 DL.2.2.2.2 (DL.1.getD CU.2.2.2 0)
            (fun s => decide (pattern.getD s 0 = 0 ∧ s ≠ r))
            (DL.2.2.2.1 - (CU.2.2.2 + 1)) (CU.2.2.2 + 1) (by omega) (by omega)
            (by rw [hdllen]; omega)
          simp only [hprfalse DL.2.2.2.2 hr, Bool.false_eq_true, if_false] at hset
          by_cases hA0 : (decide (pattern.getD (DL.1.getD CU.2.2.2 0) 0 = 0 ∧
              DL.1.getD CU.2.2.2 0 ≠ r) : Bool) = true
          · simp only [hA0, if_true] at hset ⊢
            omega
          · rw [Bool.not_eq_true] at hA0
            simp only [hA0, Bool.false_eq_true, if_false] at hset ⊢
            omega
      rw [hdference]
      have hlenL2 : DL.2.2.2.1 - CU.2.2.2 = ((colRows CU.1
          (ucolst.getD (jcol + 1) 0 - lcolst.getD jcol 0) (lcolst.getD jcol 0)).filter
            (fun s => decide (¬ (pattern.getD s 0 = 0 ∧ s ≠ DG ∧
              |CU.2.2.1.getD s 0| < dordstat
                (ucolst.getD (jcol + 1) 0 - lcolst.getD jcol 0 - k + 1)
                (absList lurow dense (ucolst.getD (jcol + 1) 0 - lcolst.getD jcol 0)
                  (lcolst.getD jcol 0)))))).length := by
        omega
      rw [hlenL2, ihbL]
      exact hkcount

/-- C8 witness: a concrete `pivot = 2`, `nzcount = 1` column with two
candidates per half, pairwise distinct magnitudes; the call succeeds
with pivot row 3 and both per-half conclusions of the amended rank-drop
theorem apply. -/
theorem C8_rank_drop_witness :
    (lucopy 2 0 0 ((1 : Nat) : Int) 0 0 [0, 0, 0, 0, 0] [0, 1, 2, 3, 4] [3] [1, 5]
        [0, 0, 0, 0, 0] [0] [0, 3, 2, 5, 4] [0, 0, 0, 0, 0]).2 = Except.ok 3 ∧
    (((1 : Nat) < 2 →
      dordstat 2 (absList [0, 1, 2, 3, 4] [0, 3, 2, 5, 4] 2 1) =
        ((absList [0, 1, 2, 3, 4] [0, 3, 2, 5, 4] 2 1).insertionSort (· ≥ ·)).getD 0 0 ∧
      colRows (lucopy 2 0 0 ((1 : Nat) : Int) 0 0 [0, 0, 0, 0, 0] [0, 1, 2, 3, 4] [3]
            [1, 5] [0, 0, 0, 0, 0] [0] [0, 3, 2, 5, 4] [0, 0, 0, 0, 0]).1.lurow
          ((lucopy 2 0 0 ((1 : Nat) : Int) 0 0 [0, 0, 0, 0, 0] [0, 1, 2, 3, 4] [3]
            [1, 5] [0, 0, 0, 0, 0] [0] [0, 3, 2, 5, 4]
            [0, 0, 0, 0, 0]).1.lcolst.getD 0 0 - 1 - 1) 1 =
        (colRows [0, 1, 2, 3, 4] 2 1).filter
          (fun s => decide (([0, 0, 0, 0, 0] : List Nat).getD s 0 ≠ 0 ∨
            |([0, 3, 2, 5, 4] : List ℚ).getD s 0| ≥
              dordstat 2 (absList [0, 1, 2, 3, 4] [0, 3, 2, 5, 4] 2 1))) ∧
      ((absList [0, 1, 2, 3, 4] [0, 3, 2, 5, 4] 2 1).Pairwise (· ≠ ·) →
        (colRows (lucopy 2 0 0 ((1 : Nat) : Int) 0 0 [0, 0, 0, 0, 0] [0, 1, 2, 3, 4]
              [3] [1, 5] [0, 0, 0, 0, 0] [0] [0, 3, 2, 5, 4] [0, 0, 0, 0, 0]).1.lurow
            ((lucopy 2 0 0 ((1 : Nat) : Int) 0 0 [0, 0, 0, 0, 0] [0, 1, 2, 3, 4] [3]
              [1, 5] [0, 0, 0, 0, 0] [0] [0, 3, 2, 5, 4]
              [0, 0, 0, 0, 0]).1.lcolst.getD 0 0 - 1 - 1) 1).countP
          (fun s => decide (([0, 0, 0, 0, 0] : List Nat).getD s 0 = 0)) ≤ 1)) ∧
    ((1 : Nat) < 2 →
      dordstat 2 (absList [0, 1, 2, 3, 4] [0, 3, 2, 5, 4] 2 3) =
        ((absList [0, 1, 2, 3, 4] [0, 3, 2, 5, 4] 2 3).insertionSort (· ≥ ·)).getD 0 0 ∧
      List.Perm
        (colRows (lucopy 2 0 0 ((1 : Nat) : Int) 0 0 [0, 0, 0, 0, 0] [0, 1, 2, 3, 4]
              [3] [1, 5] [0, 0, 0, 0, 0] [0] [0, 3, 2, 5, 4] [0, 0, 0, 0, 0]).1.lurow
          ((lucopy 2 0 0 ((1 : Nat) : Int) 0 0 [0, 0, 0, 0, 0] [0, 1, 2, 3, 4] [3]
              [1, 5] [0, 0, 0, 0, 0] [0] [0, 3, 2, 5, 4]
              [0, 0, 0, 0, 0]).1.ucolst.getD (0 + 1) 0 -
            ((lucopy 2 0 0 ((1 : Nat) : Int) 0 0 [0, 0, 0, 0, 0] [0, 1, 2, 3, 4] [3]
              [1, 5] [0, 0, 0, 0, 0] [0] [0, 3, 2, 5, 4]
              [0, 0, 0, 0, 0]).1.lcolst.getD 0 0 - 1))
          ((lucopy 2 0 0 ((1 : Nat) : Int) 0 0 [0, 0, 0, 0, 0] [0, 1, 2, 3, 4] [3]
            [1, 5] [0, 0, 0, 0, 0] [0] [0, 3, 2, 5, 4]
            [0, 0, 0, 0, 0]).1.lcolst.getD 0 0 - 1))
        ((colRows [0, 1, 2, 3, 4] 2 3).filter
          (fun s => decide (([0, 0, 0, 0, 0] : List Nat).getD s 0 ≠ 0 ∨ s = 3 ∨
            |([0, 3, 2, 5, 4] : List ℚ).getD s 0| ≥
              dordstat 2 (absList [0, 1, 2, 3, 4] [0, 3, 2, 5, 4] 2 3)))) ∧
      ((absList [0, 1, 2, 3, 4] [0, 3, 2, 5, 4] 2 3).Pairwise (· ≠ ·) →
        (colRows (lucopy 2 0 0 ((1 : Nat) : Int) 0 0 [0, 0, 0, 0, 0] [0, 1, 2, 3, 4]
              [3] [1, 5] [0, 0, 0, 0, 0] [0] [0, 3, 2, 5, 4] [0, 0, 0, 0, 0]).1.lurow
            ((lucopy 2 0 0 ((1 : Nat) : Int) 0 0 [0, 0, 0, 0, 0] [0, 1, 2, 3, 4] [3]
                [1, 5] [0, 0, 0, 0, 0] [0] [0, 3, 2, 5, 4]
                [0, 0, 0, 0, 0]).1.ucolst.getD (0 + 1) 0 -
              (lucopy 2 0 0 ((1 : Nat) : Int) 0 0 [0, 0, 0, 0, 0] [0, 1, 2, 3, 4] [3]
                [1, 5] [0, 0, 0, 0, 0] [0] [0, 3, 2, 5, 4]
                [0, 0, 0, 0, 0]).1.lcolst.getD 0 0)
            ((lucopy 2 0 0 ((1 : Nat) : Int) 0 0 [0, 0, 0, 0, 0] [0, 1, 2, 3, 4] [3]
              [1, 5] [0, 0, 0, 0, 0] [0] [0, 3, 2, 5, 4]
              [0, 0, 0, 0, 0]).1.lcolst.getD 0 0)).countP
          (fun s => decide (([0, 0, 0, 0, 0] : List Nat).getD s 0 = 0 ∧ s ≠ 3)) ≤ 1))) :=
  ⟨by decide,
    C8_rank_drop 2 0 0 1 0 0 [0, 0, 0, 0, 0] [0, 1, 2, 3, 4] [3] [1, 5] [0, 0, 0, 0, 0]
      [0] [0, 3, 2, 5, 4] [0, 0, 0, 0, 0] 3 (by decide) (by decide) (by decide)
      (by decide) (by decide) (by decide) (by decide) (by decide) (by decide)
      (by decide) (by decide)⟩

/-! ### Preservation lemmas for the `ludfs` loops -/

theorem dfsLoop_pres (jcol : Nat) (ucolst rperm : List Nat) :
    ∀ fuel krow chdptr st st',
      dfsLoop jcol ucolst rperm fuel krow chdptr st = some st' →
      st'.lcolst = st.lcolst ∧ st'.lurow.length = st.lurow.length ∧
      st'.found.length = st.found.length ∧ st.lastlu ≤ st'.lastlu ∧
      (∀ q, q < st.lastlu → st'.lurow.getD q 0 = st.lurow.getD q 0) := by
  intro fuel
  induction fuel with
  | zero =>
    intro krow chdptr st st' h
    exact absurd h (by simp [dfsLoop])
  | succ fuel ih =>
    intro krow chdptr st st' h
    simp only [dfsLoop] at h
    cases hscan : childScan jcol rperm st.found st.lurow
        (ucolst.getD (rperm.getD (krow - off) 0 + 1 - off) 0 - chdptr) chdptr with
    | some p =>
      rw [hscan] at h
      obtain ⟨nk, cp1⟩ := p
      have hres := ih nk (st.lcolst.getD (rperm.getD (nk - off) 0 - off) 0)
        { st with
          child := st.child.set (krow - off) cp1
          parent := st.parent.set (nk - off) krow
          found := st.found.set (nk - off) jcol } st' h
      simpa using hres
    | none =>
      rw [hscan] at h
      simp only at h
      by_cases hk : st.parent.getD (krow - off) 0 = 0
      · rw [if_pos hk] at h
        have hst : st' = { st with
            lastlu := st.lastlu + 1
            lurow := st.lurow.set (st.lastlu + 1 - off) krow } := (Option.some.inj h).symm
        subst hst
        refine ⟨rfl, by simp, rfl, by simp, ?_⟩
        intro q hq
        exact getD_set_ne st.lurow krow 0 (by simp [off]; omega)
      · rw [if_neg hk] at h
        have hres := ih (st.parent.getD (krow - off) 0)
          (st.child.getD (st.parent.getD (krow - off) 0 - off) 0)
          { st with
            lastlu := st.lastlu + 1
            lurow := st.lurow.set (st.lastlu + 1 - off) krow } st' h
        simp only [List.length_set] at hres
        refine ⟨hres.1, hres.2.1, hres.2.2.1, by omega, ?_⟩
        intro q hq
        rw [hres.2.2.2.2 q (by omega)]
        exact getD_set_ne st.lurow krow 0 (by simp [off]; omega)

theorem ludfsOuter_pres (jcol : Nat) (a : List ℚ) (arow ucolst rperm : List Nat)
    (fuel : Nat) :
    ∀ n nzaptr st st',
      ludfsOuter jcol a arow ucolst rperm fuel n nzaptr st = some st' →
      st'.lcolst = st.lcolst ∧ st'.lurow.length = st.lurow.length ∧
      st'.found.length = st.found.length ∧ st.lastlu ≤ st'.lastlu ∧
      (∀ q, q < st.lastlu → st'.lurow.getD q 0 = st.lurow.getD q 0) := by
  intro n
  induction n with
  | zero =>
    intro nzaptr st st' h
    simp only [ludfsOuter] at h
    have hst : st' = st := (Option.some.inj h).symm
    subst hst
    exact ⟨rfl, rfl, rfl, le_refl _, fun q _ => rfl⟩
  | succ n ih =>
    intro nzaptr st st' h
    simp only [ludfsOuter] at h
    by_cases h1 : rperm.getD (arow.getD (nzaptr - off) 0 - off) 0 = 0
    · rw [if_pos h1] at h
      have hres := ih (nzaptr + 1) _ st' h
      simpa using hres
    · rw [if_neg h1] at h
      by_cases h3 : st.found.getD (arow.getD (nzaptr - off) 0 - off) 0 = jcol
      · rw [if_pos h3] at h
        have hres := ih (nzaptr + 1) _ st' h
        simpa using hres
      · rw [if_neg h3] at h
        by_cases h4 : (st.dense.set (arow.getD (nzaptr - off) 0 - off)
            (a.getD (nzaptr - off) 0)).getD (arow.getD (nzaptr - off) 0 - off) 0 = 0
        · rw [if_pos h4] at h
          have hres := ih (nzaptr + 1) _ st' h
          simpa using hres
        · rw [if_neg h4] at h
          cases hdfs : dfsLoop jcol ucolst rperm fuel (arow.getD (nzaptr - off) 0)
              (st.lcolst.getD (rperm.getD (arow.getD (nzaptr - off) 0 - off) 0 - off) 0)
              { st with
                dense := st.dense.set (arow.getD (nzaptr - off) 0 - off)
                  (a.getD (nzaptr - off) 0)
                parent := st.parent.set (arow.getD (nzaptr - off) 0 - off) 0
                found := st.found.set (arow.getD (nzaptr - off) 0 - off) jcol } with
          | none => rw [hdfs] at h; exact absurd h (by simp)
          | some st3 =>
            rw [hdfs] at h
            have hd := dfsLoop_pres jcol ucolst rperm fuel _ _ _ _ hdfs
            have hres := ih (nzaptr + 1) st3 st' h
            simp only at hd
            refine ⟨by rw [hres.1, hd.1], ?_, ?_, by omega, ?_⟩
            · rw [hres.2.1, hd.2.1]
            · rw [hres.2.2.1, hd.2.2.1, List.length_set]
            · intro q hq
              rw [hres.2.2.2.2 q (by omega), hd.2.2.2.2 q hq]

/-! ### Lemmas about `lColLoop` -/

theorem lColLoop_lastlu (jcol : Nat) (arow rperm : List Nat) :
    ∀ n nzaptr lurow found lastlu, off ≤ nzaptr →
      (lColLoop jcol arow rperm n nzaptr lurow found lastlu).2.2 =
        lastlu + ((colRows arow n (nzaptr - off)).filter
          (fun s => decide (rperm.getD (s - off) 0 = 0))).length := by
  intro n
  induction n with
  | zero => intro nzaptr lurow found lastlu _; simp [lColLoop, colRows]
  | succ n ih =>
    intro nzaptr lurow found lastlu hz
    have hoff : off = 1 := rfl
    simp only [lColLoop, colRows, List.filter_cons]
    have harg : nzaptr - off + 1 = nzaptr + 1 - off := by omega
    by_cases h1 : rperm.getD (arow.getD (nzaptr - off) 0 - off) 0 = 0
    · rw [if_neg (by simpa using h1), if_pos (by simpa using h1)]
      rw [ih (nzaptr + 1) _ _ (lastlu + 1) (by omega), harg]
      simp
      omega
    · rw [if_pos (by simpa using h1), if_neg (by simpa using h1)]
      rw [ih (nzaptr + 1) lurow found lastlu (by omega), harg]

theorem lColLoop_spec (jcol : Nat) (arow rperm : List Nat) :
    ∀ n nzaptr lurow found lastlu, off ≤ nzaptr →
      lastlu + ((colRows arow n (nzaptr - off)).filter
        (fun s => decide (rperm.getD (s - off) 0 = 0))).length ≤ lurow.length →
      colRows (lColLoop jcol arow rperm n nzaptr lurow found lastlu).1
          ((colRows arow n (nzaptr - off)).filter
            (fun s => decide (rperm.getD (s - off) 0 = 0))).length lastlu =
        (colRows arow n (nzaptr - off)).filter
          (fun s => decide (rperm.getD (s - off) 0 = 0)) ∧
      (∀ q, q < lastlu →
        (lColLoop jcol arow rperm n nzaptr lurow found lastlu).1.getD q 0 =
          lurow.getD q 0) ∧
      (lColLoop jcol arow rperm n nzaptr lurow found lastlu).1.length = lurow.length ∧
      (lColLoop jcol arow rperm n nzaptr lurow found lastlu).2.1.length = found.length ∧
      (∀ i, found.getD i 0 = jcol →
        (lColLoop jcol arow rperm n nzaptr lurow found lastlu).2.1.getD i 0 = jcol) ∧
      (∀ s ∈ (colRows arow n (nzaptr - off)).filter
          (fun s => decide (rperm.getD (s - off) 0 = 0)),
        s - off < found.length →
          (lColLoop jcol arow rperm n nzaptr lurow found lastlu).2.1.getD (s - off) 0 =
            jcol) := by
  intro n
  induction n with
  | zero =>
    intro nzaptr lurow found lastlu _ _
    refine ⟨rfl, fun q _ => rfl, rfl, rfl, fun i h => h, ?_⟩
    intro s hs
    simp [colRows] at hs
  | succ n ih =>
    intro nzaptr lurow found lastlu hz hcap
    have hoff : off = 1 := rfl
    have harg : nzaptr - off + 1 = nzaptr + 1 - off := by omega
    simp only [lColLoop, colRows, List.filter_cons] at hcap ⊢
    by_cases h1 : rperm.getD (arow.getD (nzaptr - off) 0 - off) 0 = 0
    · rw [if_neg (by simpa using h1)]
      rw [if_pos (by simpa using h1)] at hcap ⊢
      rw [harg] at hcap ⊢
      have hlen : lurow.length = (lurow.set (lastlu + 1 - off)
          (arow.getD (nzaptr - off) 0)).length := (List.length_set _ _ _).symm
      have hcap2 : (lastlu + 1) + ((colRows arow n (nzaptr + 1 - off)).filter
          (fun s => decide (rperm.getD (s - off) 0 = 0))).length ≤
          (lurow.set (lastlu + 1 - off) (arow.getD (nzaptr - off) 0)).length := by
        rw [← hlen]
        rw [List.length_cons] at hcap
        omega
      have hres := ih (nzaptr + 1)
        (lurow.set (lastlu + 1 - off) (arow.getD (nzaptr - off) 0))
        (found.set (arow.getD (nzaptr - off) 0 - off) jcol) (lastlu + 1)
        (by omega) hcap2
      have hidx : lastlu + 1 - off = lastlu := by omega
      have hin : lastlu < lurow.length := by
        rw [List.length_cons] at hcap
        omega
      refine ⟨?_, ?_, ?_, ?_, ?_, ?_⟩
      · simp only [List.length_cons, colRows]
        rw [List.cons.injEq]
        constructor
        · rw [hres.2.1 lastlu (by omega), hidx]
          exact getD_set_eq lurow _ 0 hin
        · exact hres.1
      · intro q hq
        rw [hres.2.1 q (by omega), hidx]
        exact getD_set_ne lurow _ 0 (by omega)
      · rw [hres.2.2.1, List.length_set]
      · rw [hres.2.2.2.1, List.length_set]
      · intro i hi
        apply hres.2.2.2.2.1
        by_cases hii : arow.getD (nzaptr - off) 0 - off = i
        · subst hii
          by_cases hb : arow.getD (nzaptr - off) 0 - off < found.length
          · exact getD_set_eq found _ 0 hb
          · rw [List.set_eq_of_length_le (Nat.le_of_not_lt hb)]
            exact hi
        · rw [getD_set_ne found _ 0 hii]
          exact hi
      · intro s hs hsb
        simp only [List.mem_cons] at hs
        rcases hs with hs | hs
        · subst hs
          apply hres.2.2.2.2.1
          exact getD_set_eq found _ 0 hsb
        · exact hres.2.2.2.2.2 s hs (by rwa [List.length_set])
    · rw [if_pos (by simpa using h1)]
      rw [if_neg (by simpa using h1)] at hcap ⊢
      rw [harg] at hcap ⊢
      exact ih (nzaptr + 1) lurow found lastlu (by omega) hcap

/-! ### Claim C5 -/

/-- C5 counterexample: column `cperm[1] = 1` of A stores row 1 twice, both
with value `0.0`.  No row satisfies `A(row, cperm[1]) ≠ 0`, yet the final
loop of `ludfs` appends row 1 to `lurow` twice (there is no value check
and no `found` check at ludfs.go:159): the appended L range is `[1, 1]`,
not the empty list the claim predicts. -/
theorem C5_counterexample :
    ludfs 1 1 [0, 0] [1, 1] [1, 3] 0 [0, 0] [0] [1, 1] [0] [1] [0] [0] [0] [0] =
      some (Except.ok ⟨2, [1, 1], [1], [0], [1], [0], [0]⟩) ∧
    (∀ p, ([0, 0] : List ℚ).getD p 0 = 0) ∧
    colRows [1, 1] (2 + 1 - 1) (1 - 1) = [1, 1] := by
  refine ⟨by decide, ?_, by decide⟩
  intro p
  match p with
  | 0 => rfl
  | 1 => rfl
  | n + 2 => rfl

/-- C5 (amended): on a successful `ludfs` call, the rows appended after
the DFS (positions `lcolst[jcol]` through the final `lastlu` of `lurow`)
are exactly the stored entries of column `cperm[jcol]` of A with
`rperm[row] = 0`, in order of occurrence — regardless of the stored
numerical value (a stored zero is still appended) and with no
deduplication against `found` — and each of them is marked
`found[row] = jcol`.  The original claim's conditions
"A(row,cperm[jcol]) ≠ 0" and "found[row] ≠ jcol at that point" do not
guard the append (see the counterexample). -/
theorem C5_direct_L_append (fuel jcol : Nat) (a : List ℚ) (arow acolst : List Nat)
    (lastlu : Nat) (lurow lcolst ucolst rperm cperm : List Nat) (dense : List ℚ)
    (found parent child : List Nat) (st : DfsState)
    (hnz : off ≤ acolst.getD (cperm.getD (jcol - off) 0 - off) 0)
    (hjl : jcol - off < lcolst.length)
    (hres : ludfs fuel jcol a arow acolst lastlu lurow lcolst ucolst rperm cperm dense
        found parent child = some (Except.ok st))
    (hcap : st.lastlu ≤ lurow.length)
    (hfb : ∀ s ∈ aColRows arow acolst cperm jcol, s - off < found.length) :
    st.lastlu = st.lcolst.getD (jcol - off) 0 - 1 +
      ((aColRows arow acolst cperm jcol).filter
        (fun s => decide (rperm.getD (s - off) 0 = 0))).length ∧
    colRows st.lurow (st.lastlu + 1 - st.lcolst.getD (jcol - off) 0)
        (st.lcolst.getD (jcol - off) 0 - off) =
      (aColRows arow acolst cperm jcol).filter
        (fun s => decide (rperm.getD (s - off) 0 = 0)) ∧
    ∀ s ∈ (aColRows arow acolst cperm jcol).filter
        (fun s => decide (rperm.getD (s - off) 0 = 0)),
      st.found.getD (s - off) 0 = jcol := by
  have hoff : off = 1 := rfl
  simp only [ludfs] at hres
  split at hres
  · exact absurd hres (by simp)
  · cases houter : ludfsOuter jcol a arow ucolst rperm fuel
        (acolst.getD (cperm.getD (jcol - off) 0 + 1 - off) 0 -
          acolst.getD (cperm.getD (jcol - off) 0 - off) 0)
        (acolst.getD (cperm.getD (jcol - off) 0 - off) 0)
        ⟨lastlu, lurow, lcolst, dense, found, parent, child⟩ with
    | none => rw [houter] at hres; exact absurd hres (by simp)
    | some st1 =>
      rw [houter] at hres
      simp only at hres
      have hst := (Except.ok.inj (Option.some.inj hres)).symm
      have hp := ludfsOuter_pres jcol a arow ucolst rperm fuel _ _ _ _ houter
      simp only at hp
      have hl1 := lColLoop_lastlu jcol arow rperm
        (acolst.getD (cperm.getD (jcol - off) 0 + 1 - off) 0 -
          acolst.getD (cperm.getD (jcol - off) 0 - off) 0)
        (acolst.getD (cperm.getD (jcol - off) 0 - off) 0) st1.lurow st1.found st1.lastlu
        hnz
      have hklen : st.lastlu = st1.lastlu +
          ((aColRows arow acolst cperm jcol).filter
            (fun s => decide (rperm.getD (s - off) 0 = 0))).length := by
        rw [hst]
        exact hl1
      have hcap2 : st1.lastlu + ((aColRows arow acolst cperm jcol).filter
          (fun s => decide (rperm.getD (s - off) 0 = 0))).length ≤ st1.lurow.length := by
        rw [hp.2.1]
        omega
      have hspec := lColLoop_spec jcol arow rperm
        (acolst.getD (cperm.getD (jcol - off) 0 + 1 - off) 0 -
          acolst.getD (cperm.getD (jcol - off) 0 - off) 0)
        (acolst.getD (cperm.getD (jcol - off) 0 - off) 0) st1.lurow st1.found st1.lastlu
        hnz hcap2
      have hlcget : st.lcolst.getD (jcol - off) 0 = st1.lastlu + 1 := by
        rw [hst]
        exact getD_set_eq st1.lcolst _ 0 (by rw [hp.1]; exact hjl)
      refine ⟨?_, ?_, ?_⟩
      · rw [hklen, hlcget]
        omega
      · have hn : st.lastlu + 1 - st.lcolst.getD (jcol - off) 0 =
            ((aColRows arow acolst cperm jcol).filter
              (fun s => decide (rperm.getD (s - off) 0 = 0))).length := by
          rw [hklen, hlcget]
          omega
        have hs2 : st.lcolst.getD (jcol - off) 0 - off = st1.lastlu := by
          rw [hlcget]
          omega
        rw [hn, hs2, hst]
        exact hspec.1
      · intro s hs
        rw [hst]
        exact hspec.2.2.2.2.2 s hs (by rw [hp.2.2.1]; exact hfb s (List.mem_of_mem_filter hs))

/-- C5 witness: a concrete column with two stored entries, both with
`rperm = 0`; `ludfs` succeeds, appends both rows and marks them found. -/
theorem C5_direct_L_append_witness :
    (ludfs 3 1 [5, 7] [1, 2] [1, 3] 0 [0, 0] [0] [1, 1] [0, 0] [1] [0, 0] [0, 0] [0, 0]
        [0, 0] = some (Except.ok ⟨2, [1, 2], [1], [5, 7], [1, 1], [0, 0], [0, 0]⟩)) ∧
    ((⟨2, [1, 2], [1], [5, 7], [1, 1], [0, 0], [0, 0]⟩ : DfsState).lastlu =
        (⟨2, [1, 2], [1], [5, 7], [1, 1], [0, 0], [0, 0]⟩ : DfsState).lcolst.getD
          (1 - off) 0 - 1 +
        ((aColRows [1, 2] [1, 3] [1] 1).filter
          (fun s => decide (([0, 0] : List Nat).getD (s - off) 0 = 0))).length ∧
      colRows (⟨2, [1, 2], [1], [5, 7], [1, 1], [0, 0], [0, 0]⟩ : DfsState).lurow
          ((⟨2, [1, 2], [1], [5, 7], [1, 1], [0, 0], [0, 0]⟩ : DfsState).lastlu + 1 -
            (⟨2, [1, 2], [1], [5, 7], [1, 1], [0, 0], [0, 0]⟩ : DfsState).lcolst.getD
              (1 - off) 0)
          ((⟨2, [1, 2], [1], [5, 7], [1, 1], [0, 0], [0, 0]⟩ : DfsState).lcolst.getD
            (1 - off) 0 - off) =
        (aColRows [1, 2] [1, 3] [1] 1).filter
          (fun s => decide (([0, 0] : List Nat).getD (s - off) 0 = 0)) ∧
      ∀ s ∈ (aColRows [1, 2] [1, 3] [1] 1).filter
          (fun s => decide (([0, 0] : List Nat).getD (s - off) 0 = 0)),
        (⟨2, [1, 2], [1], [5, 7], [1, 1], [0, 0], [0, 0]⟩ : DfsState).found.getD
          (s - off) 0 = 1) :=
  ⟨by decide,
    C5_direct_L_append 3 1 [5, 7] [1, 2] [1, 3] 0 [0, 0] [0] [1, 1] [0, 0] [1] [0, 0]
      [0, 0] [0, 0] [0, 0] ⟨2, [1, 2], [1], [5, 7], [1, 1], [0, 0], [0, 0]⟩
      (by decide) (by decide) (by decide) (by decide) (by decide)⟩

/-! ### Lemmas for the DFS invariant -/

theorem getD_pivoted_lt (rperm : List Nat) (u : Nat)
    (h : rperm.getD (u - off) 0 ≠ 0) : u - off < rperm.length := by
  by_contra hc
  exact h (getD_oob rperm 0 (Nat.le_of_not_lt hc))

theorem found_set_jcol (found : List Nat) (jcol i q : Nat)
    (h : found.getD q 0 = jcol) : (found.set i jcol).getD q 0 = jcol := by
  by_cases hiq : i = q
  · subst hiq
    by_cases hb : i < found.length
    · exact getD_set_eq found jcol 0 hb
    · rw [List.set_eq_of_length_le (Nat.le_of_not_lt hb)]
      exact h
  · rw [getD_set_ne found jcol 0 hiq]
    exact h

theorem dfsSkip_mono (jcol : Nat) (rperm found : List Nat) (i w : Nat)
    (h : dfsSkip jcol rperm found w) : dfsSkip jcol rperm (found.set i jcol) w := by
  unfold dfsSkip at h ⊢
  rcases h with h | h
  · exact Or.inl h
  · exact Or.inr (found_set_jcol found jcol i _ h)

theorem elemOK_mono_found (jcol : Nat) (lurow0 lcolst0 ucolst rperm found : List Nat)
    (u cp i : Nat) (h : elemOK jcol lurow0 lcolst0 ucolst rperm found u cp) :
    elemOK jcol lurow0 lcolst0 ucolst rperm (found.set i jcol) u cp := by
  unfold elemOK at h ⊢
  obtain ⟨h1, h2, h3, h4, h5, h6⟩ := h
  exact ⟨h1, h2, found_set_jcol found jcol i _ h3, h4, h5,
    fun p hp1 hp2 => dfsSkip_mono jcol rperm found i _ (h6 p hp1 hp2)⟩

theorem chainInv_mono_found (jcol : Nat)
    (lurow0 lcolst0 ucolst rperm found parent child : List Nat) (i : Nat) :
    ∀ u stk, chainInv jcol lurow0 lcolst0 ucolst rperm found parent child u stk →
      chainInv jcol lurow0 lcolst0 ucolst rperm (found.set i jcol) parent child u stk := by
  intro u stk
  induction stk generalizing u with
  | nil => intro h; exact h
  | cons v rest ih =>
    intro h
    unfold chainInv at h ⊢
    obtain ⟨h1, h2, h3, h4⟩ := h
    exact ⟨h1, elemOK_mono_found jcol lurow0 lcolst0 ucolst rperm found _ _ i h2, h3,
      ih v h4⟩

theorem chainInv_set_parent (jcol : Nat)
    (lurow0 lcolst0 ucolst rperm found parent child : List Nat) (i w : Nat) :
    ∀ u stk, chainInv jcol lurow0 lcolst0 ucolst rperm found parent child u stk →
      u - off ≠ i → (∀ v ∈ stk, v - off ≠ i) →
      chainInv jcol lurow0 lcolst0 ucolst rperm found (parent.set i w) child u stk := by
  intro u stk
  induction stk generalizing u with
  | nil =>
    intro h hu _
    unfold chainInv at h ⊢
    rw [getD_set_ne parent w 0 (fun he => hu he.symm)]
    exact h
  | cons v rest ih =>
    intro h hu hstk
    unfold chainInv at h ⊢
    obtain ⟨h1, h2, h3, h4⟩ := h
    refine ⟨?_, h2, h3, ih v h4 (hstk v (List.mem_cons_self _ _)) ?_⟩
    · rw [getD_set_ne parent w 0 (fun he => hu he.symm)]
      exact h1
    · intro x hx
      exact hstk x (List.mem_cons_of_mem _ hx)

theorem chainInv_set_child (jcol : Nat)
    (lurow0 lcolst0 ucolst rperm found parent child : List Nat) (i w : Nat) :
    ∀ u stk, chainInv jcol lurow0 lcolst0 ucolst rperm found parent child u stk →
      (∀ v ∈ stk, v - off ≠ i) →
      chainInv jcol lurow0 lcolst0 ucolst rperm found parent (child.set i w) u stk := by
  intro u stk
  induction stk generalizing u with
  | nil => intro h _; exact h
  | cons v rest ih =>
    intro h hstk
    unfold chainInv at h ⊢
    obtain ⟨h1, h2, h3, h4⟩ := h
    refine ⟨h1, ?_, h3, ih v h4 (fun x hx => hstk x (List.mem_cons_of_mem _ hx))⟩
    rw [getD_set_ne child w 0
      (fun he => hstk v (List.mem_cons_self _ _) he.symm)]
    exact h2

theorem chainInv_facts (jcol : Nat)
    (lurow0 lcolst0 ucolst rperm found parent child : List Nat) :
    ∀ u stk, chainInv jcol lurow0 lcolst0 ucolst rperm found parent child u stk →
      ∀ v ∈ stk, 1 ≤ v ∧ rperm.getD (v - off) 0 ≠ 0 ∧
        found.getD (v - off) 0 = jcol ∧
        rperm.getD (v - off) 0 < rperm.getD (u - off) 0 := by
  intro u stk
  induction stk generalizing u with
  | nil => intro _ v hv; cases hv
  | cons x rest ih =>
    intro h v hv
    unfold chainInv at h
    obtain ⟨h1, h2, h3, h4⟩ := h
    unfold elemOK at h2
    rcases List.mem_cons.mp hv with he | hm
    · subst he
      exact ⟨h2.1, h2.2.1, h2.2.2.1, h3⟩
    · have := ih x h4 v hm
      exact ⟨this.1, this.2.1, this.2.2.1, lt_trans this.2.2.2 h3⟩

theorem childScan_none_spec (jcol : Nat) (rperm found lurow : List Nat) :
    ∀ n chdptr, childScan jcol rperm found lurow n chdptr = none →
      ∀ p, chdptr ≤ p → p < chdptr + n →
        dfsSkip jcol rperm found (lurow.getD (p - off) 0) := by
  intro n
  induction n with
  | zero => intro chdptr _ p h1 h2; omega
  | succ n ih =>
    intro chdptr h p h1 h2
    simp only [childScan] at h
    by_cases hr : rperm.getD (lurow.getD (chdptr - off) 0 - off) 0 = 0
    · rw [if_pos hr] at h
      rcases Nat.eq_or_lt_of_le h1 with he | hlt
      · subst he
        exact Or.inl hr
      · exact ih (chdptr + 1) h p hlt (by omega)
    · rw [if_neg hr] at h
      by_cases hf : found.getD (lurow.getD (chdptr - off) 0 - off) 0 = jcol
      · rw [if_pos hf] at h
        rcases Nat.eq_or_lt_of_le h1 with he | hlt
        · subst he
          exact Or.inr hf
        · exact ih (chdptr + 1) h p hlt (by omega)
      · rw [if_neg hf] at h
        exact absurd h (by simp)

theorem childScan_some_spec (jcol : Nat) (rperm found lurow : List Nat) :
    ∀ n chdptr nk cp1, childScan jcol rperm found lurow n chdptr = some (nk, cp1) →
      chdptr < cp1 ∧ cp1 ≤ chdptr + n ∧ nk = lurow.getD (cp1 - 1 - off) 0 ∧
      rperm.getD (nk - off) 0 ≠ 0 ∧ found.getD (nk - off) 0 ≠ jcol ∧
      ∀ p, chdptr ≤ p → p < cp1 - 1 →
        dfsSkip jcol rperm found (lurow.getD (p - off) 0) := by
  intro n
  induction n with
  | zero => intro chdptr nk cp1 h; exact absurd h (by simp [childScan])
  | succ n ih =>
    intro chdptr nk cp1 h
    simp only [childScan] at h
    by_cases hr : rperm.getD (lurow.getD (chdptr - off) 0 - off) 0 = 0
    · rw [if_pos hr] at h
      obtain ⟨g1, g2, g3, g4, g5, g6⟩ := ih (chdptr + 1) nk cp1 h
      refine ⟨by omega, by omega, g3, g4, g5, ?_⟩
      intro p h1 h2
      rcases Nat.eq_or_lt_of_le h1 with he | hlt
      · subst he
        exact Or.inl hr
      · exact g6 p hlt h2
    · rw [if_neg hr] at h
      by_cases hf : found.getD (lurow.getD (chdptr - off) 0 - off) 0 = jcol
      · rw [if_pos hf] at h
        obtain ⟨g1, g2, g3, g4, g5, g6⟩ := ih (chdptr + 1) nk cp1 h
        refine ⟨by omega, by omega, g3, g4, g5, ?_⟩
        intro p h1 h2
        rcases Nat.eq_or_lt_of_le h1 with he | hlt
        · subst he
          exact Or.inr hf
        · exact g6 p hlt h2
      · rw [if_neg hf] at h
        have hp := Prod.mk.inj (Option.some.inj h)
        refine ⟨by omega, by omega, ?_, ?_, ?_, ?_⟩
        · rw [← hp.2]
          have : chdptr + 1 - 1 - off = chdptr - off := by omega
          rw [this, hp.1]
        · rw [← hp.1]; exact hr
        · rw [← hp.1]; exact hf
        · intro p h1 h2
          omega

theorem mem_getD_index (E : List Nat) (v : Nat) (h : v ∈ E) :
    ∃ j, j < E.length ∧ E.getD j 0 = v := by
  obtain ⟨i, hi, he⟩ := List.getElem_of_mem h
  refine ⟨i, hi, ?_⟩
  rw [List.getD_eq_getElem?_getD, List.getElem?_eq_getElem hi]
  exact he

theorem emitted_append (lastlu0 : Nat) (st : DfsState) (krow : Nat)
    (hge : lastlu0 ≤ st.lastlu) (hlt : st.lastlu < st.lurow.length) :
    emitted lastlu0 { st with
        lastlu := st.lastlu + 1
        lurow := st.lurow.set (st.lastlu + 1 - off) krow } =
      emitted lastlu0 st ++ [krow] := by
  have hoff : off = 1 := rfl
  unfold emitted
  simp only
  have hn : st.lastlu + 1 - lastlu0 = (st.lastlu - lastlu0) + 1 := by omega
  rw [hn, colRows_append]
  have hidx : st.lastlu + 1 - off = st.lastlu := by omega
  rw [hidx]
  congr 1
  · apply colRows_congr
    intro q hq1 hq2
    exact getD_set_ne st.lurow krow 0 (by omega)
  · have hs : lastlu0 + 1 - off + (st.lastlu - lastlu0) = st.lastlu := by omega
    rw [hs]
    simp only [colRows]
    rw [getD_set_eq st.lurow krow 0 hlt]

theorem emittedBefore_append (r : Nat → Nat → Prop) (E : List Nat) (u : Nat)
    (h : emittedBefore r E) (hu : ∀ v, r u v → v ∈ E) :
    emittedBefore r (E ++ [u]) := by
  intro i hi v hrv
  rw [List.length_append, List.length_singleton] at hi
  by_cases hie : i < E.length
  · rw [List.getD_eq_getElem?_getD, List.getElem?_append_left hie,
      ← List.getD_eq_getElem?_getD] at hrv
    obtain ⟨j, hj, he⟩ := h i hie v hrv
    refine ⟨j, hj, ?_⟩
    rw [List.getD_eq_getElem?_getD, List.getElem?_append_left (by omega),
      ← List.getD_eq_getElem?_getD]
    exact he
  · have hieq : i = E.length := by omega
    subst hieq
    have hgu : (E ++ [u]).getD E.length 0 = u := by
      rw [List.getD_eq_getElem?_getD, List.getElem?_append_right (le_refl _)]
      simp
    rw [hgu] at hrv
    obtain ⟨j, hj, he⟩ := mem_getD_index E v (hu v hrv)
    refine ⟨j, hj, ?_⟩
    rw [List.getD_eq_getElem?_getD, List.getElem?_append_left hj,
      ← List.getD_eq_getElem?_getD]
    exact he

theorem dfsLoop_invariant (jcol : Nat) (lurow0 lcolst0 ucolst rperm : List Nat)
    (lastlu0 flen plen clen : Nat)
    (hvert : ∀ q, q < lastlu0 → 1 ≤ lurow0.getD q 0)
    (hrank : ∀ u, 1 ≤ u → rperm.getD (u - off) 0 ≠ 0 →
      ∀ v ∈ childList lurow0 lcolst0 ucolst rperm u, rperm.getD (v - off) 0 ≠ 0 →
        rperm.getD (u - off) 0 < rperm.getD (v - off) 0)
    (hrange : ∀ u, 1 ≤ u → rperm.getD (u - off) 0 ≠ 0 →
      off ≤ lcolst0.getD (rperm.getD (u - off) 0 - off) 0 ∧
      lcolst0.getD (rperm.getD (u - off) 0 - off) 0 ≤
        ucolst.getD (rperm.getD (u - off) 0 + 1 - off) 0 ∧
      ucolst.getD (rperm.getD (u - off) 0 + 1 - off) 0 ≤ lastlu0 + 1)
    (hbound : ∀ u, 1 ≤ u → rperm.getD (u - off) 0 ≠ 0 →
      u - off < flen ∧ u - off < plen ∧ u - off < clen) :
    ∀ fuel krow chdptr st st' stk,
      dfsLoop jcol ucolst rperm fuel krow chdptr st = some st' →
      st'.lastlu ≤ lurow0.length →
      dfsInv jcol lurow0 lcolst0 ucolst rperm lastlu0 flen plen clen (krow :: stk) st →
      elemOK jcol lurow0 lcolst0 ucolst rperm st.found krow chdptr →
      chainInv jcol lurow0 lcolst0 ucolst rperm st.found st.parent st.child krow stk →
      dfsInv jcol lurow0 lcolst0 ucolst rperm lastlu0 flen plen clen [] st' ∧
      (∀ i, st.found.getD i 0 = jcol → st'.found.getD i 0 = jcol) := by
  have hoff : off = 1 := rfl
  intro fuel
  induction fuel with
  | zero =>
    intro krow chdptr st st' stk h
    exact absurd h (by simp [dfsLoop])
  | succ fuel ih =>
    intro krow chdptr st st' stk h hcap hinv helem hchain
    unfold dfsInv at hinv
    obtain ⟨hI1, hI2, hI3, hI4, hI5, hI6, hI7, hI8, hI9⟩ := hinv
    have helem' := helem
    unfold elemOK at helem'
    obtain ⟨e1, e2, e3, e4, e5, e6⟩ := helem'
    have hrangeK := hrange krow e1 e2
    simp only [dfsLoop] at h
    cases hscan : childScan jcol rperm st.found st.lurow
        (ucolst.getD (rperm.getD (krow - off) 0 + 1 - off) 0 - chdptr) chdptr with
    | some p =>
      rw [hscan] at h
      obtain ⟨nk, cp1⟩ := p
      obtain ⟨g1, g2, g3, g4, g5, g6⟩ :=
        childScan_some_spec jcol rperm st.found st.lurow _ chdptr nk cp1 hscan
      have hcp1e : cp1 ≤ ucolst.getD (rperm.getD (krow - off) 0 + 1 - off) 0 := by
        omega
      have hnkix : cp1 - 1 - off < lastlu0 := by omega
      have hnk0 : nk = lurow0.getD (cp1 - 1 - off) 0 := by
        rw [g3, hI7 (cp1 - 1 - off) hnkix]
      have hnk1 : 1 ≤ nk := by
        rw [hnk0]
        exact hvert (cp1 - 1 - off) hnkix
      have hnkmem : nk ∈ childList lurow0 lcolst0 ucolst rperm krow := by
        unfold childList
        rw [mem_colRows_iff]
        exact ⟨cp1 - 1 - off, by omega, by omega, hnk0.symm⟩
      have hrankK := hrank krow e1 e2 nk hnkmem g4
      have hbK := hbound krow e1 e2
      have hbN := hbound nk hnk1 g4
      have hne : krow ≠ nk := fun he => g5 (he ▸ e3)
      have hnei : krow - off ≠ nk - off := by omega
      have hsfacts := chainInv_facts jcol lurow0 lcolst0 ucolst rperm st.found
        st.parent st.child krow stk hchain
      have hih := ih nk (st.lcolst.getD (rperm.getD (nk - off) 0 - off) 0)
        { st with
          child := st.child.set (krow - off) cp1
          parent := st.parent.set (nk - off) krow
          found := st.found.set (nk - off) jcol } st' (krow :: stk) h hcap ?_ ?_ ?_
      · exact ⟨hih.1, fun i hi => hih.2 i (found_set_jcol st.found jcol _ i hi)⟩
      · -- dfsInv for the forward step
        unfold dfsInv
        refine ⟨hI1, hI2, by simp [hI3], by simp [hI4], by simp [hI5], hI6, hI7, ?_, hI9⟩
        intro w hw1 hw2 hw3
        by_cases hwnk : w = nk
        · subst hwnk
          exact Or.inl (List.mem_cons_self _ _)
        · have hwix : w - off ≠ nk - off := by omega
          rw [getD_set_ne st.found jcol 0 (fun he => hwix he.symm)] at hw3
          rcases hI8 w hw1 hw2 hw3 with hws | hwe
          · exact Or.inl (List.mem_cons_of_mem _ hws)
          · exact Or.inr hwe
      · -- elemOK for the new top vertex nk
        rw [hI1]
        unfold elemOK
        refine ⟨hnk1, g4, ?_, Nat.le_refl _, (hrange nk hnk1 g4).2.1, ?_⟩
        · exact getD_set_eq st.found jcol 0 (by rw [hI3]; exact hbN.1)
        · intro p hp1 hp2
          omega
      · -- chainInv for the new stack nk :: krow :: stk
        have hc1 := chainInv_mono_found jcol lurow0 lcolst0 ucolst rperm st.found
          st.parent st.child (nk - off) krow stk hchain
        have hc2 := chainInv_set_parent jcol lurow0 lcolst0 ucolst rperm
          (st.found.set (nk - off) jcol) st.parent st.child (nk - off) krow krow stk hc1
          hnei ?_
        · have hc3 := chainInv_set_child jcol lurow0 lcolst0 ucolst rperm
            (st.found.set (nk - off) jcol) (st.parent.set (nk - off) krow) st.child
            (krow - off) cp1 krow stk hc2 ?_
          · unfold chainInv
            refine ⟨?_, ?_, hrankK, hc3⟩
            · exact getD_set_eq st.parent krow 0 (by rw [hI4]; exact hbN.2.1)
            · unfold elemOK
              have hcpget : ((st.child.set (krow - off) cp1).getD (krow - off) 0) = cp1 :=
                getD_set_eq st.child cp1 0 (by rw [hI5]; exact hbK.2.2)
              rw [hcpget]
              refine ⟨e1, e2, found_set_jcol st.found jcol _ _ e3, by omega, hcp1e, ?_⟩
              intro p hp1 hp2
              by_cases hpc : p < chdptr
              · exact dfsSkip_mono jcol rperm st.found _ _ (e6 p hp1 hpc)
              · by_cases hpe : p < cp1 - 1
                · have hg := g6 p (Nat.le_of_not_lt hpc) hpe
                  rw [hI7 (p - off) (by omega)] at hg
                  exact dfsSkip_mono jcol rperm st.found _ _ hg
                · have hpeq : p = cp1 - 1 := by omega
                  subst hpeq
                  right
                  rw [← hnk0]
                  exact getD_set_eq st.found jcol 0 (by rw [hI3]; exact hbN.1)
          · intro v hv
            have hvr := hsfacts v hv
            have : v ≠ krow := by
              intro he
              rw [he] at hvr
              omega
            omega
        · intro v hv
          have hvf := (hsfacts v hv).2.2.1
          have : v ≠ nk := fun he => g5 (he ▸ hvf)
          have hv1 := (hsfacts v hv).1
          omega
    | none =>
      rw [hscan] at h
      simp only at h
      have htotal : ∀ p, lcolst0.getD (rperm.getD (krow - off) 0 - off) 0 ≤ p →
          p < ucolst.getD (rperm.getD (krow - off) 0 + 1 - off) 0 →
          dfsSkip jcol rperm st.found (lurow0.getD (p - off) 0) := by
        intro p hp1 hp2
        by_cases hpc : p < chdptr
        · exact e6 p hp1 hpc
        · have hsk := childScan_none_spec jcol rperm st.found st.lurow _ chdptr hscan p
            (Nat.le_of_not_lt hpc) (by omega)
          rwa [hI7 (p - off) (by omega)] at hsk
      have hchild : ∀ v, dfsEdge lurow0 lcolst0 ucolst rperm krow v →
          v ∈ emitted lastlu0 st := by
        intro v hv
        unfold dfsEdge at hv
        obtain ⟨hv1, hv2, hv3, hv4, hv5⟩ := hv
        have hv5' := hv5
        unfold childList at hv5'
        rw [mem_colRows_iff] at hv5'
        obtain ⟨p0, hp1, hp2, hp3⟩ := hv5'
        have hlc1 : off ≤ lcolst0.getD (rperm.getD (krow - off) 0 - off) 0 := hrangeK.1
        have hsk := htotal (p0 + off) (by omega) (by omega)
        rw [show p0 + off - off = p0 by omega, hp3] at hsk
        unfold dfsSkip at hsk
        rcases hsk with hsk | hsk
        · exact absurd hsk hv4
        · rcases hI8 v hv2 hv4 hsk with hvs | hve
          · rcases List.mem_cons.mp hvs with he | hm
            · subst he
              exact absurd (hrank v e1 e2 v hv5 hv4) (lt_irrefl _)
            · have hvr := (chainInv_facts jcol lurow0 lcolst0 ucolst rperm st.found
                st.parent st.child krow stk hchain v hm).2.2.2
              have := hrank krow e1 e2 v hv5 hv4
              omega
          · exact hve
      cases stk with
      | nil =>
        have hpz : st.parent.getD (krow - off) 0 = 0 := hchain
        rw [if_pos hpz] at h
        have hst' : st' = { st with
            lastlu := st.lastlu + 1
            lurow := st.lurow.set (st.lastlu + 1 - off) krow } := (Option.some.inj h).symm
        have hlt : st.lastlu < st.lurow.length := by
          rw [hst'] at hcap
          simp only at hcap
          omega
        have hEapp := emitted_append lastlu0 st krow hI6 hlt
        subst hst'
        refine ⟨?_, fun i hi => hi⟩
        unfold dfsInv
        refine ⟨hI1, by simp [hI2], hI3, hI4, hI5, by simp; omega, ?_, ?_, ?_⟩
        · intro q hq
          simp only
          rw [getD_set_ne st.lurow krow 0 (by omega)]
          exact hI7 q hq
        · intro w hw1 hw2 hw3
          simp only at hw3
          rcases hI8 w hw1 hw2 hw3 with hws | hwe
          · rcases List.mem_cons.mp hws with he | hm
            · subst he
              right
              rw [hEapp]
              exact List.mem_append_right _ (List.mem_singleton_self _)
            · cases hm
          · right
            rw [hEapp]
            exact List.mem_append_left _ hwe
        · rw [hEapp]
          exact emittedBefore_append _ _ _ hI9 hchild
      | cons v rest =>
        have hchain' := hchain
        unfold chainInv at hchain'
        obtain ⟨c1, c2, c3, c4⟩ := hchain'
        have hv1 : 1 ≤ v := by
          unfold elemOK at c2
          exact c2.1
        rw [c1, if_neg (by omega : ¬ v = 0)] at h
        have hmono := dfsLoop_pres jcol ucolst rperm fuel _ _ _ _ h
        have hlt : st.lastlu < st.lurow.length := by
          have := hmono.2.2.2.1
          simp only at this
          omega
        have hEapp := emitted_append lastlu0 st krow hI6 hlt
        have hih := ih v (st.child.getD (v - off) 0)
          { st with
            lastlu := st.lastlu + 1
            lurow := st.lurow.set (st.lastlu + 1 - off) krow } st' rest h hcap ?_ c2 c4
        · exact hih
        · unfold dfsInv
          refine ⟨hI1, by simp [hI2], hI3, hI4, hI5, by simp; omega, ?_, ?_, ?_⟩
          · intro q hq
            simp only
            rw [getD_set_ne st.lurow krow 0 (by omega)]
            exact hI7 q hq
          · intro w hw1 hw2 hw3
            simp only at hw3
            rcases hI8 w hw1 hw2 hw3 with hws | hwe
            · rcases List.mem_cons.mp hws with he | hm
              · subst he
                right
                rw [hEapp]
                exact List.mem_append_right _ (List.mem_singleton_self _)
              · exact Or.inl hm
            · right
              rw [hEapp]
              exact List.mem_append_left _ hwe
          · rw [hEapp]
            exact emittedBefore_append _ _ _ hI9 hchild

theorem ludfsOuter_invariant (jcol : Nat) (a : List ℚ)
    (arow lurow0 lcolst0 ucolst rperm : List Nat)
    (lastlu0 flen plen clen fuel : Nat)
    (hvert : ∀ q, q < lastlu0 → 1 ≤ lurow0.getD q 0)
    (hrank : ∀ u, 1 ≤ u → rperm.getD (u - off) 0 ≠ 0 →
      ∀ v ∈ childList lurow0 lcolst0 ucolst rperm u, rperm.getD (v - off) 0 ≠ 0 →
        rperm.getD (u - off) 0 < rperm.getD (v - off) 0)
    (hrange : ∀ u, 1 ≤ u → rperm.getD (u - off) 0 ≠ 0 →
      off ≤ lcolst0.getD (rperm.getD (u - off) 0 - off) 0 ∧
      lcolst0.getD (rperm.getD (u - off) 0 - off) 0 ≤
        ucolst.getD (rperm.getD (u - off) 0 + 1 - off) 0 ∧
      ucolst.getD (rperm.getD (u - off) 0 + 1 - off) 0 ≤ lastlu0 + 1)
    (hbound : ∀ u, 1 ≤ u → rperm.getD (u - off) 0 ≠ 0 →
      u - off < flen ∧ u - off < plen ∧ u - off < clen)
    (haw : ∀ q, q < arow.length → 1 ≤ arow.getD q 0) :
    ∀ n nzaptr st st',
      ludfsOuter jcol a arow ucolst rperm fuel n nzaptr st = some st' →
      st'.lastlu ≤ lurow0.length →
      off ≤ nzaptr → nzaptr + n ≤ arow.length + 1 →
      dfsInv jcol lurow0 lcolst0 ucolst rperm lastlu0 flen plen clen [] st →
      dfsInv jcol lurow0 lcolst0 ucolst rperm lastlu0 flen plen clen [] st' ∧
      (∀ i, st.found.getD i 0 = jcol → st'.found.getD i 0 = jcol) := by
  have hoff : off = 1 := rfl
  intro n
  induction n with
  | zero =>
    intro nzaptr st st' h _ _ _ hinv
    simp only [ludfsOuter] at h
    have hst : st' = st := (Option.some.inj h).symm
    subst hst
    exact ⟨hinv, fun i hi => hi⟩
  | succ n ih =>
    intro nzaptr st st' h hcap hz hlen hinv
    simp only [ludfsOuter] at h
    by_cases h1 : rperm.getD (arow.getD (nzaptr - off) 0 - off) 0 = 0
    · rw [if_pos h1] at h
      exact ih (nzaptr + 1)
        { st with dense := (st.dense.set (arow.getD (nzaptr - off) 0 - off)
            (a.getD (nzaptr - off) 0)) } st' h hcap (by omega) (by omega) hinv
    · rw [if_neg h1] at h
      by_cases h3 : st.found.getD (arow.getD (nzaptr - off) 0 - off) 0 = jcol
      · rw [if_pos h3] at h
        exact ih (nzaptr + 1)
          { st with dense := (st.dense.set (arow.getD (nzaptr - off) 0 - off)
              (a.getD (nzaptr - off) 0)) } st' h hcap (by omega) (by omega) hinv
      · rw [if_neg h3] at h
        by_cases h4 : (st.dense.set (arow.getD (nzaptr - off) 0 - off)
            (a.getD (nzaptr - off) 0)).getD (arow.getD (nzaptr - off) 0 - off) 0 = 0
        · rw [if_pos h4] at h
          exact ih (nzaptr + 1)
            { st with dense := (st.dense.set (arow.getD (nzaptr - off) 0 - off)
                (a.getD (nzaptr - off) 0)) } st' h hcap (by omega) (by omega) hinv
        · rw [if_neg h4] at h
          have hinv' := hinv
          unfold dfsInv at hinv'
          obtain ⟨hI1, hI2, hI3, hI4, hI5, hI6, hI7, hI8, hI9⟩ := hinv'
          have hkr1 : 1 ≤ arow.getD (nzaptr - off) 0 :=
            haw (nzaptr - off) (by omega)
          have hbK := hbound (arow.getD (nzaptr - off) 0) hkr1 h1
          cases hdfs : dfsLoop jcol ucolst rperm fuel (arow.getD (nzaptr - off) 0)
              (st.lcolst.getD
                (rperm.getD (arow.getD (nzaptr - off) 0 - off) 0 - off) 0)
              { st with
                dense := st.dense.set (arow.getD (nzaptr - off) 0 - off)
                  (a.getD (nzaptr - off) 0)
                parent := st.parent.set (arow.getD (nzaptr - off) 0 - off) 0
                found := st.found.set (arow.getD (nzaptr - off) 0 - off) jcol } with
          | none => rw [hdfs] at h; exact absurd h (by simp)
          | some st3 =>
            rw [hdfs] at h
            have hout := ludfsOuter_pres jcol a arow ucolst rperm fuel n (nzaptr + 1)
              st3 st' h
            have hcap3 : st3.lastlu ≤ lurow0.length := by
              have := hout.2.2.2.1
              omega
            have hdinv := dfsLoop_invariant jcol lurow0 lcolst0 ucolst rperm lastlu0
              flen plen clen hvert hrank hrange hbound fuel
              (arow.getD (nzaptr - off) 0)
              (st.lcolst.getD
                (rperm.getD (arow.getD (nzaptr - off) 0 - off) 0 - off) 0)
              { st with
                dense := st.dense.set (arow.getD (nzaptr - off) 0 - off)
                  (a.getD (nzaptr - off) 0)
                parent := st.parent.set (arow.getD (nzaptr - off) 0 - off) 0
                found := st.found.set (arow.getD (nzaptr - off) 0 - off) jcol }
              st3 [] hdfs hcap3 ?_ ?_ ?_
            · have hih := ih (nzaptr + 1) st3 st' h hcap (by omega) (by omega) hdinv.1
              refine ⟨hih.1, ?_⟩
              intro i hi
              exact hih.2 i (hdinv.2 i (found_set_jcol st.found jcol _ i hi))
            · -- dfsInv for the rooted search
              unfold dfsInv
              refine ⟨hI1, hI2, by simp [hI3], by simp [hI4], hI5, hI6, hI7, ?_, hI9⟩
              intro w hw1 hw2 hw3
              simp only at hw3
              by_cases hwk : w = arow.getD (nzaptr - off) 0
              · subst hwk
                exact Or.inl (List.mem_cons_self _ _)
              · rw [getD_set_ne st.found jcol 0 (by omega)] at hw3
                rcases hI8 w hw1 hw2 hw3 with hws | hwe
                · cases hws
                · exact Or.inr hwe
            · -- elemOK for the root
              rw [hI1]
              unfold elemOK
              refine ⟨hkr1, h1, ?_, Nat.le_refl _,
                (hrange (arow.getD (nzaptr - off) 0) hkr1 h1).2.1, ?_⟩
              · exact getD_set_eq st.found jcol 0 (by rw [hI3]; exact hbK.1)
              · intro p hp1 hp2
                omega
            · -- chainInv for the root: empty stack
              show (st.parent.set (arow.getD (nzaptr - off) 0 - off) 0).getD
                (arow.getD (nzaptr - off) 0 - off) 0 = 0
              exact getD_set_eq st.parent 0 0 (by rw [hI4]; exact hbK.2.1)

theorem emittedBefore_transGen (r : Nat → Nat → Prop) (E : List Nat)
    (h : emittedBefore r E) (v u : Nat) (htg : Relation.TransGen r u v) :
    ∀ i, i < E.length → E.getD i 0 = u → ∃ j, j < i ∧ E.getD j 0 = v := by
  induction htg using Relation.TransGen.head_induction_on with
  | base hr =>
    intro i hi he
    exact h i hi v (by rw [he]; exact hr)
  | ih hr htg2 ih2 =>
    intro i hi he
    obtain ⟨jc, hjc, hec⟩ := h i hi _ (by rw [he]; exact hr)
    obtain ⟨j, hj, hej⟩ := ih2 jc (by omega) hec
    exact ⟨j, by omega, hej⟩

/-! ### Claim C3 -/

/-- C3: for every successful `ludfs` call satisfying the entry
preconditions (`found[*] < jcol`, `dense[*] = 0`,
`ucolst[jcol] = lastlu + 1`), with well-formed child ranges inside the
already-built prefix of `lurow` and the lower-triangular ranking of the
pivoted factor (every stored child of a pivoted column is pivoted
strictly later — the acyclicity of the searched graph), the row
identities written into `lurow` between `ucolst[jcol]` and
`lcolst[jcol] - 1` are in reverse topological order: everything
reachable from an emitted vertex along `dfsEdge` is emitted strictly
earlier. -/
theorem C3_reverse_topological (fuel jcol : Nat) (a : List ℚ)
    (arow acolst : List Nat) (lastlu : Nat)
    (lurow lcolst ucolst rperm cperm : List Nat) (dense : List ℚ)
    (found parent child : List Nat) (st : DfsState)
    (hjcol : 1 ≤ jcol)
    (hjl : jcol - off < lcolst.length)
    (hfound0 : ∀ i, i < found.length → found.getD i 0 < jcol)
    (_hdense0 : ∀ i, i < dense.length → dense.getD i 0 = 0)
    (hu0 : ucolst.getD (jcol - off) 0 = lastlu + 1)
    (hnz : off ≤ acolst.getD (cperm.getD (jcol - off) 0 - off) 0)
    (hnzlen : acolst.getD (cperm.getD (jcol - off) 0 + 1 - off) 0 ≤ arow.length + 1)
    (hvert : ∀ q, q < lastlu → 1 ≤ lurow.getD q 0)
    (haw : ∀ q, q < arow.length → 1 ≤ arow.getD q 0)
    (hrank : ∀ u, u ≤ rperm.length → 1 ≤ u → rperm.getD (u - off) 0 ≠ 0 →
      ∀ v ∈ childList lurow lcolst ucolst rperm u, rperm.getD (v - off) 0 ≠ 0 →
        rperm.getD (u - off) 0 < rperm.getD (v - off) 0)
    (hrange : ∀ u, u ≤ rperm.length → 1 ≤ u → rperm.getD (u - off) 0 ≠ 0 →
      off ≤ lcolst.getD (rperm.getD (u - off) 0 - off) 0 ∧
      lcolst.getD (rperm.getD (u - off) 0 - off) 0 ≤
        ucolst.getD (rperm.getD (u - off) 0 + 1 - off) 0 ∧
      ucolst.getD (rperm.getD (u - off) 0 + 1 - off) 0 ≤ lastlu + 1)
    (hbound : ∀ u, u ≤ rperm.length → 1 ≤ u → rperm.getD (u - off) 0 ≠ 0 →
      u - off < found.length ∧ u - off < parent.length ∧ u - off < child.length)
    (hres : ludfs fuel jcol a arow acolst lastlu lurow lcolst ucolst rperm cperm dense
        found parent child = some (Except.ok st))
    (hcap : st.lastlu ≤ lurow.length) :
    ∀ i, i < (colRows st.lurow
        (st.lcolst.getD (jcol - off) 0 - ucolst.getD (jcol - off) 0)
        (ucolst.getD (jcol - off) 0 - off)).length →
      ∀ v, Relation.TransGen (dfsEdge lurow lcolst ucolst rperm)
          ((colRows st.lurow
            (st.lcolst.getD (jcol - off) 0 - ucolst.getD (jcol - off) 0)
            (ucolst.getD (jcol - off) 0 - off)).getD i 0) v →
        ∃ j, j < i ∧ (colRows st.lurow
            (st.lcolst.getD (jcol - off) 0 - ucolst.getD (jcol - off) 0)
            (ucolst.getD (jcol - off) 0 - off)).getD j 0 = v := by
  have hoff : off = 1 := rfl
  have hrank' : ∀ u, 1 ≤ u → rperm.getD (u - off) 0 ≠ 0 →
      ∀ v ∈ childList lurow lcolst ucolst rperm u, rperm.getD (v - off) 0 ≠ 0 →
        rperm.getD (u - off) 0 < rperm.getD (v - off) 0 := by
    intro u hu hp
    exact hrank u (by have := getD_pivoted_lt rperm u hp; omega) hu hp
  have hrange' : ∀ u, 1 ≤ u → rperm.getD (u - off) 0 ≠ 0 →
      off ≤ lcolst.getD (rperm.getD (u - off) 0 - off) 0 ∧
      lcolst.getD (rperm.getD (u - off) 0 - off) 0 ≤
        ucolst.getD (rperm.getD (u - off) 0 + 1 - off) 0 ∧
      ucolst.getD (rperm.getD (u - off) 0 + 1 - off) 0 ≤ lastlu + 1 := by
    intro u hu hp
    exact hrange u (by have := getD_pivoted_lt rperm u hp; omega) hu hp
  have hbound' : ∀ u, 1 ≤ u → rperm.getD (u - off) 0 ≠ 0 →
      u - off < found.length ∧ u - off < parent.length ∧ u - off < child.length := by
    intro u hu hp
    exact hbound u (by have := getD_pivoted_lt rperm u hp; omega) hu hp
  simp only [ludfs] at hres
  split at hres
  · exact absurd hres (by simp)
  · rename_i hcond
    cases houter : ludfsOuter jcol a arow ucolst rperm fuel
        (acolst.getD (cperm.getD (jcol - off) 0 + 1 - off) 0 -
          acolst.getD (cperm.getD (jcol - off) 0 - off) 0)
        (acolst.getD (cperm.getD (jcol - off) 0 - off) 0)
        ⟨lastlu, lurow, lcolst, dense, found, parent, child⟩ with
    | none => rw [houter] at hres; exact absurd hres (by simp)
    | some st1 =>
      rw [houter] at hres
      simp only at hres
      have hst := (Except.ok.inj (Option.some.inj hres)).symm
      have hp := ludfsOuter_pres jcol a arow ucolst rperm fuel _ _ _ _ houter
      simp only at hp
      have hl1 := lColLoop_lastlu jcol arow rperm
        (acolst.getD (cperm.getD (jcol - off) 0 + 1 - off) 0 -
          acolst.getD (cperm.getD (jcol - off) 0 - off) 0)
        (acolst.getD (cperm.getD (jcol - off) 0 - off) 0) st1.lurow st1.found st1.lastlu
        hnz
      have hklen : st.lastlu = st1.lastlu +
          ((aColRows arow acolst cperm jcol).filter
            (fun s => decide (rperm.getD (s - off) 0 = 0))).length := by
        rw [hst]
        exact hl1
      have hcap1 : st1.lastlu ≤ lurow.length := by omega
      have hinv0 : dfsInv jcol lurow lcolst ucolst rperm lastlu found.length
          parent.length child.length []
          ⟨lastlu, lurow, lcolst, dense, found, parent, child⟩ := by
        unfold dfsInv
        refine ⟨rfl, rfl, rfl, rfl, rfl, Nat.le_refl _, fun q _ => rfl, ?_, ?_⟩
        · intro w hw1 hw2 hw3
          simp only at hw3
          by_cases hb : w - off < found.length
          · have := hfound0 (w - off) hb
            omega
          · rw [getD_oob found 0 (Nat.le_of_not_lt hb)] at hw3
            omega
        · intro i hi
          unfold emitted at hi
          simp only [Nat.sub_self] at hi
          simp [colRows] at hi
      have hOinv := ludfsOuter_invariant jcol a arow lurow lcolst ucolst rperm lastlu
        found.length parent.length child.length fuel hvert hrank' hrange' hbound' haw
        (acolst.getD (cperm.getD (jcol - off) 0 + 1 - off) 0 -
          acolst.getD (cperm.getD (jcol - off) 0 - off) 0)
        (acolst.getD (cperm.getD (jcol - off) 0 - off) 0)
        ⟨lastlu, lurow, lcolst, dense, found, parent, child⟩ st1 houter
        hcap1 hnz (by omega) hinv0
      have hOinv1 := hOinv.1
      unfold dfsInv at hOinv1
      obtain ⟨hJ1, hJ2, hJ3, hJ4, hJ5, hJ6, hJ7, hJ8, hJ9⟩ := hOinv1
      have hlcget : st.lcolst.getD (jcol - off) 0 = st1.lastlu + 1 := by
        rw [hst]
        exact getD_set_eq st1.lcolst _ 0 (by rw [hJ1]; exact hjl)
      have hcap2 : st1.lastlu + ((aColRows arow acolst cperm jcol).filter
          (fun s => decide (rperm.getD (s - off) 0 = 0))).length ≤ st1.lurow.length := by
        rw [hJ2]
        omega
      have hspec := lColLoop_spec jcol arow rperm
        (acolst.getD (cperm.getD (jcol - off) 0 + 1 - off) 0 -
          acolst.getD (cperm.getD (jcol - off) 0 - off) 0)
        (acolst.getD (cperm.getD (jcol - off) 0 - off) 0) st1.lurow st1.found st1.lastlu
        hnz hcap2
      have hreg : colRows st.lurow
          (st.lcolst.getD (jcol - off) 0 - ucolst.getD (jcol - off) 0)
          (ucolst.getD (jcol - off) 0 - off) = emitted lastlu st1 := by
        rw [hlcget, hu0]
        have hn : st1.lastlu + 1 - (lastlu + 1) = st1.lastlu - lastlu := by omega
        have hs : lastlu + 1 - off = lastlu := by omega
        rw [hn, hs]
        unfold emitted
        rw [hs, hst]
        apply colRows_congr
        intro q hq1 hq2
        exact hspec.2.1 q (by omega)
      intro i hi v htg
      rw [hreg] at hi htg ⊢
      exact emittedBefore_transGen (dfsEdge lurow lcolst ucolst rperm)
        (emitted lastlu st1) hJ9 v _ htg i hi rfl

/-- C3 witness: two already-pivoted columns (rows 1 and 2); the search
rooted at row 1 walks 1 → 2, emits 2 then 1, so the U part is `[2, 1]`
and the reverse topological conclusion applies. -/
theorem C3_reverse_topological_witness :
    (ludfs 10 3 [2, 5] [1, 4] [0, 0, 1, 3] 2 [2, 3, 0, 0, 0, 0] [1, 2, 0] [1, 2, 3]
        [1, 2, 0, 0] [0, 0, 3] [0, 0, 0, 0] [0, 0, 0, 0] [0, 0, 0, 0] [0, 0, 0, 0] =
      some (Except.ok ⟨5, [2, 3, 2, 1, 4, 0], [1, 2, 5], [2, 0, 0, 5], [3, 3, 0, 3],
        [0, 1, 0, 0], [2, 0, 0, 0]⟩)) ∧
    (∀ i, i < (colRows (⟨5, [2, 3, 2, 1, 4, 0], [1, 2, 5], [2, 0, 0, 5], [3, 3, 0, 3],
          [0, 1, 0, 0], [2, 0, 0, 0]⟩ : DfsState).lurow
          ((⟨5, [2, 3, 2, 1, 4, 0], [1, 2, 5], [2, 0, 0, 5], [3, 3, 0, 3], [0, 1, 0, 0],
            [2, 0, 0, 0]⟩ : DfsState).lcolst.getD (3 - off) 0 -
            ([1, 2, 3] : List Nat).getD (3 - off) 0)
          (([1, 2, 3] : List Nat).getD (3 - off) 0 - off)).length →
      ∀ v, Relation.TransGen
          (dfsEdge [2, 3, 0, 0, 0, 0] [1, 2, 0] [1, 2, 3] [1, 2, 0, 0])
          ((colRows (⟨5, [2, 3, 2, 1, 4, 0], [1, 2, 5], [2, 0, 0, 5], [3, 3, 0, 3],
            [0, 1, 0, 0], [2, 0, 0, 0]⟩ : DfsState).lurow
            ((⟨5, [2, 3, 2, 1, 4, 0], [1, 2, 5], [2, 0, 0, 5], [3, 3, 0, 3],
              [0, 1, 0, 0], [2, 0, 0, 0]⟩ : DfsState).lcolst.getD (3 - off) 0 -
              ([1, 2, 3] : List Nat).getD (3 - off) 0)
            (([1, 2, 3] : List Nat).getD (3 - off) 0 - off)).getD i 0) v →
        ∃ j, j < i ∧ (colRows (⟨5, [2, 3, 2, 1, 4, 0], [1, 2, 5], [2, 0, 0, 5],
            [3, 3, 0, 3], [0, 1, 0, 0], [2, 0, 0, 0]⟩ : DfsState).lurow
            ((⟨5, [2, 3, 2, 1, 4, 0], [1, 2, 5], [2, 0, 0, 5], [3, 3, 0, 3],
              [0, 1, 0, 0], [2, 0, 0, 0]⟩ : DfsState).lcolst.getD (3 - off) 0 -
              ([1, 2, 3] : List Nat).getD (3 - off) 0)
            (([1, 2, 3] : List Nat).getD (3 - off) 0 - off)).getD j 0 = v) :=
  ⟨by decide, C3_reverse_topological 10 3 [2, 5] [1, 4] [0, 0, 1, 3] 2
    [2, 3, 0, 0, 0, 0] [1, 2, 0] [1, 2, 3] [1, 2, 0, 0] [0, 0, 3] [0, 0, 0, 0]
    [0, 0, 0, 0] [0, 0, 0, 0] [0, 0, 0, 0]
    ⟨5, [2, 3, 2, 1, 4, 0], [1, 2, 5], [2, 0, 0, 5], [3, 3, 0, 3], [0, 1, 0, 0],
      [2, 0, 0, 0]⟩
    (by decide) (by decide) (by decide) (by decide) (by decide) (by decide) (by decide)
    (by decide) (by decide) (by decide) (by decide) (by decide) (by decide) (by decide)⟩
